import Mathlib

/-!
Verification of the hand-analysis engine of `src/ai/shanten_ai.py` (with the tile
model of `src/game/tile.py` and the player fields it reads from `src/game/player.py`).

The Python code is shallowly embedded: tiles are immutable records, the tile-count
dictionary becomes a counting function over tile keys, the mutating backtracking
enumerator becomes a state-passing function (so that restoration of the mutated
vector is provable), Python early `return` inside loops becomes an `Except`-valued
fold, float scores become rationals, and runtime errors (an unbound local read,
out-of-fuel recursion) become `Except` errors.
-/

set_option autoImplicit false

namespace Mahjong

/-! ## Tile model (src/game/tile.py) -/

inductive TileType where
  | wan | tong | tiao | feng | jian
deriving DecidableEq, Repr

inductive FengType where
  | dong | nan | xi | bei
deriving DecidableEq, Repr

inductive JianType where
  | zhong | fa | bai
deriving DecidableEq, Repr

/-- Mirror of the frozen dataclass `Tile`: equality is field-wise.  `value`
defaults to `0` and the honor fields default to `None`, exactly as in the source. -/
structure Tile where
  tile_type : TileType
  value : Nat := 0
  feng_type : Option FengType := none
  jian_type : Option JianType := none
deriving DecidableEq, Repr

/-- The second component of the dictionary keys built by
`ShantenCalculator._count_tiles`: an int for numbered tiles, a `FengType` for wind
tiles and a `JianType` for dragon tiles (kept as `Option` because the Python
attributes can be `None`). -/
inductive KeyVal where
  | num (n : Nat)
  | fengv (f : Option FengType)
  | jianv (j : Option JianType)
deriving DecidableEq, Repr

abbrev TileKey := TileType × KeyVal

/-- Key of one tile, as built in `_count_tiles` (and again in `calculate_ukeire`). -/
def tileKey (t : Tile) : TileKey :=
  match t.tile_type with
  | .feng => (.feng, .fengv t.feng_type)
  | .jian => (.jian, .jianv t.jian_type)
  | tt => (tt, .num t.value)

/-- The count dictionary of `_count_tiles`, as a function: how many tiles of the
hand have this key. -/
def tileCounts (tiles : List Tile) (k : TileKey) : Nat :=
  (tiles.map tileKey).count k

/-- The keys present in the count dictionary (each key once).  Only used where the
Python code iterates over the dictionary; all such iterations below are
order-independent aggregates. -/
def handKeys (tiles : List Tile) : List TileKey :=
  (tiles.map tileKey).dedup

/-! ## Decomposition search (`ShantenCalculator._enumerate_combinations`)

The Python function mutates a 9-slot count list and restores it on every exit
path; the embedding passes the list as explicit state and returns the final list
together with the accumulated results, so that the restoration is a provable
statement.  The recursion (which terminates because every branch strictly shrinks
the tile sum) is driven by explicit fuel; callers supply `sum + 1` fuel, which is
shown below to be enough. -/

/-- First index `i < 9` with `counts[i] > 0` (the Python scan that sets `pos`). -/
def firstNonzero (counts : List Nat) : Option Nat :=
  (List.range 9).find? (fun i => counts.getD i 0 != 0)

/-- Threaded state of the enumerator: the mutable count list plus the growing
result list. -/
abbrev EnumState := List Nat × List (Nat × Nat × Nat)

/-- Type of the recursive call available to each branch. -/
abbrev EnumRec := List Nat → Nat → Nat → Nat → List (Nat × Nat × Nat) → EnumState

/-- Branch 1 of `_enumerate_combinations`: consume a triplet.  Reads and writes
the threaded count list exactly in the source's order (decrement, recurse,
re-increment the then-current value). -/
def branch_triplet (f : EnumRec) (pos melds tatsu pairs : Nat) (st : EnumState) :
    EnumState :=
  if 3 ≤ st.1.getD pos 0 then
    let c := st.1.set pos (st.1.getD pos 0 - 3)
    let r := f c (melds + 1) tatsu pairs st.2
    (r.1.set pos (r.1.getD pos 0 + 3), r.2)
  else st

/-- Branch 2: consume a run `pos, pos+1, pos+2`. -/
def branch_run (f : EnumRec) (pos melds tatsu pairs : Nat) (st : EnumState) :
    EnumState :=
  if pos ≤ 6 ∧ 0 < st.1.getD pos 0 ∧ 0 < st.1.getD (pos + 1) 0 ∧
      0 < st.1.getD (pos + 2) 0 then
    let a1 := st.1.set pos (st.1.getD pos 0 - 1)
    let a2 := a1.set (pos + 1) (a1.getD (pos + 1) 0 - 1)
    let a3 := a2.set (pos + 2) (a2.getD (pos + 2) 0 - 1)
    let r := f a3 (melds + 1) tatsu pairs st.2
    let b1 := r.1.set pos (r.1.getD pos 0 + 1)
    let b2 := b1.set (pos + 1) (b1.getD (pos + 1) 0 + 1)
    let b3 := b2.set (pos + 2) (b2.getD (pos + 2) 0 + 1)
    (b3, r.2)
  else st

/-- Branch 3: consume a pair. -/
def branch_pair (f : EnumRec) (pos melds tatsu pairs : Nat) (st : EnumState) :
    EnumState :=
  if 2 ≤ st.1.getD pos 0 then
    let c := st.1.set pos (st.1.getD pos 0 - 2)
    let r := f c melds tatsu (pairs + 1) st.2
    (r.1.set pos (r.1.getD pos 0 + 2), r.2)
  else st

/-- Branch 4: consume a two-sided partial run `pos, pos+1`. -/
def branch_twosided (f : EnumRec) (pos melds tatsu pairs : Nat) (st : EnumState) :
    EnumState :=
  if pos ≤ 7 ∧ 0 < st.1.getD pos 0 ∧ 0 < st.1.getD (pos + 1) 0 then
    let a1 := st.1.set pos (st.1.getD pos 0 - 1)
    let a2 := a1.set (pos + 1) (a1.getD (pos + 1) 0 - 1)
    let r := f a2 melds (tatsu + 1) pairs st.2
    let b1 := r.1.set pos (r.1.getD pos 0 + 1)
    let b2 := b1.set (pos + 1) (b1.getD (pos + 1) 0 + 1)
    (b2, r.2)
  else st

/-- Branch 5: consume a gapped partial run `pos, pos+2`. -/
def branch_gapped (f : EnumRec) (pos melds tatsu pairs : Nat) (st : EnumState) :
    EnumState :=
  if pos ≤ 6 ∧ 0 < st.1.getD pos 0 ∧ 0 < st.1.getD (pos + 2) 0 then
    let a1 := st.1.set pos (st.1.getD pos 0 - 1)
    let a2 := a1.set (pos + 2) (a1.getD (pos + 2) 0 - 1)
    let r := f a2 melds (tatsu + 1) pairs st.2
    let b1 := r.1.set pos (r.1.getD pos 0 + 1)
    let b2 := b1.set (pos + 2) (b1.getD (pos + 2) 0 + 1)
    (b2, r.2)
  else st

/-- Branch 6: skip the tile at `pos` as a lone tile (unconditional). -/
def branch_lone (f : EnumRec) (pos melds tatsu pairs : Nat) (st : EnumState) :
    EnumState :=
  let c := st.1.set pos (st.1.getD pos 0 - 1)
  let r := f c melds tatsu pairs st.2
  (r.1.set pos (r.1.getD pos 0 + 1), r.2)

/-- State-passing embedding of `_enumerate_combinations`: at the first nonzero
position, run the six branches in the source's order, each reading the count
list as left by the previous branch's restoration. -/
def enumerate_combinations :
    Nat → List Nat → Nat → Nat → Nat → List (Nat × Nat × Nat) → EnumState
  | 0, counts, _, _, _, results => (counts, results)
  | fuel + 1, counts, melds, tatsu, pairs, results =>
    match firstNonzero counts with
    | none => (counts, results ++ [(melds, tatsu, pairs)])
    | some pos =>
      let f := enumerate_combinations fuel
      branch_lone f pos melds tatsu pairs
        (branch_gapped f pos melds tatsu pairs
          (branch_twosided f pos melds tatsu pairs
            (branch_pair f pos melds tatsu pairs
              (branch_run f pos melds tatsu pairs
                (branch_triplet f pos melds tatsu pairs (counts, results))))))

/-- Embedding of `_get_suit_combinations`.  `not suit_counts or len(...) != 9`
collapses to the length test (the empty list has length 0); `list(set(results))`
becomes `dedup` (the order of the deduplicated list is irrelevant downstream). -/
def get_suit_combinations (suit_counts : List Nat) : List (Nat × Nat × Nat) :=
  if suit_counts.length ≠ 9 then [(0, 0, 0)]
  else if suit_counts.all (· == 0) then [(0, 0, 0)]
  else
    let results := (enumerate_combinations (suit_counts.sum + 1) suit_counts 0 0 0 []).2
    let u := results.dedup
    if u = [] then [(0, 0, 0)] else u

/-! ## Shanten formulas (`ShantenCalculator`) -/

/-- Embedding of `_calc_shanten_from_groups`. -/
def calc_shanten_from_groups (melds tatsu pairs : Nat) : Int :=
  let shanten : Int := 8 - 2 * (melds : Int) - min ((tatsu : Int) + (pairs : Int)) (4 - (melds : Int))
  if 1 ≤ pairs ∧ 5 ≤ melds + tatsu + pairs then shanten - 1 else shanten

/-- All structurally possible honor keys (the dictionary iteration in
`_calculate_standard_shanten` visits exactly the honor keys present in the hand;
summing the per-key contribution over every possible honor key is the same
aggregate, since an absent key contributes 0). -/
def feng_jian_keys : List TileKey :=
  [(.feng, .fengv none), (.feng, .fengv (some .dong)), (.feng, .fengv (some .nan)),
   (.feng, .fengv (some .xi)), (.feng, .fengv (some .bei)),
   (.jian, .jianv none), (.jian, .jianv (some .zhong)), (.jian, .jianv (some .fa)),
   (.jian, .jianv (some .bai))]

/-- Honor melds: per key, `count // 3` under the `count >= 3` guard. -/
def honor_melds (tiles : List Tile) : Nat :=
  (feng_jian_keys.map fun k =>
    if 3 ≤ tileCounts tiles k then tileCounts tiles k / 3 else 0).sum

/-- Remainder left for one honor key after the `count >= 3` branch. -/
def honor_rem (c : Nat) : Nat := if 3 ≤ c then c % 3 else c

/-- Honor pairs: keys whose remainder is exactly 2. -/
def honor_pairs (tiles : List Tile) : Nat :=
  (feng_jian_keys.map fun k => if honor_rem (tileCounts tiles k) = 2 then 1 else 0).sum

/-- The 9-slot rank-count vector of one numbered suit
(`[counts.get((suit, i), 0) for i in range(1, 10)]`). -/
def suit_vector (tiles : List Tile) (suit : TileType) : List Nat :=
  (List.range 9).map fun i => tileCounts tiles (suit, .num (i + 1))

/-- Totals of one cross-suit combination: melds (with honors and the exposed-meld
count), partial sets, pairs (with honors). -/
def combo_melds (hm mc : Nat) (w t b : Nat × Nat × Nat) : Nat := w.1 + t.1 + b.1 + hm + mc

def combo_tatsu (w t b : Nat × Nat × Nat) : Nat := w.2.1 + t.2.1 + b.2.1

def combo_pairs (hp : Nat) (w t b : Nat × Nat × Nat) : Nat := w.2.2 + t.2.2 + b.2.2 + hp

/-- The completion test of the inner loop (`total_melds == 4 and total_pairs == 1
and total_tatsu == 0`), which triggers the early `return -1`. -/
def completion_check (hm hp mc : Nat) (w t b : Nat × Nat × Nat) : Bool :=
  combo_melds hm mc w t b == 4 && combo_pairs hp w t b == 1 && combo_tatsu w t b == 0

/-- Shanten of one cross-suit combination. -/
def combo_shanten (hm hp mc : Nat) (w t b : Nat × Nat × Nat) : Int :=
  calc_shanten_from_groups (combo_melds hm mc w t b) (combo_tatsu w t b) (combo_pairs hp w t b)

/-- Innermost loop body: early `return -1` becomes `Except.error ()`. -/
def scan_step (hm hp mc : Nat) (w t b : Nat × Nat × Nat) (acc : Int) : Except Unit Int :=
  if completion_check hm hp mc w t b then .error ()
  else .ok (min acc (combo_shanten hm hp mc w t b))

def scan_b (hm hp mc : Nat) (w t : Nat × Nat × Nat) (B : List (Nat × Nat × Nat))
    (acc : Int) : Except Unit Int :=
  B.foldlM (fun a b => scan_step hm hp mc w t b a) acc

def scan_t (hm hp mc : Nat) (w : Nat × Nat × Nat) (T B : List (Nat × Nat × Nat))
    (acc : Int) : Except Unit Int :=
  T.foldlM (fun a t => scan_b hm hp mc w t B a) acc

def scan_w (hm hp mc : Nat) (W T B : List (Nat × Nat × Nat)) (acc : Int) :
    Except Unit Int :=
  W.foldlM (fun a w => scan_t hm hp mc w T B a) acc

/-- The list of decomposition triples of one suit of the hand. -/
def suit_combos (tiles : List Tile) (suit : TileType) : List (Nat × Nat × Nat) :=
  get_suit_combinations (suit_vector tiles suit)

/-- Embedding of `_calculate_standard_shanten`: honors via the closed form, the
three suit vectors (the `del` of honor keys does not affect numbered-suit keys),
then the triple loop starting from `min_shanten = 8`, and finally `max(0, ...)`
unless the completion test returned `-1` early. -/
def calculate_standard_shanten (tiles : List Tile) (melds_count : Nat) : Int :=
  match scan_w (honor_melds tiles) (honor_pairs tiles) melds_count
      (suit_combos tiles .wan) (suit_combos tiles .tong) (suit_combos tiles .tiao) 8 with
  | .error _ => -1
  | .ok m => max 0 m

/-- Embedding of `_calculate_seven_pairs_shanten` (the `single_tiles` tally of the
source is dead code — only the commented-out return used it — and is omitted). -/
def calculate_seven_pairs_shanten (tiles : List Tile) : Int :=
  let pairs := ((handKeys tiles).map fun k =>
    if 2 ≤ tileCounts tiles k then tileCounts tiles k / 2 else 0).sum
  if pairs = 7 then -1 else 6 - (pairs : Int)

/-- The 13 kokushi keys of `_calculate_kokushi_shanten`. -/
def kokushi_keys : List TileKey :=
  [(.wan, .num 1), (.wan, .num 9), (.tong, .num 1), (.tong, .num 9),
   (.tiao, .num 1), (.tiao, .num 9),
   (.feng, .fengv (some .dong)), (.feng, .fengv (some .nan)),
   (.feng, .fengv (some .xi)), (.feng, .fengv (some .bei)),
   (.jian, .jianv (some .zhong)), (.jian, .jianv (some .fa)),
   (.jian, .jianv (some .bai))]

/-- Embedding of `_calculate_kokushi_shanten`. -/
def calculate_kokushi_shanten (tiles : List Tile) : Int :=
  let types := (kokushi_keys.filter fun k => 0 < tileCounts tiles k).length
  let hasPair := kokushi_keys.any fun k => 2 ≤ tileCounts tiles k
  if hasPair then
    if types = 13 then -1 else max 0 (12 - (types : Int))
  else
    max 0 (13 - (types : Int))

/-- The `shentan_type` literal of the public entry point. -/
inductive ShentanType where
  | general | pairs | kokushi
deriving DecidableEq, Repr

/-- Embedding of `ShantenCalculator.calculate_shanten`: the empty hand
short-circuits to 13, then the per-shape dispatch. -/
def calculate_shanten (tiles : List Tile) (melds_count : Nat)
    (shentan_type : ShentanType) : Int :=
  if tiles = [] then 13
  else
    match shentan_type with
    | .general => calculate_standard_shanten tiles melds_count
    | .pairs => calculate_seven_pairs_shanten tiles
    | .kokushi => calculate_kokushi_shanten tiles

/-! ## List helper lemmas for the threaded count vector -/

theorem lt_length_of_getD_pos (v : List Nat) (i : Nat) (h : 0 < v.getD i 0) :
    i < v.length := by
  by_contra hle
  push_neg at hle
  rw [List.getD_eq_default v 0 hle] at h
  exact absurd h (lt_irrefl 0)

theorem getD_set_self (v : List Nat) (i x : Nat) (h : i < v.length) :
    (v.set i x).getD i 0 = x := by
  rw [List.getD_eq_getElem?_getD, List.getElem?_set_self h]
  rfl

theorem getD_set_ne (v : List Nat) {i j : Nat} (x : Nat) (h : i ≠ j) :
    (v.set i x).getD j 0 = v.getD j 0 := by
  rw [List.getD_eq_getElem?_getD, List.getElem?_set_ne h, ← List.getD_eq_getElem?_getD]

theorem set_getD_self (v : List Nat) (i : Nat) : v.set i (v.getD i 0) = v := by
  apply List.ext_getElem?
  intro n
  rw [List.getElem?_set]
  by_cases hin : i = n
  · subst hin
    by_cases hlen : i < v.length
    · simp [hlen, List.getElem?_eq_getElem hlen, List.getD_eq_getElem?_getD]
    · simp [hlen, List.getElem?_eq_none (by omega : v.length ≤ i)]
  · simp [hin]

/-! ## C9: every branch of the enumerator restores the count vector -/

theorem branch_triplet_fst (f : EnumRec) (hf : ∀ c m t p r, (f c m t p r).1 = c)
    (pos melds tatsu pairs : Nat) (st : EnumState) :
    (branch_triplet f pos melds tatsu pairs st).1 = st.1 := by
  unfold branch_triplet
  split
  case isTrue h =>
    have hlen : pos < st.1.length := lt_length_of_getD_pos _ _ (by omega)
    simp only [hf]
    rw [getD_set_self _ _ _ hlen, List.set_set]
    have h3 : st.1.getD pos 0 - 3 + 3 = st.1.getD pos 0 := by omega
    rw [h3, set_getD_self]
  case isFalse h => rfl

theorem branch_pair_fst (f : EnumRec) (hf : ∀ c m t p r, (f c m t p r).1 = c)
    (pos melds tatsu pairs : Nat) (st : EnumState) :
    (branch_pair f pos melds tatsu pairs st).1 = st.1 := by
  unfold branch_pair
  split
  case isTrue h =>
    have hlen : pos < st.1.length := lt_length_of_getD_pos _ _ (by omega)
    simp only [hf]
    rw [getD_set_self _ _ _ hlen, List.set_set]
    have h2 : st.1.getD pos 0 - 2 + 2 = st.1.getD pos 0 := by omega
    rw [h2, set_getD_self]
  case isFalse h => rfl

theorem branch_lone_fst (f : EnumRec) (hf : ∀ c m t p r, (f c m t p r).1 = c)
    (pos melds tatsu pairs : Nat) (st : EnumState)
    (hpos : 0 < st.1.getD pos 0) :
    (branch_lone f pos melds tatsu pairs st).1 = st.1 := by
  unfold branch_lone
  have hlen : pos < st.1.length := lt_length_of_getD_pos _ _ hpos
  simp only [hf]
  rw [getD_set_self _ _ _ hlen, List.set_set]
  have h1 : st.1.getD pos 0 - 1 + 1 = st.1.getD pos 0 := by omega
  rw [h1, set_getD_self]

theorem eq_of_getD (v w : List Nat) (hlen : v.length = w.length)
    (h : ∀ n, n < v.length → v.getD n 0 = w.getD n 0) : v = w := by
  apply List.ext_getElem hlen
  intro n h1 h2
  have hd := h n h1
  rwa [List.getD_eq_getElem?_getD, List.getD_eq_getElem?_getD,
    List.getElem?_eq_getElem h1, List.getElem?_eq_getElem h2] at hd

theorem branch_twosided_fst (f : EnumRec) (hf : ∀ c m t p r, (f c m t p r).1 = c)
    (pos melds tatsu pairs : Nat) (st : EnumState) :
    (branch_twosided f pos melds tatsu pairs st).1 = st.1 := by
  unfold branch_twosided
  split
  case isTrue h =>
    obtain ⟨h7, h0, h1⟩ := h
    have l0 : pos < st.1.length := lt_length_of_getD_pos _ _ h0
    have l1 : pos + 1 < st.1.length := lt_length_of_getD_pos _ _ h1
    simp only [hf]
    apply eq_of_getD
    · simp [List.length_set]
    · intro n hn
      simp only [List.length_set] at hn
      by_cases e0 : n = pos
      · subst e0
        simp (disch := (try simp only [List.length_set]); omega) only
          [getD_set_self, getD_set_ne]
        omega
      · by_cases e1 : n = pos + 1
        · subst e1
          simp (disch := (try simp only [List.length_set]); omega) only
            [getD_set_self, getD_set_ne]
          omega
        · simp (disch := omega) only [getD_set_ne]
  case isFalse h => rfl

theorem branch_gapped_fst (f : EnumRec) (hf : ∀ c m t p r, (f c m t p r).1 = c)
    (pos melds tatsu pairs : Nat) (st : EnumState) :
    (branch_gapped f pos melds tatsu pairs st).1 = st.1 := by
  unfold branch_gapped
  split
  case isTrue h =>
    obtain ⟨h6, h0, h2⟩ := h
    have l0 : pos < st.1.length := lt_length_of_getD_pos _ _ h0
    have l2 : pos + 2 < st.1.length := lt_length_of_getD_pos _ _ h2
    simp only [hf]
    apply eq_of_getD
    · simp [List.length_set]
    · intro n hn
      simp only [List.length_set] at hn
      by_cases e0 : n = pos
      · subst e0
        simp (disch := (try simp only [List.length_set]); omega) only
          [getD_set_self, getD_set_ne]
        omega
      · by_cases e2 : n = pos + 2
        · subst e2
          simp (disch := (try simp only [List.length_set]); omega) only
            [getD_set_self, getD_set_ne]
          omega
        · simp (disch := omega) only [getD_set_ne]
  case isFalse h => rfl

theorem branch_run_fst (f : EnumRec) (hf : ∀ c m t p r, (f c m t p r).1 = c)
    (pos melds tatsu pairs : Nat) (st : EnumState) :
    (branch_run f pos melds tatsu pairs st).1 = st.1 := by
  unfold branch_run
  split
  case isTrue h =>
    obtain ⟨h6, h0, h1, h2⟩ := h
    have l0 : pos < st.1.length := lt_length_of_getD_pos _ _ h0
    have l1 : pos + 1 < st.1.length := lt_length_of_getD_pos _ _ h1
    have l2 : pos + 2 < st.1.length := lt_length_of_getD_pos _ _ h2
    simp only [hf]
    apply eq_of_getD
    · simp [List.length_set]
    · intro n hn
      simp only [List.length_set] at hn
      by_cases e0 : n = pos
      · subst e0
        simp (disch := (try simp only [List.length_set]); omega) only
          [getD_set_self, getD_set_ne]
        omega
      · by_cases e1 : n = pos + 1
        · subst e1
          simp (disch := (try simp only [List.length_set]); omega) only
            [getD_set_self, getD_set_ne]
          omega
        · by_cases e2 : n = pos + 2
          · subst e2
            simp (disch := (try simp only [List.length_set]); omega) only
              [getD_set_self, getD_set_ne]
            omega
          · simp (disch := omega) only [getD_set_ne]
  case isFalse h => rfl

theorem firstNonzero_pos (counts : List Nat) (pos : Nat)
    (h : firstNonzero counts = some pos) : 0 < counts.getD pos 0 := by
  unfold firstNonzero at h
  have := List.find?_some h
  simpa using Nat.pos_of_ne_zero (by simpa using this)

/-- C9: for every count vector and every initial accumulator values, the
decomposition enumeration returns the vector exactly as it received it — every
decrement made by any branch is restored on every exit path. -/
theorem C9_enumeration_restores_counts (fuel : Nat) (counts : List Nat)
    (melds tatsu pairs : Nat) (results : List (Nat × Nat × Nat)) :
    (enumerate_combinations fuel counts melds tatsu pairs results).1 = counts := by
  induction fuel generalizing counts melds tatsu pairs results with
  | zero => rfl
  | succ fuel ih =>
    rw [enumerate_combinations]
    cases hfz : firstNonzero counts with
    | none => rfl
    | some pos =>
      have hpos := firstNonzero_pos counts pos hfz
      simp only
      rw [branch_lone_fst _ ih, branch_gapped_fst _ ih, branch_twosided_fst _ ih,
        branch_pair_fst _ ih, branch_run_fst _ ih, branch_triplet_fst _ ih]
      · rw [branch_gapped_fst _ ih, branch_twosided_fst _ ih, branch_pair_fst _ ih,
          branch_run_fst _ ih, branch_triplet_fst _ ih]
        exact hpos

/-! ## Characterising the triple scan of `_calculate_standard_shanten`

The early `return -1` inside the three nested loops is an `Except`-valued fold;
the lemmas below rewrite it into the declarative form of the specification:
an existential for the completion test, a minimum for the accumulated value. -/

theorem foldlM_scan_eq {α : Type} (body : Int → α → Except Unit Int)
    (P : α → Bool) (A : Int → α → Int)
    (hbody : ∀ a x, body a x = if P x then .error () else .ok (A a x)) :
    ∀ (L : List α) (acc : Int),
      L.foldlM body acc =
        if ∃ x ∈ L, P x then .error () else .ok (L.foldl A acc) := by
  intro L
  induction L with
  | nil =>
    intro acc
    rw [show ((List.foldlM body acc []) = Except.ok acc) from rfl]
    simp
  | cons x L ih =>
    intro acc
    rw [List.foldlM_cons, hbody]
    by_cases hx : P x
    · rw [if_pos hx]
      rw [show ((Except.error () : Except Unit Int) >>= fun b =>
          L.foldlM body b) = Except.error () from rfl]
      simp [hx]
    · rw [if_neg hx]
      rw [show ((Except.ok (A acc x) : Except Unit Int) >>= fun b =>
          L.foldlM body b) = L.foldlM body (A acc x) from rfl, ih]
      simp [hx]

theorem foldl_min_map {α : Type} (g : α → Int) (L : List α) (acc : Int) :
    L.foldl (fun a x => min a (g x)) acc = (L.map g).foldl min acc := by
  rw [List.foldl_map]

theorem foldl_min_getD (l : List Int) (acc : Int) :
    l.foldl min acc =
      match l.min? with
      | none => acc
      | some m => min acc m := by
  induction l generalizing acc with
  | nil => rfl
  | cons x l ih =>
    have hcons : (x :: l).min? = some (l.foldl min x) := rfl
    rw [hcons]
    show l.foldl min (min acc x) = min acc (l.foldl min x)
    rw [ih (min acc x), ih x]
    cases hl : l.min? with
    | none => rfl
    | some m => exact min_assoc acc x m

theorem foldl_nested {α β : Type} (L1 : List α) (L2 : List β)
    (g : α → β → Int) (acc : Int) :
    L1.foldl (fun a x => L2.foldl (fun a' y => min a' (g x y)) a) acc =
      (L1.product L2).foldl (fun a p => min a (g p.1 p.2)) acc := by
  induction L1 generalizing acc with
  | nil => rfl
  | cons x L1 ih =>
    rw [List.foldl_cons, ih,
      show (x :: L1).product L2 = L2.map (fun y => (x, y)) ++ L1.product L2 from rfl,
      List.foldl_append, List.foldl_map]

theorem scan_w_eq (hm hp mc : Nat) (W T B : List (Nat × Nat × Nat)) (acc : Int) :
    scan_w hm hp mc W T B acc =
      if ∃ w ∈ W, ∃ t ∈ T, ∃ b ∈ B, completion_check hm hp mc w t b then .error ()
      else .ok (W.foldl (fun a w => T.foldl (fun a' t =>
        B.foldl (fun a'' b => min a'' (combo_shanten hm hp mc w t b)) a') a) acc) := by
  have hb : ∀ (w t : Nat × Nat × Nat) (a : Int), scan_b hm hp mc w t B a =
      if B.any (fun b => completion_check hm hp mc w t b) then .error ()
      else .ok (B.foldl (fun a' b => min a' (combo_shanten hm hp mc w t b)) a) := by
    intro w t a
    unfold scan_b
    rw [foldlM_scan_eq (fun a' b => scan_step hm hp mc w t b a')
      (completion_check hm hp mc w t)
      (fun a' b => min a' (combo_shanten hm hp mc w t b)) (fun _ _ => rfl) B a]
    exact if_congr (by simp [List.any_eq_true]) rfl rfl
  have ht : ∀ (w : Nat × Nat × Nat) (a : Int), scan_t hm hp mc w T B a =
      if T.any (fun t => B.any (fun b => completion_check hm hp mc w t b)) then .error ()
      else .ok (T.foldl (fun a' t =>
        B.foldl (fun a'' b => min a'' (combo_shanten hm hp mc w t b)) a') a) := by
    intro w a
    unfold scan_t
    rw [foldlM_scan_eq (fun a' t => scan_b hm hp mc w t B a')
      (fun t => B.any (fun b => completion_check hm hp mc w t b))
      (fun a' t => B.foldl (fun a'' b => min a'' (combo_shanten hm hp mc w t b)) a')
      (fun a' t => hb w t a') T a]
    exact if_congr (by simp [List.any_eq_true]) rfl rfl
  unfold scan_w
  rw [foldlM_scan_eq (fun a' w => scan_t hm hp mc w T B a')
    (fun w => T.any fun t => B.any fun b => completion_check hm hp mc w t b)
    (fun a' w => T.foldl (fun a'' t =>
      B.foldl (fun a3 b => min a3 (combo_shanten hm hp mc w t b)) a'') a')
    (fun a' w => ht w a') W acc]
  exact if_congr (by simp [List.any_eq_true]) rfl rfl

/-! ## C1: the standard-shape formula -/

theorem calc_shanten_from_groups_le_eight (m t p : Nat) :
    calc_shanten_from_groups m t p ≤ 8 := by
  unfold calc_shanten_from_groups
  dsimp only
  split <;> omega

/-- Declarative form of the standard-shape computation, following the
specification's words: the result is `-1` exactly when some cross-suit
combination reaches exactly 4 melds, 1 pair and 0 partial sets; otherwise it is
the minimum of the block formula over all cross-suit combinations (honors and
the exposed-meld count included), clamped at 0.  The `getD 8` default only
covers an empty combination list, which `get_suit_combinations` never produces;
the code's start of the minimisation at 8 is harmless because the formula never
exceeds 8. -/
def standard_shanten_spec (tiles : List Tile) (mc : Nat) : Int :=
  if ∃ w ∈ suit_combos tiles .wan, ∃ t ∈ suit_combos tiles .tong,
      ∃ b ∈ suit_combos tiles .tiao,
      combo_melds (honor_melds tiles) mc w t b = 4 ∧
      combo_pairs (honor_pairs tiles) w t b = 1 ∧ combo_tatsu w t b = 0
  then -1
  else
    max 0 (((((suit_combos tiles .wan).product ((suit_combos tiles .tong).product
      (suit_combos tiles .tiao))).map fun q =>
        combo_shanten (honor_melds tiles) (honor_pairs tiles) mc q.1 q.2.1 q.2.2).min?).getD 8)

theorem calculate_standard_shanten_eq_spec (tiles : List Tile) (mc : Nat) :
    calculate_standard_shanten tiles mc = standard_shanten_spec tiles mc := by
  unfold calculate_standard_shanten standard_shanten_spec
  rw [scan_w_eq]
  have hiff : (∃ w ∈ suit_combos tiles .wan, ∃ t ∈ suit_combos tiles .tong,
      ∃ b ∈ suit_combos tiles .tiao,
      completion_check (honor_melds tiles) (honor_pairs tiles) mc w t b) ↔
      (∃ w ∈ suit_combos tiles .wan, ∃ t ∈ suit_combos tiles .tong,
      ∃ b ∈ suit_combos tiles .tiao,
      combo_melds (honor_melds tiles) mc w t b = 4 ∧
      combo_pairs (honor_pairs tiles) w t b = 1 ∧ combo_tatsu w t b = 0) := by
    simp [completion_check, Bool.and_eq_true, beq_iff_eq, and_assoc]
  by_cases hC : ∃ w ∈ suit_combos tiles .wan, ∃ t ∈ suit_combos tiles .tong,
      ∃ b ∈ suit_combos tiles .tiao,
      combo_melds (honor_melds tiles) mc w t b = 4 ∧
      combo_pairs (honor_pairs tiles) w t b = 1 ∧ combo_tatsu w t b = 0
  · rw [if_pos (hiff.mpr hC), if_pos hC]
  · rw [if_neg (fun hcc => hC (hiff.mp hcc)), if_neg hC]
    simp only [foldl_nested]
    rw [foldl_min_map, foldl_min_getD]
    cases hmin : (((suit_combos tiles .wan).product ((suit_combos tiles .tong).product
        (suit_combos tiles .tiao))).map fun q =>
          combo_shanten (honor_melds tiles) (honor_pairs tiles) mc q.1 q.2.1 q.2.2).min? with
    | none => rfl
    | some m =>
      have hmem := List.min?_mem min_choice hmin
      obtain ⟨q, _, hq⟩ := List.mem_map.mp hmem
      have hle : m ≤ 8 := by
        rw [← hq]
        exact calc_shanten_from_groups_le_eight _ _ _
      show (max 0 (min 8 m) : Int) = max 0 m
      rw [min_eq_right hle]

/-- Sample numbered tiles for concrete counterexamples and witnesses. -/
def wanTile (n : Nat) : Tile := { tile_type := .wan, value := n }

def tongTile (n : Nat) : Tile := { tile_type := .tong, value := n }

def tiaoTile (n : Nat) : Tile := { tile_type := .tiao, value := n }

/-- C1, counterexample to the universal quantification over all hands: the empty
multiset short-circuits to 13, while the claimed formula evaluates to 8 there
(all-zero suit vectors give the single triple (0,0,0), honors give nothing, so
the formula is `8 - 0 - min 0 4 = 8`). -/
theorem C1_counterexample :
    calculate_shanten [] 0 .general = 13 ∧ standard_shanten_spec [] 0 = 8 ∧
      (13 : Int) ≠ 8 := by
  refine ⟨rfl, ?_, by decide⟩
  decide

/-- C1 (amended: for every nonempty hand): the standard-shape shanten equals the
spec's formula — `-1` exactly when some cross-suit combination of per-suit
decomposition triples plus the honor closed form has exactly 4 melds, 1 pair and
0 partial sets, and otherwise the minimum over all combinations of
`8 − 2·melds − min(partialSets + pairs, 4 − melds)` (reduced by 1 when a pair was
used and `melds + partialSets + pairs ≥ 5`), clamped at 0. -/
theorem C1_standard_shanten_formula (tiles : List Tile) (mc : Nat) (h : tiles ≠ []) :
    calculate_shanten tiles mc .general = standard_shanten_spec tiles mc ∧
    (calculate_shanten tiles mc .general = -1 ↔
      ∃ w ∈ suit_combos tiles .wan, ∃ t ∈ suit_combos tiles .tong,
        ∃ b ∈ suit_combos tiles .tiao,
        combo_melds (honor_melds tiles) mc w t b = 4 ∧
        combo_pairs (honor_pairs tiles) w t b = 1 ∧ combo_tatsu w t b = 0) := by
  have hcode : calculate_shanten tiles mc .general = standard_shanten_spec tiles mc := by
    rw [calculate_shanten, if_neg h]
    exact calculate_standard_shanten_eq_spec tiles mc
  refine ⟨hcode, ?_⟩
  rw [hcode]
  unfold standard_shanten_spec
  constructor
  · intro h1
    by_contra hex
    rw [if_neg hex] at h1
    have : (0 : Int) ≤ max 0 (((((suit_combos tiles .wan).product
        ((suit_combos tiles .tong).product (suit_combos tiles .tiao))).map fun q =>
        combo_shanten (honor_melds tiles) (honor_pairs tiles) mc q.1 q.2.1 q.2.2).min?).getD 8) :=
      le_max_left 0 _
    omega
  · intro hex
    rw [if_pos hex]

/-- C1 witness: a concrete nonempty hand on which the amended theorem applies
and both sides evaluate (to 8). -/
theorem C1_standard_shanten_formula_witness :
    [wanTile 1] ≠ ([] : List Tile) ∧
      calculate_shanten [wanTile 1] 0 .general = standard_shanten_spec [wanTile 1] 0 ∧
      calculate_shanten [wanTile 1] 0 .general = 8 :=
  ⟨by decide, (C1_standard_shanten_formula [wanTile 1] 0 (by decide)).1, by decide⟩

/-! ## C2: the seven-pairs formula -/

/-- Modelled from the claim's words: the number of distinct tile kinds with at
least 2 held copies (a kind with 4 copies counted once). -/
def distinct_pair_kinds (tiles : List Tile) : Nat :=
  ((tiles.map tileKey).toFinset.filter fun k => 2 ≤ tileCounts tiles k).card

/-- The pair total the code actually uses: one pair per two copies of a kind
(`count // 2`), so a kind with 4 copies contributes two pairs. -/
def floor_pairs_total (tiles : List Tile) : Nat :=
  (tiles.map tileKey).toFinset.sum fun k => tileCounts tiles k / 2

/-- C2, counterexample: on four copies of one kind the code counts two pairs
(`4 // 2`) and returns `6 − 2 = 4`, while the claimed formula (one pair per kind
with ≥ 2 copies) would give `6 − 1 = 5`; and on the empty hand the code
short-circuits to 13 while the claimed formula gives 6. -/
theorem C2_counterexample :
    calculate_shanten [wanTile 1, wanTile 1, wanTile 1, wanTile 1] 0 .pairs = 4 ∧
    distinct_pair_kinds [wanTile 1, wanTile 1, wanTile 1, wanTile 1] = 1 ∧
    (4 : Int) ≠ 6 - 1 ∧
    calculate_shanten [] 0 .pairs = 13 ∧ (13 : Int) ≠ 6 - 0 := by
  refine ⟨by decide, by decide, by decide, rfl, by decide⟩

/-- C2 (amended): for every nonempty hand the seven-pairs shanten is
`6 − Σ_kind ⌊count/2⌋` (a kind with 4 copies contributes two pairs), and `-1`
exactly when that total is 7. -/
theorem C2_seven_pairs_formula (tiles : List Tile) (h : tiles ≠ []) :
    calculate_shanten tiles 0 .pairs =
      if floor_pairs_total tiles = 7 then -1
      else 6 - (floor_pairs_total tiles : Int) := by
  rw [calculate_shanten, if_neg h]
  show calculate_seven_pairs_shanten tiles = _
  unfold calculate_seven_pairs_shanten floor_pairs_total
  have h1 : (fun k => if 2 ≤ tileCounts tiles k then tileCounts tiles k / 2 else 0) =
      fun k => tileCounts tiles k / 2 := by
    funext k
    split <;> omega
  have h2 : (tiles.map tileKey).toFinset = (handKeys tiles).toFinset := by
    apply Finset.ext
    intro k
    simp [handKeys, List.mem_dedup]
  rw [h1, h2]
  have h3 : ((handKeys tiles).toFinset.sum fun k => tileCounts tiles k / 2) =
      ((handKeys tiles).map fun k => tileCounts tiles k / 2).sum := by
    simp only [handKeys]
    exact List.sum_toFinset _ (List.nodup_dedup _)
  rw [h3]

/-- C2 witness: the amended theorem applied to a concrete one-pair hand. -/
theorem C2_seven_pairs_formula_witness :
    [wanTile 1, wanTile 1] ≠ ([] : List Tile) ∧
      calculate_shanten [wanTile 1, wanTile 1] 0 .pairs =
        (if floor_pairs_total [wanTile 1, wanTile 1] = 7 then -1
         else 6 - (floor_pairs_total [wanTile 1, wanTile 1] : Int)) :=
  ⟨by decide, C2_seven_pairs_formula [wanTile 1, wanTile 1] (by decide)⟩

/-! ## C6: alternate shapes with nonzero exposed melds -/

/-- C6, counterexample: with a nonzero exposed-meld count the seven-pairs and
kokushi paths do not fail — `calculate_shanten` simply returns their numeric
values (the embedding is total into `Int` because the source has no error branch
at all: the dispatch never reads `melds_count` for these shapes). -/
theorem C6_counterexample :
    calculate_shanten [wanTile 1, wanTile 1] 1 .pairs = 5 ∧
    calculate_shanten [wanTile 1] 1 .kokushi = 12 := by
  refine ⟨by decide, by decide⟩

/-- C6 (amended): requesting the seven-pairs or kokushi shape with a nonzero
exposed-meld count raises no error; the melds count is ignored and the value is
the same as with zero exposed melds. -/
theorem C6_alternate_shapes_ignore_melds (tiles : List Tile) (mc : Nat)
    (st : ShentanType) (h : st = .pairs ∨ st = .kokushi) :
    calculate_shanten tiles mc st = calculate_shanten tiles 0 st := by
  rcases h with h | h <;> subst h <;> rfl

/-- C6 witness: the amended theorem at a concrete hand with one exposed meld. -/
theorem C6_alternate_shapes_ignore_melds_witness :
    (ShentanType.pairs = ShentanType.pairs ∨ ShentanType.pairs = ShentanType.kokushi) ∧
      calculate_shanten [wanTile 1, wanTile 1] 1 .pairs =
        calculate_shanten [wanTile 1, wanTile 1] 0 .pairs :=
  ⟨Or.inl rfl, C6_alternate_shapes_ignore_melds [wanTile 1, wanTile 1] 1 .pairs (Or.inl rfl)⟩

/-! ## C10: the empty hand -/

/-- C10: with an empty tile list, `calculate_shanten` returns 13 for every melds
count and every shape kind; the empty hand short-circuits before any per-shape
computation. -/
theorem C10_empty_hand_returns_13 (melds_count : Nat) (shentan_type : ShentanType) :
    calculate_shanten [] melds_count shentan_type = 13 := by
  simp [calculate_shanten]

/-! ## Ukeire calculator (`UkeireCalculator`, src/ai/shanten_ai.py) -/

/-- The `missing_suit_map` dictionary of `_is_missing_suit_tile`. -/
def missing_suit_map (s : String) : Option TileType :=
  if s = "万" then some .wan
  else if s = "筒" then some .tong
  else if s = "条" then some .tiao
  else none

/-- Embedding of `_is_missing_suit_tile`: `tile_type == map.get(missing_suit)`
(comparison with `None` is `False`). -/
def is_missing_suit_tile (tile_type : TileType) (missing_suit : String) : Bool :=
  match missing_suit_map missing_suit with
  | some tt => tile_type == tt
  | none => false

/-- Embedding of `_create_tile_from_key`.  Only called on the canonical 34 keys;
on a mismatched key shape (which Python could not construct a tile from) it
defaults the missing field. -/
def create_tile_from_key (k : TileKey) : Tile :=
  match k.1 with
  | .feng => { tile_type := .feng, feng_type := match k.2 with | .fengv f => f | _ => none }
  | .jian => { tile_type := .jian, jian_type := match k.2 with | .jianv j => j | _ => none }
  | tt => { tile_type := tt, value := match k.2 with | .num n => n | _ => 0 }

/-- The 34 tile kinds in the iteration order of `calculate_ukeire`. -/
def all_kind_keys : List TileKey :=
  ((List.range 9).map fun i => ((.wan : TileType), KeyVal.num (i + 1))) ++
  ((List.range 9).map fun i => ((.tong : TileType), KeyVal.num (i + 1))) ++
  ((List.range 9).map fun i => ((.tiao : TileType), KeyVal.num (i + 1))) ++
  [(.feng, .fengv (some .dong)), (.feng, .fengv (some .nan)),
   (.feng, .fengv (some .xi)), (.feng, .fengv (some .bei)),
   (.jian, .jianv (some .zhong)), (.jian, .jianv (some .fa)),
   (.jian, .jianv (some .bai))]

/-- The `used_tiles` counter of `calculate_ukeire`: copies visible in the hand
plus the discard pool. -/
def used_counts (tiles discard_pool : List Tile) (k : TileKey) : Nat :=
  tileCounts (tiles ++ discard_pool) k

/-- Body of the per-kind loop of `calculate_ukeire`.  The Python guard is
`if missing_suit and _is_missing_suit_tile(...)`; `None` (and the falsy empty
string, for which the map lookup fails anyway) skips the test. -/
def ukeire_step (tiles : List Tile) (melds_count : Nat) (missing_suit : Option String)
    (discard_pool : List Tile) (shentan_type : ShentanType) (current_shanten : Int)
    (ukeire : List (TileKey × Int)) (k : TileKey) : List (TileKey × Int) :=
  if (match missing_suit with
      | some ms => is_missing_suit_tile k.1 ms
      | none => false) then ukeire
  else
    if (4 : Int) - (used_counts tiles discard_pool k : Int) ≤ 0 then ukeire
    else
      if calculate_shanten (tiles ++ [create_tile_from_key k]) melds_count shentan_type <
          current_shanten then
        ukeire ++ [(k, (4 : Int) - (used_counts tiles discard_pool k : Int))]
      else ukeire

/-- Embedding of `UkeireCalculator.calculate_ukeire`: the returned dictionary as
an association list in iteration order (the 34 candidate keys are distinct, so
every insertion is fresh). -/
def calculate_ukeire (tiles : List Tile) (melds_count : Nat)
    (missing_suit : Option String) (discard_pool : List Tile)
    (shentan_type : ShentanType) : List (TileKey × Int) :=
  all_kind_keys.foldl
    (ukeire_step tiles melds_count missing_suit discard_pool shentan_type
      (calculate_shanten tiles melds_count shentan_type)) []

/-! ## C3: properties of every ukeire entry -/

theorem ukeire_fold_mem (tiles : List Tile) (mc : Nat) (ms : Option String)
    (pool : List Tile) (st : ShentanType) (cur : Int) (k : TileKey) (v : Int) :
    ∀ (L : List TileKey) (acc : List (TileKey × Int)),
      (k, v) ∈ L.foldl (ukeire_step tiles mc ms pool st cur) acc →
      (k, v) ∈ acc ∨
        (v = 4 - (used_counts tiles pool k : Int) ∧ 0 < v ∧
         (∀ s, ms = some s → is_missing_suit_tile k.1 s = false) ∧
         calculate_shanten (tiles ++ [create_tile_from_key k]) mc st < cur) := by
  intro L
  induction L with
  | nil => intro acc h; exact Or.inl h
  | cons x L ih =>
    intro acc h
    rw [List.foldl_cons] at h
    rcases ih (ukeire_step tiles mc ms pool st cur acc x) h with hmem | hprop
    · unfold ukeire_step at hmem
      split at hmem
      · exact Or.inl hmem
      case isFalse hms =>
        split at hmem
        · exact Or.inl hmem
        case isFalse hrem =>
          split at hmem
          case isTrue hlt =>
            rcases List.mem_append.mp hmem with hacc | hnew
            · exact Or.inl hacc
            · have hkv : k = x ∧ v = 4 - (used_counts tiles pool x : Int) := by
                have := List.mem_singleton.mp hnew
                exact ⟨congrArg Prod.fst this, congrArg Prod.snd this⟩
              obtain ⟨hk, hv⟩ := hkv
              subst hk
              refine Or.inr ⟨hv, by omega, ?_, hlt⟩
              intro s hs
              subst hs
              simpa using hms
          case isFalse hge => exact Or.inl hmem
    · exact Or.inr hprop

/-- C3: every entry `(k, v)` of the map returned by `calculate_ukeire` satisfies
all of: `v` is 4 minus the copies of `k` visible in the hand plus the discard
pool; `v` is strictly positive; `k` does not belong to the caller's missing
suit; and adding one copy of `k` to the hand strictly reduces the shanten for
the same melds count and shape kind.  In particular no kind with zero or
negative remaining copies appears. -/
theorem C3_ukeire_entries (tiles : List Tile) (mc : Nat) (ms : Option String)
    (pool : List Tile) (st : ShentanType) (k : TileKey) (v : Int)
    (h : (k, v) ∈ calculate_ukeire tiles mc ms pool st) :
    v = 4 - (used_counts tiles pool k : Int) ∧ 0 < v ∧
    (∀ s, ms = some s → is_missing_suit_tile k.1 s = false) ∧
    calculate_shanten (tiles ++ [create_tile_from_key k]) mc st <
      calculate_shanten tiles mc st := by
  have := ukeire_fold_mem tiles mc ms pool st
    (calculate_shanten tiles mc st) k v all_kind_keys [] h
  rcases this with hmem | hprop
  · simp at hmem
  · exact hprop

/-- C3 witness: on the one-tile hand `[1万]` the kind `2万` is in the ukeire map
with remaining count 4, and the theorem's conclusions hold there. -/
theorem C3_ukeire_entries_witness :
    ((((.wan : TileType), KeyVal.num 2), (4 : Int)) ∈
        calculate_ukeire [wanTile 1] 0 none [] .general) ∧
      ((4 : Int) = 4 - (used_counts [wanTile 1] [] ((.wan : TileType), KeyVal.num 2) : Int) ∧
       (0 : Int) < 4 ∧
       (∀ s, (none : Option String) = some s →
         is_missing_suit_tile (TileType.wan) s = false) ∧
       calculate_shanten ([wanTile 1] ++ [create_tile_from_key ((.wan : TileType), KeyVal.num 2)])
           0 .general < calculate_shanten [wanTile 1] 0 .general) :=
  ⟨by decide, C3_ukeire_entries [wanTile 1] 0 none [] .general _ 4 (by decide)⟩

/-! ## C4, step 1: adding one tile moves the seven-pairs and kokushi shanten by
at most one -/

theorem tileCounts_append_tile (tiles : List Tile) (t : Tile) (k : TileKey) :
    tileCounts (tiles ++ [t]) k =
      tileCounts tiles k + (if tileKey t = k then 1 else 0) := by
  unfold tileCounts
  rw [List.map_append, List.count_append]
  simp [List.count_cons, beq_iff_eq]

theorem toFinset_append_tile (tiles : List Tile) (t : Tile) :
    ((tiles ++ [t]).map tileKey).toFinset =
      insert (tileKey t) (tiles.map tileKey).toFinset := by
  rw [List.map_append, List.toFinset_append]
  simp only [List.map_cons, List.map_nil, List.toFinset_cons, List.toFinset_nil,
    insert_emptyc_eq]
  rw [Finset.union_comm]
  rfl

theorem floor_pairs_total_append (tiles : List Tile) (t : Tile) :
    floor_pairs_total tiles ≤ floor_pairs_total (tiles ++ [t]) ∧
    floor_pairs_total (tiles ++ [t]) ≤ floor_pairs_total tiles + 1 := by
  unfold floor_pairs_total
  rw [toFinset_append_tile]
  by_cases hk : tileKey t ∈ (tiles.map tileKey).toFinset
  · rw [Finset.insert_eq_self.mpr hk]
    rw [← Finset.sum_erase_add _ (fun k => tileCounts (tiles ++ [t]) k / 2) hk,
      ← Finset.sum_erase_add _ (fun k => tileCounts tiles k / 2) hk]
    have hcongr : ∑ x ∈ (tiles.map tileKey).toFinset.erase (tileKey t),
        tileCounts (tiles ++ [t]) x / 2 =
        ∑ x ∈ (tiles.map tileKey).toFinset.erase (tileKey t), tileCounts tiles x / 2 := by
      apply Finset.sum_congr rfl
      intro x hx
      have hne : tileKey t ≠ x := fun he => (Finset.ne_of_mem_erase hx) he.symm
      rw [tileCounts_append_tile, if_neg hne, Nat.add_zero]
    rw [hcongr]
    have := tileCounts_append_tile tiles t (tileKey t)
    rw [if_pos rfl] at this
    omega
  · have hzero : tileCounts tiles (tileKey t) = 0 := by
      rw [tileCounts, List.count_eq_zero]
      intro hmem
      exact hk (List.mem_toFinset.mpr hmem)
    rw [Finset.sum_insert hk]
    have hsame : ∑ x ∈ (tiles.map tileKey).toFinset, tileCounts (tiles ++ [t]) x / 2 =
        ∑ x ∈ (tiles.map tileKey).toFinset, tileCounts tiles x / 2 := by
      apply Finset.sum_congr rfl
      intro x hx
      have hne : tileKey t ≠ x := fun he => hk (he ▸ hx)
      rw [tileCounts_append_tile, if_neg hne, Nat.add_zero]
    rw [hsame]
    have := tileCounts_append_tile tiles t (tileKey t)
    rw [if_pos rfl] at this
    omega

theorem shanten_pairs_lipschitz (tiles : List Tile) (t : Tile) (h : tiles ≠ []) :
    calculate_shanten tiles 0 .pairs - 1 ≤ calculate_shanten (tiles ++ [t]) 0 .pairs := by
  have hne : tiles ++ [t] ≠ [] := by simp
  rw [C2_seven_pairs_formula tiles h, C2_seven_pairs_formula (tiles ++ [t]) hne]
  obtain ⟨h1, h2⟩ := floor_pairs_total_append tiles t
  split_ifs <;> omega

theorem filter_pos_bump (f : TileKey → Nat) (k0 : TileKey) :
    ∀ (K : List TileKey), K.Nodup →
    (K.filter fun k => 0 < f k).length ≤
      (K.filter fun k => 0 < f k + if k0 = k then 1 else 0).length ∧
    (K.filter fun k => 0 < f k + if k0 = k then 1 else 0).length ≤
      (K.filter fun k => 0 < f k).length + 1 := by
  intro K
  induction K with
  | nil => intro _; simp
  | cons x K ih =>
    intro hK
    have hKtail : K.Nodup := (List.nodup_cons.mp hK).2
    obtain ⟨ih1, ih2⟩ := ih hKtail
    by_cases hx : k0 = x
    · subst hx
      have hnot : k0 ∉ K := (List.nodup_cons.mp hK).1
      have htail : (K.filter fun k => 0 < f k + if k0 = k then 1 else 0) =
          K.filter fun k => 0 < f k := by
        apply List.filter_congr
        intro k hk
        have : k0 ≠ k := fun he => hnot (he ▸ hk)
        simp [this]
      simp only [List.filter_cons, htail]
      by_cases h0 : 0 < f k0
      · simp [h0]
      · simp [h0, Nat.not_lt.mp h0]
    · have hhead : (decide (0 < f x + if k0 = x then 1 else 0)) =
          decide (0 < f x) := by
        simp [hx]
      simp only [List.filter_cons, hhead]
      cases hd : decide (0 < f x) with
      | true =>
        simp only [hd, if_true]
        simp only [List.length_cons]
        omega
      | false =>
        simp only [hd, Bool.false_eq_true, if_false]
        omega

theorem filter_pos_congr_of_pos (f : TileKey → Nat) (k0 : TileKey) (h1 : 1 ≤ f k0)
    (K : List TileKey) :
    (K.filter fun k => 0 < f k + if k0 = k then 1 else 0) =
      K.filter fun k => 0 < f k := by
  apply List.filter_congr
  intro k hk
  by_cases he : k0 = k
  · subst he
    simp [h1, Nat.lt_of_lt_of_le Nat.zero_lt_one h1]
  · simp [he]

theorem shanten_kokushi_lipschitz (tiles : List Tile) (t : Tile) (h : tiles ≠ []) :
    calculate_shanten tiles 0 .kokushi - 1 ≤
      calculate_shanten (tiles ++ [t]) 0 .kokushi := by
  have hne : tiles ++ [t] ≠ [] := by simp
  rw [calculate_shanten, if_neg h, calculate_shanten, if_neg hne]
  show calculate_kokushi_shanten tiles - 1 ≤ calculate_kokushi_shanten (tiles ++ [t])
  unfold calculate_kokushi_shanten
  have hcnt : ∀ k, tileCounts (tiles ++ [t]) k =
      tileCounts tiles k + if tileKey t = k then 1 else 0 :=
    tileCounts_append_tile tiles t
  have hfilter : (kokushi_keys.filter fun k => 0 < tileCounts (tiles ++ [t]) k) =
      kokushi_keys.filter fun k =>
        0 < tileCounts tiles k + if tileKey t = k then 1 else 0 := by
    apply List.filter_congr
    intro k _
    rw [hcnt k]
  have hnodup : kokushi_keys.Nodup := by decide
  obtain ⟨hT1, hT2⟩ := filter_pos_bump (tileCounts tiles) (tileKey t) kokushi_keys hnodup
  have hanycnt : (kokushi_keys.any fun k => 2 ≤ tileCounts (tiles ++ [t]) k) =
      (kokushi_keys.any fun k =>
        2 ≤ tileCounts tiles k + if tileKey t = k then 1 else 0) := by
    simp only [hcnt]
  have hmono : (kokushi_keys.any fun k => 2 ≤ tileCounts tiles k) = true →
      (kokushi_keys.any fun k =>
        2 ≤ tileCounts tiles k + if tileKey t = k then 1 else 0) = true := by
    intro hp
    rw [List.any_eq_true] at hp ⊢
    obtain ⟨k, hk, hk2⟩ := hp
    refine ⟨k, hk, ?_⟩
    simp only [decide_eq_true_eq] at hk2 ⊢
    omega
  have hnewpair : (kokushi_keys.any fun k =>
        2 ≤ tileCounts tiles k + if tileKey t = k then 1 else 0) = true →
      (kokushi_keys.any fun k => 2 ≤ tileCounts tiles k) = false →
      1 ≤ tileCounts tiles (tileKey t) := by
    intro hp' hp
    rw [List.any_eq_true] at hp'
    obtain ⟨k, hk, hk2⟩ := hp'
    simp only [decide_eq_true_eq] at hk2
    by_cases he : tileKey t = k
    · subst he
      simp at hk2
      omega
    · exfalso
      rw [if_neg he, Nat.add_zero] at hk2
      have : (kokushi_keys.any fun k => 2 ≤ tileCounts tiles k) = true :=
        List.any_eq_true.mpr ⟨k, hk, by simpa using hk2⟩
      rw [this] at hp
      exact Bool.noConfusion hp
  rw [hfilter, hanycnt]
  set T := (kokushi_keys.filter fun k => 0 < tileCounts tiles k).length with hT
  set T' := (kokushi_keys.filter fun k =>
    0 < tileCounts tiles k + if tileKey t = k then 1 else 0).length with hT'
  by_cases hp : (kokushi_keys.any fun k => 2 ≤ tileCounts tiles k) = true
  · rw [hp]
    rw [hmono hp]
    dsimp only
    split_ifs <;> omega
  · rw [Bool.not_eq_true] at hp
    rw [hp]
    by_cases hp' : (kokushi_keys.any fun k =>
        2 ≤ tileCounts tiles k + if tileKey t = k then 1 else 0) = true
    · rw [hp']
      have h1 := hnewpair hp' hp
      have hTeq : T' = T := by
        rw [hT, hT', filter_pos_congr_of_pos (tileCounts tiles) (tileKey t) h1]
      dsimp only
      rw [hTeq]
      split_ifs <;> omega
    · rw [Bool.not_eq_true] at hp'
      rw [hp']
      dsimp only
      split_ifs <;> omega

/-! ## C4, step 2: block decompositions of a suit vector

To reason about the backtracking enumerator we characterise its output as the
set of block decompositions of the 9-slot vector: a decomposition repeatedly
adds a block (lone tile, triplet, run, pair, two-sided partial, gapped partial)
to the empty vector.  Vectors are combined additively (`vadd`), which makes
reordering of blocks a matter of additive commutativity. -/

/-- Pointwise sum of two count vectors (always used at length 9). -/
def vadd (v w : List Nat) : List Nat := List.zipWith (· + ·) v w

/-- The length-9 vector with value `k` at index `i` and 0 elsewhere. -/
def kunit (i k : Nat) : List Nat := (List.range 9).map fun j => if j = i then k else 0

/-- The six block shapes of the enumerator, tagged by their base index. -/
inductive Blk where
  | lone (i : Nat)
  | trip (i : Nat)
  | runb (i : Nat)
  | pairb (i : Nat)
  | two (i : Nat)
  | gap (i : Nat)

/-- Tile multiset of a block. -/
def blkVec : Blk → List Nat
  | .lone i => kunit i 1
  | .trip i => kunit i 3
  | .runb i => vadd (vadd (kunit i 1) (kunit (i + 1) 1)) (kunit (i + 2) 1)
  | .pairb i => kunit i 2
  | .two i => vadd (kunit i 1) (kunit (i + 1) 1)
  | .gap i => vadd (kunit i 1) (kunit (i + 2) 1)

/-- Index-bounds of a block (matching the guards of the enumerator's branches). -/
def blkOk : Blk → Prop
  | .lone i => i < 9
  | .trip i => i < 9
  | .runb i => i ≤ 6
  | .pairb i => i < 9
  | .two i => i ≤ 7
  | .gap i => i ≤ 6

/-- Base index of a block (the first nonzero position it occupies). -/
def blkBase : Blk → Nat
  | .lone i => i | .trip i => i | .runb i => i | .pairb i => i | .two i => i | .gap i => i

/-- Meld count contributed by a block. -/
def blkM : Blk → Nat
  | .trip _ => 1 | .runb _ => 1 | _ => 0

/-- Partial-set count contributed by a block. -/
def blkT : Blk → Nat
  | .two _ => 1 | .gap _ => 1 | _ => 0

/-- Pair count contributed by a block. -/
def blkP : Blk → Nat
  | .pairb _ => 1 | _ => 0

/-- Block decompositions of a 9-slot vector: the triples `(melds, tatsu, pairs)`
reachable by the enumerator are exactly the `Dec`-triples (proved below). -/
inductive Dec : List Nat → Nat → Nat → Nat → Prop where
  | empty : Dec (List.replicate 9 0) 0 0 0
  | step (b : Blk) (hb : blkOk b) {v : List Nat} {m t p : Nat} :
      Dec v m t p → Dec (vadd v (blkVec b)) (m + blkM b) (t + blkT b) (p + blkP b)

theorem length_kunit (i k : Nat) : (kunit i k).length = 9 := by
  simp [kunit]

theorem length_vadd (v w : List Nat) : (vadd v w).length = min v.length w.length := by
  simp [vadd]

theorem length_blkVec (b : Blk) : (blkVec b).length = 9 := by
  cases b <;> simp [blkVec, length_vadd, length_kunit]

theorem getD_kunit (i k j : Nat) :
    (kunit i k).getD j 0 = if j = i ∧ j < 9 then k else 0 := by
  rw [kunit, List.getD_eq_getElem?_getD, List.getElem?_map]
  by_cases hj : j < 9
  · rw [List.getElem?_range hj]
    by_cases hji : j = i
    · subst hji
      simp [hj]
    · simp [hji]
  · rw [List.getElem?_eq_none (by simpa using (by omega : 9 ≤ j))]
    simp [hj]

theorem getD_vadd (v w : List Nat) (h : v.length = w.length) (n : Nat) :
    (vadd v w).getD n 0 = v.getD n 0 + w.getD n 0 := by
  by_cases hn : n < v.length
  · rw [List.getD_eq_getElem?_getD, List.getD_eq_getElem?_getD,
      List.getD_eq_getElem?_getD, vadd, List.getElem?_zipWith,
      List.getElem?_eq_getElem hn, List.getElem?_eq_getElem (h ▸ hn)]
    rfl
  · rw [List.getD_eq_default _ _ (by rw [length_vadd]; omega),
      List.getD_eq_default _ _ (by omega), List.getD_eq_default _ _ (by omega)]

theorem dec_length {v : List Nat} {m t p : Nat} (h : Dec v m t p) : v.length = 9 := by
  induction h with
  | empty => simp
  | step b hb hd ih =>
    rw [length_vadd, ih, length_blkVec]
    simp

theorem getD_blkVec_eval (b : Blk) (j : Nat) :
    (blkVec b).getD j 0 =
      (match b with
      | .lone i => if j = i ∧ j < 9 then 1 else 0
      | .trip i => if j = i ∧ j < 9 then 3 else 0
      | .runb i => (if j = i ∧ j < 9 then 1 else 0) +
          ((if j = i + 1 ∧ j < 9 then 1 else 0) + (if j = i + 2 ∧ j < 9 then 1 else 0))
      | .pairb i => if j = i ∧ j < 9 then 2 else 0
      | .two i => (if j = i ∧ j < 9 then 1 else 0) + (if j = i + 1 ∧ j < 9 then 1 else 0)
      | .gap i => (if j = i ∧ j < 9 then 1 else 0) + (if j = i + 2 ∧ j < 9 then 1 else 0)) := by
  cases b with
  | lone i => rw [blkVec, getD_kunit]
  | trip i => rw [blkVec, getD_kunit]
  | pairb i => rw [blkVec, getD_kunit]
  | runb i =>
    rw [blkVec, getD_vadd _ _ (by simp [length_vadd, length_kunit]),
      getD_vadd _ _ (by simp [length_kunit]), getD_kunit, getD_kunit, getD_kunit]
    ring
  | two i =>
    rw [blkVec, getD_vadd _ _ (by simp [length_kunit]), getD_kunit, getD_kunit]
  | gap i =>
    rw [blkVec, getD_vadd _ _ (by simp [length_kunit]), getD_kunit, getD_kunit]

theorem getD_blkVec_base (b : Blk) (hb : blkOk b) :
    1 ≤ (blkVec b).getD (blkBase b) 0 := by
  cases b <;>
    · rw [getD_blkVec_eval]
      simp only [blkOk] at hb
      simp only [blkBase]
      split_ifs <;> (try omega) <;> simp_all <;> omega

theorem getD_blkVec_lt (b : Blk) (j : Nat) (hj : j < blkBase b) :
    (blkVec b).getD j 0 = 0 := by
  cases b with
  | lone i =>
    simp only [blkBase] at hj
    rw [blkVec, getD_kunit]
    split_ifs <;> (try omega) <;> simp_all
  | trip i =>
    simp only [blkBase] at hj
    rw [blkVec, getD_kunit]
    split_ifs <;> (try omega) <;> simp_all
  | pairb i =>
    simp only [blkBase] at hj
    rw [blkVec, getD_kunit]
    split_ifs <;> (try omega) <;> simp_all
  | runb i =>
    simp only [blkBase] at hj
    rw [blkVec, getD_vadd _ _ (by simp [length_vadd, length_kunit]),
      getD_vadd _ _ (by simp [length_kunit]), getD_kunit, getD_kunit, getD_kunit]
    split_ifs <;> (try omega) <;> simp_all
  | two i =>
    simp only [blkBase] at hj
    rw [blkVec, getD_vadd _ _ (by simp [length_kunit]), getD_kunit, getD_kunit]
    split_ifs <;> (try omega) <;> simp_all
  | gap i =>
    simp only [blkBase] at hj
    rw [blkVec, getD_vadd _ _ (by simp [length_kunit]), getD_kunit, getD_kunit]
    split_ifs <;> (try omega) <;> simp_all

theorem vadd_cancel_right (a b c : List Nat) (ha : a.length = c.length)
    (hb : b.length = c.length) (h : vadd a c = vadd b c) : a = b := by
  apply eq_of_getD a b (by omega)
  intro n hn
  have := congrArg (fun l => l.getD n 0) h
  simp only [getD_vadd a c ha, getD_vadd b c hb] at this
  omega

theorem vadd_right_comm (a b c : List Nat) (ha : a.length = 9) (hb : b.length = 9)
    (hc : c.length = 9) : vadd (vadd a b) c = vadd (vadd a c) b := by
  have l1 : (vadd a b).length = 9 := by rw [length_vadd]; omega
  have l2 : (vadd a c).length = 9 := by rw [length_vadd]; omega
  apply eq_of_getD _ _ (by simp only [length_vadd]; omega)
  intro n hn
  rw [getD_vadd _ _ (by omega), getD_vadd _ _ (by omega),
    getD_vadd _ _ (by omega), getD_vadd _ _ (by omega)]
  omega

theorem sum_vadd (v w : List Nat) (h : v.length = w.length) :
    (vadd v w).sum = v.sum + w.sum := by
  induction v generalizing w with
  | nil =>
    cases w with
    | nil => rfl
    | cons y w => simp at h
  | cons x v ih =>
    cases w with
    | nil => simp at h
    | cons y w =>
      have h' : v.length = w.length := by simpa using h
      rw [show vadd (x :: v) (y :: w) = (x + y) :: vadd v w from rfl,
        List.sum_cons, ih w h', List.sum_cons, List.sum_cons]
      omega

theorem sum_kunit (i k : Nat) (h : i < 9) : (kunit i k).sum = k := by
  interval_cases i <;> simp [kunit, List.range_succ]

theorem sum_blkVec_pos (b : Blk) (hb : blkOk b) : 0 < (blkVec b).sum := by
  cases b with
  | lone i =>
    simp only [blkOk] at hb
    rw [blkVec, sum_kunit _ _ hb]
    omega
  | trip i =>
    simp only [blkOk] at hb
    rw [blkVec, sum_kunit _ _ hb]
    omega
  | pairb i =>
    simp only [blkOk] at hb
    rw [blkVec, sum_kunit _ _ hb]
    omega
  | runb i =>
    simp only [blkOk] at hb
    rw [blkVec, sum_vadd _ _ (by simp [length_vadd, length_kunit]),
      sum_vadd _ _ (by simp [length_kunit]),
      sum_kunit _ _ (by omega), sum_kunit _ _ (by omega), sum_kunit _ _ (by omega)]
    omega
  | two i =>
    simp only [blkOk] at hb
    rw [blkVec, sum_vadd _ _ (by simp [length_kunit]),
      sum_kunit _ _ (by omega), sum_kunit _ _ (by omega)]
    omega
  | gap i =>
    simp only [blkOk] at hb
    rw [blkVec, sum_vadd _ _ (by simp [length_kunit]),
      sum_kunit _ _ (by omega), sum_kunit _ _ (by omega)]
    omega

theorem dec_sum_zero {v : List Nat} {m t p : Nat} (h : Dec v m t p) (hz : v.sum = 0) :
    m = 0 ∧ t = 0 ∧ p = 0 := by
  cases h with
  | empty => exact ⟨rfl, rfl, rfl⟩
  | step b hb hd =>
    exfalso
    rw [sum_vadd _ _ (by rw [dec_length hd, length_blkVec])] at hz
    have := sum_blkVec_pos b hb
    omega

/-! ## C4, step 3: the enumerator computes exactly the block decompositions -/

theorem getD_replicate_zero (n i : Nat) : (List.replicate n (0 : Nat)).getD i 0 = 0 := by
  rw [List.getD_eq_getElem?_getD, List.getElem?_replicate]
  split <;> rfl

theorem firstNonzero_none_getD (v : List Nat) (h : firstNonzero v = none) :
    ∀ i, i < 9 → v.getD i 0 = 0 := by
  intro i hi
  unfold firstNonzero at h
  have := List.find?_eq_none.mp h i (List.mem_range.mpr hi)
  simpa using this

theorem firstNonzero_some_spec (v : List Nat) (pos : Nat)
    (h : firstNonzero v = some pos) :
    pos < 9 ∧ 0 < v.getD pos 0 ∧ ∀ j, j < pos → v.getD j 0 = 0 := by
  unfold firstNonzero at h
  have hmem := List.mem_range.mp (List.mem_of_find?_eq_some h)
  have hpred := List.find?_some h
  rw [List.find?_eq_some] at h
  obtain ⟨_, as, bs, heq, hall⟩ := h
  refine ⟨hmem, Nat.pos_of_ne_zero (by simpa using hpred), ?_⟩
  intro j hj
  have hlen9 : as.length + (bs.length + 1) = 9 := by
    have := congrArg List.length heq
    simpa [Nat.add_comm, Nat.add_assoc, Nat.add_left_comm] using this.symm
  have hposidx : pos = as.length := by
    have h1 : (List.range 9)[as.length]? = some pos := by
      rw [heq, List.getElem?_append_right (le_refl as.length)]
      simp
    rw [List.getElem?_range (by omega)] at h1
    exact (Option.some.inj h1).symm
  have hjmem : j ∈ as := by
    have h1 : (List.range 9)[j]? = some j := List.getElem?_range (by omega)
    rw [heq, List.getElem?_append] at h1
    rw [if_pos (by omega)] at h1
    exact List.getElem?_mem h1
  have := hall j hjmem
  simpa using this

theorem vadd_dec1 (v : List Nat) (pos : Nat) (hv : v.length = 9) (hpos : pos < 9)
    (h : 1 ≤ v.getD pos 0) :
    vadd (v.set pos (v.getD pos 0 - 1)) (kunit pos 1) = v := by
  apply eq_of_getD _ _ (by simp [length_vadd, List.length_set, length_kunit, hv])
  intro n hn
  rw [getD_vadd _ _ (by simp [List.length_set, length_kunit, hv]), getD_kunit]
  by_cases hne : n = pos
  · subst hne
    rw [getD_set_self _ _ _ (by omega)]
    simp only [length_vadd, List.length_set, length_kunit, hv] at hn
    split_ifs <;> omega
  · rw [getD_set_ne _ _ (fun he => hne he.symm)]
    split_ifs <;> (try omega) <;> simp_all

theorem vadd_dec2 (v : List Nat) (pos : Nat) (hv : v.length = 9) (hpos : pos < 9)
    (h : 2 ≤ v.getD pos 0) :
    vadd (v.set pos (v.getD pos 0 - 2)) (kunit pos 2) = v := by
  apply eq_of_getD _ _ (by simp [length_vadd, List.length_set, length_kunit, hv])
  intro n hn
  rw [getD_vadd _ _ (by simp [List.length_set, length_kunit, hv]), getD_kunit]
  by_cases hne : n = pos
  · subst hne
    rw [getD_set_self _ _ _ (by omega)]
    split_ifs <;> omega
  · rw [getD_set_ne _ _ (fun he => hne he.symm)]
    split_ifs <;> (try omega) <;> simp_all

theorem vadd_dec3 (v : List Nat) (pos : Nat) (hv : v.length = 9) (hpos : pos < 9)
    (h : 3 ≤ v.getD pos 0) :
    vadd (v.set pos (v.getD pos 0 - 3)) (kunit pos 3) = v := by
  apply eq_of_getD _ _ (by simp [length_vadd, List.length_set, length_kunit, hv])
  intro n hn
  rw [getD_vadd _ _ (by simp [List.length_set, length_kunit, hv]), getD_kunit]
  by_cases hne : n = pos
  · subst hne
    rw [getD_set_self _ _ _ (by omega)]
    split_ifs <;> omega
  · rw [getD_set_ne _ _ (fun he => hne he.symm)]
    split_ifs <;> (try omega) <;> simp_all

theorem vadd_dec_two (v : List Nat) (pos : Nat) (hv : v.length = 9) (hpos : pos ≤ 7)
    (h0 : 0 < v.getD pos 0) (h1 : 0 < v.getD (pos + 1) 0) :
    vadd ((v.set pos (v.getD pos 0 - 1)).set (pos + 1)
        ((v.set pos (v.getD pos 0 - 1)).getD (pos + 1) 0 - 1)) (blkVec (.two pos)) = v := by
  have h1l : pos + 1 < v.length := lt_length_of_getD_pos v _ h1
  apply eq_of_getD _ _ (by simp [length_vadd, List.length_set, length_blkVec, hv])
  intro n hn
  simp only [length_vadd, List.length_set, length_blkVec, hv] at hn
  rw [getD_vadd _ _ (by simp [List.length_set, length_blkVec, hv]), getD_blkVec_eval]
  by_cases he0 : n = pos
  · subst he0
    simp (disch := (try simp only [List.length_set]); omega) only
      [getD_set_self, getD_set_ne]
    try simp only [eq_self_iff_true, true_and]
    split_ifs <;> omega
  · by_cases he1 : n = pos + 1
    · subst he1
      simp (disch := (try simp only [List.length_set]); omega) only
        [getD_set_self, getD_set_ne]
      try simp only [eq_self_iff_true, true_and]
      split_ifs <;> omega
    · simp (disch := omega) only [getD_set_ne]
      try simp only [eq_self_iff_true, true_and]
      split_ifs <;> omega

theorem vadd_dec_gap (v : List Nat) (pos : Nat) (hv : v.length = 9) (hpos : pos ≤ 6)
    (h0 : 0 < v.getD pos 0) (h2 : 0 < v.getD (pos + 2) 0) :
    vadd ((v.set pos (v.getD pos 0 - 1)).set (pos + 2)
        ((v.set pos (v.getD pos 0 - 1)).getD (pos + 2) 0 - 1)) (blkVec (.gap pos)) = v := by
  apply eq_of_getD _ _ (by simp [length_vadd, List.length_set, length_blkVec, hv])
  intro n hn
  simp only [length_vadd, List.length_set, length_blkVec, hv] at hn
  rw [getD_vadd _ _ (by simp [List.length_set, length_blkVec, hv]), getD_blkVec_eval]
  have hl2 : pos + 2 < v.length := lt_length_of_getD_pos v _ h2
  by_cases he0 : n = pos
  · subst he0
    simp (disch := (try simp only [List.length_set]); omega) only
      [getD_set_self, getD_set_ne]
    try simp only [eq_self_iff_true, true_and]
    split_ifs <;> omega
  · by_cases he2 : n = pos + 2
    · subst he2
      simp (disch := (try simp only [List.length_set]); omega) only
        [getD_set_self, getD_set_ne]
      try simp only [eq_self_iff_true, true_and]
      split_ifs <;> omega
    · simp (disch := omega) only [getD_set_ne]
      try simp only [eq_self_iff_true, true_and]
      split_ifs <;> omega

theorem vadd_dec_run (v : List Nat) (pos : Nat) (hv : v.length = 9) (hpos : pos ≤ 6)
    (h0 : 0 < v.getD pos 0) (h1 : 0 < v.getD (pos + 1) 0) (h2 : 0 < v.getD (pos + 2) 0) :
    vadd (((v.set pos (v.getD pos 0 - 1)).set (pos + 1)
        ((v.set pos (v.getD pos 0 - 1)).getD (pos + 1) 0 - 1)).set (pos + 2)
        (((v.set pos (v.getD pos 0 - 1)).set (pos + 1)
          ((v.set pos (v.getD pos 0 - 1)).getD (pos + 1) 0 - 1)).getD (pos + 2) 0 - 1))
      (blkVec (.runb pos)) = v := by
  apply eq_of_getD _ _ (by simp [length_vadd, List.length_set, length_blkVec, hv])
  intro n hn
  simp only [length_vadd, List.length_set, length_blkVec, hv] at hn
  rw [getD_vadd _ _ (by simp [List.length_set, length_blkVec, hv]), getD_blkVec_eval]
  have hl1 : pos + 1 < v.length := lt_length_of_getD_pos v _ h1
  have hl2 : pos + 2 < v.length := lt_length_of_getD_pos v _ h2
  by_cases he0 : n = pos
  · subst he0
    simp (disch := (try simp only [List.length_set]); omega) only
      [getD_set_self, getD_set_ne]
    try simp only [eq_self_iff_true, true_and]
    split_ifs <;> omega
  · by_cases he1 : n = pos + 1
    · subst he1
      simp (disch := (try simp only [List.length_set]); omega) only
        [getD_set_self, getD_set_ne]
      try simp only [eq_self_iff_true, true_and]
      split_ifs <;> omega
    · by_cases he2 : n = pos + 2
      · subst he2
        simp (disch := (try simp only [List.length_set]); omega) only
          [getD_set_self, getD_set_ne]
        try simp only [eq_self_iff_true, true_and]
        split_ifs <;> omega
      · simp (disch := omega) only [getD_set_ne]
        try simp only [eq_self_iff_true, true_and]
        split_ifs <;> omega

theorem branch_triplet_mem (f : EnumRec) (pos melds tatsu pairs : Nat)
    (st : EnumState) (c : Nat × Nat × Nat)
    (hc : c ∈ (branch_triplet f pos melds tatsu pairs st).2) :
    c ∈ st.2 ∨ (3 ≤ st.1.getD pos 0 ∧
      c ∈ (f (st.1.set pos (st.1.getD pos 0 - 3)) (melds + 1) tatsu pairs st.2).2) := by
  unfold branch_triplet at hc
  split at hc
  case isTrue h => exact Or.inr ⟨h, hc⟩
  case isFalse h => exact Or.inl hc

theorem branch_run_mem (f : EnumRec) (pos melds tatsu pairs : Nat)
    (st : EnumState) (c : Nat × Nat × Nat)
    (hc : c ∈ (branch_run f pos melds tatsu pairs st).2) :
    c ∈ st.2 ∨ ((pos ≤ 6 ∧ 0 < st.1.getD pos 0 ∧ 0 < st.1.getD (pos + 1) 0 ∧
      0 < st.1.getD (pos + 2) 0) ∧
      c ∈ (f (((st.1.set pos (st.1.getD pos 0 - 1)).set (pos + 1)
          ((st.1.set pos (st.1.getD pos 0 - 1)).getD (pos + 1) 0 - 1)).set (pos + 2)
          (((st.1.set pos (st.1.getD pos 0 - 1)).set (pos + 1)
            ((st.1.set pos (st.1.getD pos 0 - 1)).getD (pos + 1) 0 - 1)).getD (pos + 2) 0 - 1))
        (melds + 1) tatsu pairs st.2).2) := by
  unfold branch_run at hc
  split at hc
  case isTrue h => exact Or.inr ⟨h, hc⟩
  case isFalse h => exact Or.inl hc

theorem branch_pair_mem (f : EnumRec) (pos melds tatsu pairs : Nat)
    (st : EnumState) (c : Nat × Nat × Nat)
    (hc : c ∈ (branch_pair f pos melds tatsu pairs st).2) :
    c ∈ st.2 ∨ (2 ≤ st.1.getD pos 0 ∧
      c ∈ (f (st.1.set pos (st.1.getD pos 0 - 2)) melds tatsu (pairs + 1) st.2).2) := by
  unfold branch_pair at hc
  split at hc
  case isTrue h => exact Or.inr ⟨h, hc⟩
  case isFalse h => exact Or.inl hc

theorem branch_twosided_mem (f : EnumRec) (pos melds tatsu pairs : Nat)
    (st : EnumState) (c : Nat × Nat × Nat)
    (hc : c ∈ (branch_twosided f pos melds tatsu pairs st).2) :
    c ∈ st.2 ∨ ((pos ≤ 7 ∧ 0 < st.1.getD pos 0 ∧ 0 < st.1.getD (pos + 1) 0) ∧
      c ∈ (f ((st.1.set pos (st.1.getD pos 0 - 1)).set (pos + 1)
          ((st.1.set pos (st.1.getD pos 0 - 1)).getD (pos + 1) 0 - 1))
        melds (tatsu + 1) pairs st.2).2) := by
  unfold branch_twosided at hc
  split at hc
  case isTrue h => exact Or.inr ⟨h, hc⟩
  case isFalse h => exact Or.inl hc

theorem branch_gapped_mem (f : EnumRec) (pos melds tatsu pairs : Nat)
    (st : EnumState) (c : Nat × Nat × Nat)
    (hc : c ∈ (branch_gapped f pos melds tatsu pairs st).2) :
    c ∈ st.2 ∨ ((pos ≤ 6 ∧ 0 < st.1.getD pos 0 ∧ 0 < st.1.getD (pos + 2) 0) ∧
      c ∈ (f ((st.1.set pos (st.1.getD pos 0 - 1)).set (pos + 2)
          ((st.1.set pos (st.1.getD pos 0 - 1)).getD (pos + 2) 0 - 1))
        melds (tatsu + 1) pairs st.2).2) := by
  unfold branch_gapped at hc
  split at hc
  case isTrue h => exact Or.inr ⟨h, hc⟩
  case isFalse h => exact Or.inl hc

theorem branch_lone_mem (f : EnumRec) (pos melds tatsu pairs : Nat)
    (st : EnumState) (c : Nat × Nat × Nat)
    (hc : c ∈ (branch_lone f pos melds tatsu pairs st).2) :
    c ∈ (f (st.1.set pos (st.1.getD pos 0 - 1)) melds tatsu pairs st.2).2 := hc

/-- C4, soundness of the enumerator: every emitted triple (beyond the incoming
accumulator) is `Dec`-reachable, offset by the incoming meld/tatsu/pair counts. -/
theorem enum_sound (fuel : Nat) :
    ∀ (v : List Nat) (m t p : Nat) (res : List (Nat × Nat × Nat)) (c : Nat × Nat × Nat),
      v.length = 9 →
      c ∈ (enumerate_combinations fuel v m t p res).2 →
      c ∈ res ∨ ∃ dm dt dp, c = (m + dm, t + dt, p + dp) ∧ Dec v dm dt dp := by
  induction fuel with
  | zero => intro v m t p res c _ hc; exact Or.inl hc
  | succ fuel ih =>
    intro v m t p res c hv hc
    rw [enumerate_combinations] at hc
    cases hfz : firstNonzero v with
    | none =>
      rw [hfz] at hc
      simp only [List.mem_append, List.mem_singleton] at hc
      rcases hc with h | h
      · exact Or.inl h
      · subst h
        refine Or.inr ⟨0, 0, 0, by simp, ?_⟩
        have hrep : v = List.replicate 9 0 := by
          apply eq_of_getD _ _ (by simp [hv])
          intro n hn
          rw [firstNonzero_none_getD v hfz n (by omega), getD_replicate_zero]
        rw [hrep]
        exact Dec.empty
    | some pos =>
      rw [hfz] at hc
      obtain ⟨hpos9, hposv, _⟩ := firstNonzero_some_spec v pos hfz
      have hrest : ∀ c' m' t' p' r', (enumerate_combinations fuel c' m' t' p' r').1 = c' :=
        fun c' m' t' p' r' => C9_enumeration_restores_counts fuel c' m' t' p' r'
      simp only at hc
      -- names for the successive states
      generalize hs1 : branch_triplet (enumerate_combinations fuel) pos m t p (v, res) = s1 at hc
      generalize hs2 : branch_run (enumerate_combinations fuel) pos m t p s1 = s2 at hc
      generalize hs3 : branch_pair (enumerate_combinations fuel) pos m t p s2 = s3 at hc
      generalize hs4 : branch_twosided (enumerate_combinations fuel) pos m t p s3 = s4 at hc
      generalize hs5 : branch_gapped (enumerate_combinations fuel) pos m t p s4 = s5 at hc
      have h1 : s1.1 = v := by rw [← hs1]; exact branch_triplet_fst _ hrest _ _ _ _ _
      have h2 : s2.1 = v := by rw [← hs2, branch_run_fst _ hrest, h1]
      have h3 : s3.1 = v := by rw [← hs3, branch_pair_fst _ hrest, h2]
      have h4 : s4.1 = v := by rw [← hs4, branch_twosided_fst _ hrest, h3]
      have h5 : s5.1 = v := by rw [← hs5, branch_gapped_fst _ hrest, h4]
      -- branch 6 (lone tile)
      have hc6 := branch_lone_mem (enumerate_combinations fuel) pos m t p s5 c hc
      rw [h5] at hc6
      rcases ih (v.set pos (v.getD pos 0 - 1)) m t p s5.2 c
          (by simp [List.length_set, hv]) hc6 with hc5 | ⟨dm, dt, dp, hceq, hdec⟩
      · -- branch 5 (gapped partial)
        rw [← hs5] at hc5
        rcases branch_gapped_mem _ pos m t p s4 c hc5 with hc4 | ⟨⟨hg6, hg0, hg2⟩, hcg⟩
        · -- branch 4 (two-sided partial)
          rw [← hs4] at hc4
          rcases branch_twosided_mem _ pos m t p s3 c hc4 with hc3 | ⟨⟨ht7, ht0, ht1⟩, hct⟩
          · -- branch 3 (pair)
            rw [← hs3] at hc3
            rcases branch_pair_mem _ pos m t p s2 c hc3 with hc2 | ⟨hp2, hcp⟩
            · -- branch 2 (run)
              rw [← hs2] at hc2
              rcases branch_run_mem _ pos m t p s1 c hc2 with hc1 | ⟨⟨hr6, hr0, hr1, hr2⟩, hcr⟩
              · -- branch 1 (triplet)
                rw [← hs1] at hc1
                rcases branch_triplet_mem _ pos m t p (v, res) c hc1 with hc0 | ⟨h3le, hctr⟩
                · exact Or.inl hc0
                · rcases ih _ _ _ _ _ c (by simp [List.length_set, hv]) hctr
                    with hres | ⟨dm, dt, dp, hceq, hdec⟩
                  · exact Or.inl hres
                  · refine Or.inr ⟨dm + 1, dt, dp, ?_, ?_⟩
                    · rw [hceq, Prod.mk.injEq, Prod.mk.injEq]
                      refine ⟨by omega, by omega, by omega⟩
                    · have := Dec.step (.trip pos) hpos9 hdec
                      rw [show blkVec (Blk.trip pos) = kunit pos 3 from rfl,
                        vadd_dec3 v pos hv hpos9 h3le] at this
                      simpa [blkM, blkT, blkP] using this
              · rw [h1] at hcr hr0 hr1 hr2
                rcases ih _ _ _ _ _ c (by simp [List.length_set, hv]) hcr
                  with hres | ⟨dm, dt, dp, hceq, hdec⟩
                · rw [← hs1] at hres
                  rcases branch_triplet_mem _ pos m t p (v, res) c hres with hc0 | ⟨h3le, hctr⟩
                  · exact Or.inl hc0
                  · rcases ih _ _ _ _ _ c (by simp [List.length_set, hv]) hctr
                      with hres' | ⟨dm, dt, dp, hceq, hdec⟩
                    · exact Or.inl hres'
                    · refine Or.inr ⟨dm + 1, dt, dp, ?_, ?_⟩
                      · rw [hceq, Prod.mk.injEq, Prod.mk.injEq]
                        refine ⟨by omega, by omega, by omega⟩
                      · have := Dec.step (.trip pos) hpos9 hdec
                        rw [show blkVec (Blk.trip pos) = kunit pos 3 from rfl,
                          vadd_dec3 v pos hv hpos9 h3le] at this
                        simpa [blkM, blkT, blkP] using this
                · refine Or.inr ⟨dm + 1, dt, dp, ?_, ?_⟩
                  · rw [hceq, Prod.mk.injEq, Prod.mk.injEq]
                    refine ⟨by omega, by omega, by omega⟩
                  · have := Dec.step (.runb pos) hr6 hdec
                    rw [vadd_dec_run v pos hv hr6 hr0 hr1 hr2] at this
                    simpa [blkM, blkT, blkP] using this
            · rw [h2] at hcp hp2
              rcases ih _ _ _ _ _ c (by simp [List.length_set, hv]) hcp
                with hres | ⟨dm, dt, dp, hceq, hdec⟩
              · -- fall back to branches 2 and 1 on s2.2 membership
                rw [← hs2] at hres
                rcases branch_run_mem _ pos m t p s1 c hres with hc1 | ⟨⟨hr6, hr0, hr1, hr2⟩, hcr⟩
                · rw [← hs1] at hc1
                  rcases branch_triplet_mem _ pos m t p (v, res) c hc1 with hc0 | ⟨h3le, hctr⟩
                  · exact Or.inl hc0
                  · rcases ih _ _ _ _ _ c (by simp [List.length_set, hv]) hctr
                      with hres' | ⟨dm, dt, dp, hceq, hdec⟩
                    · exact Or.inl hres'
                    · refine Or.inr ⟨dm + 1, dt, dp, ?_, ?_⟩
                      · rw [hceq, Prod.mk.injEq, Prod.mk.injEq]
                        refine ⟨by omega, by omega, by omega⟩
                      · have := Dec.step (.trip pos) hpos9 hdec
                        rw [show blkVec (Blk.trip pos) = kunit pos 3 from rfl,
                          vadd_dec3 v pos hv hpos9 h3le] at this
                        simpa [blkM, blkT, blkP] using this
                · rw [h1] at hcr hr0 hr1 hr2
                  rcases ih _ _ _ _ _ c (by simp [List.length_set, hv]) hcr
                    with hres' | ⟨dm, dt, dp, hceq, hdec⟩
                  · rw [← hs1] at hres'
                    rcases branch_triplet_mem _ pos m t p (v, res) c hres' with hc0 | ⟨h3le, hctr⟩
                    · exact Or.inl hc0
                    · rcases ih _ _ _ _ _ c (by simp [List.length_set, hv]) hctr
                        with hres'' | ⟨dm, dt, dp, hceq, hdec⟩
                      · exact Or.inl hres''
                      · refine Or.inr ⟨dm + 1, dt, dp, ?_, ?_⟩
                        · rw [hceq, Prod.mk.injEq, Prod.mk.injEq]
                          refine ⟨by omega, by omega, by omega⟩
                        · have := Dec.step (.trip pos) hpos9 hdec
                          rw [show blkVec (Blk.trip pos) = kunit pos 3 from rfl,
                            vadd_dec3 v pos hv hpos9 h3le] at this
                          simpa [blkM, blkT, blkP] using this
                  · refine Or.inr ⟨dm + 1, dt, dp, ?_, ?_⟩
                    · rw [hceq, Prod.mk.injEq, Prod.mk.injEq]
                      refine ⟨by omega, by omega, by omega⟩
                    · have := Dec.step (.runb pos) hr6 hdec
                      rw [vadd_dec_run v pos hv hr6 hr0 hr1 hr2] at this
                      simpa [blkM, blkT, blkP] using this
              · refine Or.inr ⟨dm, dt, dp + 1, ?_, ?_⟩
                · rw [hceq, Prod.mk.injEq, Prod.mk.injEq]
                  refine ⟨by omega, by omega, by omega⟩
                · have := Dec.step (.pairb pos) hpos9 hdec
                  rw [show blkVec (Blk.pairb pos) = kunit pos 2 from rfl,
                    vadd_dec2 v pos hv hpos9 hp2] at this
                  simpa [blkM, blkT, blkP] using this
          · rw [h3] at hct ht0 ht1
            rcases ih _ _ _ _ _ c (by simp [List.length_set, hv]) hct
              with hres | ⟨dm, dt, dp, hceq, hdec⟩
            · -- membership in s3.2: this state is reachable from (v, res) through
              -- branches 1-3; recurse through the same analysis by reusing hs3
              rw [← hs3] at hres
              rcases branch_pair_mem _ pos m t p s2 c hres with hc2 | ⟨hp2, hcp⟩
              · rw [← hs2] at hc2
                rcases branch_run_mem _ pos m t p s1 c hc2 with hc1 | ⟨⟨hr6, hr0, hr1, hr2⟩, hcr⟩
                · rw [← hs1] at hc1
                  rcases branch_triplet_mem _ pos m t p (v, res) c hc1 with hc0 | ⟨h3le, hctr⟩
                  · exact Or.inl hc0
                  · rcases ih _ _ _ _ _ c (by simp [List.length_set, hv]) hctr
                      with hres' | ⟨dm, dt, dp, hceq, hdec⟩
                    · exact Or.inl hres'
                    · refine Or.inr ⟨dm + 1, dt, dp, ?_, ?_⟩
                      · rw [hceq, Prod.mk.injEq, Prod.mk.injEq]
                        refine ⟨by omega, by omega, by omega⟩
                      · have := Dec.step (.trip pos) hpos9 hdec
                        rw [show blkVec (Blk.trip pos) = kunit pos 3 from rfl,
                          vadd_dec3 v pos hv hpos9 h3le] at this
                        simpa [blkM, blkT, blkP] using this
                · rw [h1] at hcr hr0 hr1 hr2
                  rcases ih _ _ _ _ _ c (by simp [List.length_set, hv]) hcr
                    with hres' | ⟨dm, dt, dp, hceq, hdec⟩
                  · rw [← hs1] at hres'
                    rcases branch_triplet_mem _ pos m t p (v, res) c hres' with hc0 | ⟨h3le, hctr⟩
                    · exact Or.inl hc0
                    · rcases ih _ _ _ _ _ c (by simp [List.length_set, hv]) hctr
                        with hres'' | ⟨dm, dt, dp, hceq, hdec⟩
                      · exact Or.inl hres''
                      · refine Or.inr ⟨dm + 1, dt, dp, ?_, ?_⟩
                        · rw [hceq, Prod.mk.injEq, Prod.mk.injEq]
                          refine ⟨by omega, by omega, by omega⟩
                        · have := Dec.step (.trip pos) hpos9 hdec
                          rw [show blkVec (Blk.trip pos) = kunit pos 3 from rfl,
                            vadd_dec3 v pos hv hpos9 h3le] at this
                          simpa [blkM, blkT, blkP] using this
                  · refine Or.inr ⟨dm + 1, dt, dp, ?_, ?_⟩
                    · rw [hceq, Prod.mk.injEq, Prod.mk.injEq]
                      refine ⟨by omega, by omega, by omega⟩
                    · have := Dec.step (.runb pos) hr6 hdec
                      rw [vadd_dec_run v pos hv hr6 hr0 hr1 hr2] at this
                      simpa [blkM, blkT, blkP] using this
              · rw [h2] at hcp hp2
                rcases ih _ _ _ _ _ c (by simp [List.length_set, hv]) hcp
                  with hres' | ⟨dm, dt, dp, hceq, hdec⟩
                · rw [← hs2] at hres'
                  rcases branch_run_mem _ pos m t p s1 c hres' with hc1 | ⟨⟨hr6, hr0, hr1, hr2⟩, hcr⟩
                  · rw [← hs1] at hc1
                    rcases branch_triplet_mem _ pos m t p (v, res) c hc1 with hc0 | ⟨h3le, hctr⟩
                    · exact Or.inl hc0
                    · rcases ih _ _ _ _ _ c (by simp [List.length_set, hv]) hctr
                        with hres'' | ⟨dm, dt, dp, hceq, hdec⟩
                      · exact Or.inl hres''
                      · refine Or.inr ⟨dm + 1, dt, dp, ?_, ?_⟩
                        · rw [hceq, Prod.mk.injEq, Prod.mk.injEq]
                          refine ⟨by omega, by omega, by omega⟩
                        · have := Dec.step (.trip pos) hpos9 hdec
                          rw [show blkVec (Blk.trip pos) = kunit pos 3 from rfl,
                            vadd_dec3 v pos hv hpos9 h3le] at this
                          simpa [blkM, blkT, blkP] using this
                  · rw [h1] at hcr hr0 hr1 hr2
                    rcases ih _ _ _ _ _ c (by simp [List.length_set, hv]) hcr
                      with hres'' | ⟨dm, dt, dp, hceq, hdec⟩
                    · rw [← hs1] at hres''
                      rcases branch_triplet_mem _ pos m t p (v, res) c hres'' with hc0 | ⟨h3le, hctr⟩
                      · exact Or.inl hc0
                      · rcases ih _ _ _ _ _ c (by simp [List.length_set, hv]) hctr
                          with hres3 | ⟨dm, dt, dp, hceq, hdec⟩
                        · exact Or.inl hres3
                        · refine Or.inr ⟨dm + 1, dt, dp, ?_, ?_⟩
                          · rw [hceq, Prod.mk.injEq, Prod.mk.injEq]
                            refine ⟨by omega, by omega, by omega⟩
                          · have := Dec.step (.trip pos) hpos9 hdec
                            rw [show blkVec (Blk.trip pos) = kunit pos 3 from rfl,
                              vadd_dec3 v pos hv hpos9 h3le] at this
                            simpa [blkM, blkT, blkP] using this
                    · refine Or.inr ⟨dm + 1, dt, dp, ?_, ?_⟩
                      · rw [hceq, Prod.mk.injEq, Prod.mk.injEq]
                        refine ⟨by omega, by omega, by omega⟩
                      · have := Dec.step (.runb pos) hr6 hdec
                        rw [vadd_dec_run v pos hv hr6 hr0 hr1 hr2] at this
                        simpa [blkM, blkT, blkP] using this
                · refine Or.inr ⟨dm, dt, dp + 1, ?_, ?_⟩
                  · rw [hceq, Prod.mk.injEq, Prod.mk.injEq]
                    refine ⟨by omega, by omega, by omega⟩
                  · have := Dec.step (.pairb pos) hpos9 hdec
                    rw [show blkVec (Blk.pairb pos) = kunit pos 2 from rfl,
                      vadd_dec2 v pos hv hpos9 hp2] at this
                    simpa [blkM, blkT, blkP] using this
            · refine Or.inr ⟨dm, dt + 1, dp, ?_, ?_⟩
              · rw [hceq, Prod.mk.injEq, Prod.mk.injEq]
                refine ⟨by omega, by omega, by omega⟩
              · have := Dec.step (.two pos) ht7 hdec
                rw [vadd_dec_two v pos hv ht7 ht0 ht1] at this
                simpa [blkM, blkT, blkP] using this
        · rw [h4] at hcg hg0 hg2
          rcases ih _ _ _ _ _ c (by simp [List.length_set, hv]) hcg
            with hres | ⟨dm, dt, dp, hceq, hdec⟩
          · -- membership in s4.2: recurse through branches 1-4 textually below
            rw [← hs4] at hres
            rcases branch_twosided_mem _ pos m t p s3 c hres with hc3 | ⟨⟨ht7, ht0, ht1⟩, hct⟩
            · rw [← hs3] at hc3
              rcases branch_pair_mem _ pos m t p s2 c hc3 with hc2 | ⟨hp2, hcp⟩
              · rw [← hs2] at hc2
                rcases branch_run_mem _ pos m t p s1 c hc2 with hc1 | ⟨⟨hr6, hr0, hr1, hr2⟩, hcr⟩
                · rw [← hs1] at hc1
                  rcases branch_triplet_mem _ pos m t p (v, res) c hc1 with hc0 | ⟨h3le, hctr⟩
                  · exact Or.inl hc0
                  · rcases ih _ _ _ _ _ c (by simp [List.length_set, hv]) hctr
                      with hres' | ⟨dm, dt, dp, hceq, hdec⟩
                    · exact Or.inl hres'
                    · refine Or.inr ⟨dm + 1, dt, dp, ?_, ?_⟩
                      · rw [hceq, Prod.mk.injEq, Prod.mk.injEq]
                        refine ⟨by omega, by omega, by omega⟩
                      · have := Dec.step (.trip pos) hpos9 hdec
                        rw [show blkVec (Blk.trip pos) = kunit pos 3 from rfl,
                          vadd_dec3 v pos hv hpos9 h3le] at this
                        simpa [blkM, blkT, blkP] using this
                · rw [h1] at hcr hr0 hr1 hr2
                  rcases ih _ _ _ _ _ c (by simp [List.length_set, hv]) hcr
                    with hres' | ⟨dm, dt, dp, hceq, hdec⟩
                  · rw [← hs1] at hres'
                    rcases branch_triplet_mem _ pos m t p (v, res) c hres' with hc0 | ⟨h3le, hctr⟩
                    · exact Or.inl hc0
                    · rcases ih _ _ _ _ _ c (by simp [List.length_set, hv]) hctr
                        with hres'' | ⟨dm, dt, dp, hceq, hdec⟩
                      · exact Or.inl hres''
                      · refine Or.inr ⟨dm + 1, dt, dp, ?_, ?_⟩
                        · rw [hceq, Prod.mk.injEq, Prod.mk.injEq]
                          refine ⟨by omega, by omega, by omega⟩
                        · have := Dec.step (.trip pos) hpos9 hdec
                          rw [show blkVec (Blk.trip pos) = kunit pos 3 from rfl,
                            vadd_dec3 v pos hv hpos9 h3le] at this
                          simpa [blkM, blkT, blkP] using this
                  · refine Or.inr ⟨dm + 1, dt, dp, ?_, ?_⟩
                    · rw [hceq, Prod.mk.injEq, Prod.mk.injEq]
                      refine ⟨by omega, by omega, by omega⟩
                    · have := Dec.step (.runb pos) hr6 hdec
                      rw [vadd_dec_run v pos hv hr6 hr0 hr1 hr2] at this
                      simpa [blkM, blkT, blkP] using this
              · rw [h2] at hcp hp2
                rcases ih _ _ _ _ _ c (by simp [List.length_set, hv]) hcp
                  with hres' | ⟨dm, dt, dp, hceq, hdec⟩
                · rw [← hs2] at hres'
                  rcases branch_run_mem _ pos m t p s1 c hres' with hc1 | ⟨⟨hr6, hr0, hr1, hr2⟩, hcr⟩
                  · rw [← hs1] at hc1
                    rcases branch_triplet_mem _ pos m t p (v, res) c hc1 with hc0 | ⟨h3le, hctr⟩
                    · exact Or.inl hc0
                    · rcases ih _ _ _ _ _ c (by simp [List.length_set, hv]) hctr
                        with hres'' | ⟨dm, dt, dp, hceq, hdec⟩
                      · exact Or.inl hres''
                      · refine Or.inr ⟨dm + 1, dt, dp, ?_, ?_⟩
                        · rw [hceq, Prod.mk.injEq, Prod.mk.injEq]
                          refine ⟨by omega, by omega, by omega⟩
                        · have := Dec.step (.trip pos) hpos9 hdec
                          rw [show blkVec (Blk.trip pos) = kunit pos 3 from rfl,
                            vadd_dec3 v pos hv hpos9 h3le] at this
                          simpa [blkM, blkT, blkP] using this
                  · rw [h1] at hcr hr0 hr1 hr2
                    rcases ih _ _ _ _ _ c (by simp [List.length_set, hv]) hcr
                      with hres'' | ⟨dm, dt, dp, hceq, hdec⟩
                    · rw [← hs1] at hres''
                      rcases branch_triplet_mem _ pos m t p (v, res) c hres'' with hc0 | ⟨h3le, hctr⟩
                      · exact Or.inl hc0
                      · rcases ih _ _ _ _ _ c (by simp [List.length_set, hv]) hctr
                          with hres3 | ⟨dm, dt, dp, hceq, hdec⟩
                        · exact Or.inl hres3
                        · refine Or.inr ⟨dm + 1, dt, dp, ?_, ?_⟩
                          · rw [hceq, Prod.mk.injEq, Prod.mk.injEq]
                            refine ⟨by omega, by omega, by omega⟩
                          · have := Dec.step (.trip pos) hpos9 hdec
                            rw [show blkVec (Blk.trip pos) = kunit pos 3 from rfl,
                              vadd_dec3 v pos hv hpos9 h3le] at this
                            simpa [blkM, blkT, blkP] using this
                    · refine Or.inr ⟨dm + 1, dt, dp, ?_, ?_⟩
                      · rw [hceq, Prod.mk.injEq, Prod.mk.injEq]
                        refine ⟨by omega, by omega, by omega⟩
                      · have := Dec.step (.runb pos) hr6 hdec
                        rw [vadd_dec_run v pos hv hr6 hr0 hr1 hr2] at this
                        simpa [blkM, blkT, blkP] using this
                · refine Or.inr ⟨dm, dt, dp + 1, ?_, ?_⟩
                  · rw [hceq, Prod.mk.injEq, Prod.mk.injEq]
                    refine ⟨by omega, by omega, by omega⟩
                  · have := Dec.step (.pairb pos) hpos9 hdec
                    rw [show blkVec (Blk.pairb pos) = kunit pos 2 from rfl,
                      vadd_dec2 v pos hv hpos9 hp2] at this
                    simpa [blkM, blkT, blkP] using this
            · rw [h3] at hct ht0 ht1
              rcases ih _ _ _ _ _ c (by simp [List.length_set, hv]) hct
                with hres' | ⟨dm, dt, dp, hceq, hdec⟩
              · rw [← hs3] at hres'
                rcases branch_pair_mem _ pos m t p s2 c hres' with hc2 | ⟨hp2, hcp⟩
                · rw [← hs2] at hc2
                  rcases branch_run_mem _ pos m t p s1 c hc2 with hc1 | ⟨⟨hr6, hr0, hr1, hr2⟩, hcr⟩
                  · rw [← hs1] at hc1
                    rcases branch_triplet_mem _ pos m t p (v, res) c hc1 with hc0 | ⟨h3le, hctr⟩
                    · exact Or.inl hc0
                    · rcases ih _ _ _ _ _ c (by simp [List.length_set, hv]) hctr
                        with hres'' | ⟨dm, dt, dp, hceq, hdec⟩
                      · exact Or.inl hres''
                      · refine Or.inr ⟨dm + 1, dt, dp, ?_, ?_⟩
                        · rw [hceq, Prod.mk.injEq, Prod.mk.injEq]
                          refine ⟨by omega, by omega, by omega⟩
                        · have := Dec.step (.trip pos) hpos9 hdec
                          rw [show blkVec (Blk.trip pos) = kunit pos 3 from rfl,
                            vadd_dec3 v pos hv hpos9 h3le] at this
                          simpa [blkM, blkT, blkP] using this
                  · rw [h1] at hcr hr0 hr1 hr2
                    rcases ih _ _ _ _ _ c (by simp [List.length_set, hv]) hcr
                      with hres'' | ⟨dm, dt, dp, hceq, hdec⟩
                    · rw [← hs1] at hres''
                      rcases branch_triplet_mem _ pos m t p (v, res) c hres'' with hc0 | ⟨h3le, hctr⟩
                      · exact Or.inl hc0
                      · rcases ih _ _ _ _ _ c (by simp [List.length_set, hv]) hctr
                          with hres3 | ⟨dm, dt, dp, hceq, hdec⟩
                        · exact Or.inl hres3
                        · refine Or.inr ⟨dm + 1, dt, dp, ?_, ?_⟩
                          · rw [hceq, Prod.mk.injEq, Prod.mk.injEq]
                            refine ⟨by omega, by omega, by omega⟩
                          · have := Dec.step (.trip pos) hpos9 hdec
                            rw [show blkVec (Blk.trip pos) = kunit pos 3 from rfl,
                              vadd_dec3 v pos hv hpos9 h3le] at this
                            simpa [blkM, blkT, blkP] using this
                    · refine Or.inr ⟨dm + 1, dt, dp, ?_, ?_⟩
                      · rw [hceq, Prod.mk.injEq, Prod.mk.injEq]
                        refine ⟨by omega, by omega, by omega⟩
                      · have := Dec.step (.runb pos) hr6 hdec
                        rw [vadd_dec_run v pos hv hr6 hr0 hr1 hr2] at this
                        simpa [blkM, blkT, blkP] using this
                · rw [h2] at hcp hp2
                  rcases ih _ _ _ _ _ c (by simp [List.length_set, hv]) hcp
                    with hres'' | ⟨dm, dt, dp, hceq, hdec⟩
                  · rw [← hs2] at hres''
                    rcases branch_run_mem _ pos m t p s1 c hres'' with hc1 | ⟨⟨hr6, hr0, hr1, hr2⟩, hcr⟩
                    · rw [← hs1] at hc1
                      rcases branch_triplet_mem _ pos m t p (v, res) c hc1 with hc0 | ⟨h3le, hctr⟩
                      · exact Or.inl hc0
                      · rcases ih _ _ _ _ _ c (by simp [List.length_set, hv]) hctr
                          with hres3 | ⟨dm, dt, dp, hceq, hdec⟩
                        · exact Or.inl hres3
                        · refine Or.inr ⟨dm + 1, dt, dp, ?_, ?_⟩
                          · rw [hceq, Prod.mk.injEq, Prod.mk.injEq]
                            refine ⟨by omega, by omega, by omega⟩
                          · have := Dec.step (.trip pos) hpos9 hdec
                            rw [show blkVec (Blk.trip pos) = kunit pos 3 from rfl,
                              vadd_dec3 v pos hv hpos9 h3le] at this
                            simpa [blkM, blkT, blkP] using this
                    · rw [h1] at hcr hr0 hr1 hr2
                      rcases ih _ _ _ _ _ c (by simp [List.length_set, hv]) hcr
                        with hres3 | ⟨dm, dt, dp, hceq, hdec⟩
                      · rw [← hs1] at hres3
                        rcases branch_triplet_mem _ pos m t p (v, res) c hres3 with hc0 | ⟨h3le, hctr⟩
                        · exact Or.inl hc0
                        · rcases ih _ _ _ _ _ c (by simp [List.length_set, hv]) hctr
                            with hres4 | ⟨dm, dt, dp, hceq, hdec⟩
                          · exact Or.inl hres4
                          · refine Or.inr ⟨dm + 1, dt, dp, ?_, ?_⟩
                            · rw [hceq, Prod.mk.injEq, Prod.mk.injEq]
                              refine ⟨by omega, by omega, by omega⟩
                            · have := Dec.step (.trip pos) hpos9 hdec
                              rw [show blkVec (Blk.trip pos) = kunit pos 3 from rfl,
                                vadd_dec3 v pos hv hpos9 h3le] at this
                              simpa [blkM, blkT, blkP] using this
                      · refine Or.inr ⟨dm + 1, dt, dp, ?_, ?_⟩
                        · rw [hceq, Prod.mk.injEq, Prod.mk.injEq]
                          refine ⟨by omega, by omega, by omega⟩
                        · have := Dec.step (.runb pos) hr6 hdec
                          rw [vadd_dec_run v pos hv hr6 hr0 hr1 hr2] at this
                          simpa [blkM, blkT, blkP] using this
                  · refine Or.inr ⟨dm, dt, dp + 1, ?_, ?_⟩
                    · rw [hceq, Prod.mk.injEq, Prod.mk.injEq]
                      refine ⟨by omega, by omega, by omega⟩
                    · have := Dec.step (.pairb pos) hpos9 hdec
                      rw [show blkVec (Blk.pairb pos) = kunit pos 2 from rfl,
                        vadd_dec2 v pos hv hpos9 hp2] at this
                      simpa [blkM, blkT, blkP] using this
              · refine Or.inr ⟨dm, dt + 1, dp, ?_, ?_⟩
                · rw [hceq, Prod.mk.injEq, Prod.mk.injEq]
                  refine ⟨by omega, by omega, by omega⟩
                · have := Dec.step (.two pos) ht7 hdec
                  rw [vadd_dec_two v pos hv ht7 ht0 ht1] at this
                  simpa [blkM, blkT, blkP] using this
          · refine Or.inr ⟨dm, dt + 1, dp, ?_, ?_⟩
            · rw [hceq, Prod.mk.injEq, Prod.mk.injEq]
              refine ⟨by omega, by omega, by omega⟩
            · have := Dec.step (.gap pos) hg6 hdec
              rw [vadd_dec_gap v pos hv hg6 hg0 hg2] at this
              simpa [blkM, blkT, blkP] using this
      · refine Or.inr ⟨dm, dt, dp, hceq, ?_⟩
        have := Dec.step (.lone pos) hpos9 hdec
        rw [show blkVec (Blk.lone pos) = kunit pos 1 from rfl,
          vadd_dec1 v pos hv hpos9 hposv] at this
        simpa [blkM, blkT, blkP] using this

/-! ## C4, step 4: completeness of the enumerator -/

theorem branch_triplet_pos (f : EnumRec) (pos m t p : Nat) (st : EnumState)
    (h : 3 ≤ st.1.getD pos 0) :
    (branch_triplet f pos m t p st).2 =
      (f (st.1.set pos (st.1.getD pos 0 - 3)) (m + 1) t p st.2).2 := by
  unfold branch_triplet
  rw [if_pos h]

theorem branch_run_pos (f : EnumRec) (pos m t p : Nat) (st : EnumState)
    (h : pos ≤ 6 ∧ 0 < st.1.getD pos 0 ∧ 0 < st.1.getD (pos + 1) 0 ∧
      0 < st.1.getD (pos + 2) 0) :
    (branch_run f pos m t p st).2 =
      (f (((st.1.set pos (st.1.getD pos 0 - 1)).set (pos + 1)
          ((st.1.set pos (st.1.getD pos 0 - 1)).getD (pos + 1) 0 - 1)).set (pos + 2)
          (((st.1.set pos (st.1.getD pos 0 - 1)).set (pos + 1)
            ((st.1.set pos (st.1.getD pos 0 - 1)).getD (pos + 1) 0 - 1)).getD (pos + 2) 0 - 1))
        (m + 1) t p st.2).2 := by
  unfold branch_run
  rw [if_pos h]

theorem branch_pair_pos (f : EnumRec) (pos m t p : Nat) (st : EnumState)
    (h : 2 ≤ st.1.getD pos 0) :
    (branch_pair f pos m t p st).2 =
      (f (st.1.set pos (st.1.getD pos 0 - 2)) m t (p + 1) st.2).2 := by
  unfold branch_pair
  rw [if_pos h]

theorem branch_twosided_pos (f : EnumRec) (pos m t p : Nat) (st : EnumState)
    (h : pos ≤ 7 ∧ 0 < st.1.getD pos 0 ∧ 0 < st.1.getD (pos + 1) 0) :
    (branch_twosided f pos m t p st).2 =
      (f ((st.1.set pos (st.1.getD pos 0 - 1)).set (pos + 1)
          ((st.1.set pos (st.1.getD pos 0 - 1)).getD (pos + 1) 0 - 1))
        m (t + 1) p st.2).2 := by
  unfold branch_twosided
  rw [if_pos h]

theorem branch_gapped_pos (f : EnumRec) (pos m t p : Nat) (st : EnumState)
    (h : pos ≤ 6 ∧ 0 < st.1.getD pos 0 ∧ 0 < st.1.getD (pos + 2) 0) :
    (branch_gapped f pos m t p st).2 =
      (f ((st.1.set pos (st.1.getD pos 0 - 1)).set (pos + 2)
          ((st.1.set pos (st.1.getD pos 0 - 1)).getD (pos + 2) 0 - 1))
        m (t + 1) p st.2).2 := by
  unfold branch_gapped
  rw [if_pos h]

theorem branch_lone_snd (f : EnumRec) (pos m t p : Nat) (st : EnumState) :
    (branch_lone f pos m t p st).2 =
      (f (st.1.set pos (st.1.getD pos 0 - 1)) m t p st.2).2 := rfl

theorem branch_triplet_mono (f : EnumRec) (hf : ∀ c m t p r, r ⊆ (f c m t p r).2)
    (pos m t p : Nat) (st : EnumState) : st.2 ⊆ (branch_triplet f pos m t p st).2 := by
  unfold branch_triplet
  split
  · exact hf _ _ _ _ _
  · exact fun x hx => hx

theorem branch_run_mono (f : EnumRec) (hf : ∀ c m t p r, r ⊆ (f c m t p r).2)
    (pos m t p : Nat) (st : EnumState) : st.2 ⊆ (branch_run f pos m t p st).2 := by
  unfold branch_run
  split
  · exact hf _ _ _ _ _
  · exact fun x hx => hx

theorem branch_pair_mono (f : EnumRec) (hf : ∀ c m t p r, r ⊆ (f c m t p r).2)
    (pos m t p : Nat) (st : EnumState) : st.2 ⊆ (branch_pair f pos m t p st).2 := by
  unfold branch_pair
  split
  · exact hf _ _ _ _ _
  · exact fun x hx => hx

theorem branch_twosided_mono (f : EnumRec) (hf : ∀ c m t p r, r ⊆ (f c m t p r).2)
    (pos m t p : Nat) (st : EnumState) : st.2 ⊆ (branch_twosided f pos m t p st).2 := by
  unfold branch_twosided
  split
  · exact hf _ _ _ _ _
  · exact fun x hx => hx

theorem branch_gapped_mono (f : EnumRec) (hf : ∀ c m t p r, r ⊆ (f c m t p r).2)
    (pos m t p : Nat) (st : EnumState) : st.2 ⊆ (branch_gapped f pos m t p st).2 := by
  unfold branch_gapped
  split
  · exact hf _ _ _ _ _
  · exact fun x hx => hx

theorem branch_lone_mono (f : EnumRec) (hf : ∀ c m t p r, r ⊆ (f c m t p r).2)
    (pos m t p : Nat) (st : EnumState) : st.2 ⊆ (branch_lone f pos m t p st).2 :=
  hf _ _ _ _ _

/-- The enumerator only appends to the result list. -/
theorem enum_res_mono (fuel : Nat) :
    ∀ (v : List Nat) (m t p : Nat) (res : List (Nat × Nat × Nat)),
      res ⊆ (enumerate_combinations fuel v m t p res).2 := by
  induction fuel with
  | zero => intro v m t p res x hx; exact hx
  | succ fuel ih =>
    intro v m t p res
    rw [enumerate_combinations]
    cases firstNonzero v with
    | none => intro x hx; exact List.mem_append.mpr (Or.inl hx)
    | some pos =>
      simp only
      intro x hx
      exact branch_lone_mono _ ih pos m t p _
        (branch_gapped_mono _ ih pos m t p _
          (branch_twosided_mono _ ih pos m t p _
            (branch_pair_mono _ ih pos m t p _
              (branch_run_mono _ ih pos m t p _
                (branch_triplet_mono _ ih pos m t p (v, res) hx)))))

/-- Extraction: any decomposition of a vector whose first nonzero entry is at
`pos` can be rearranged to remove one block based at `pos` last. -/
theorem dec_extract {w : List Nat} {dm dt dp : Nat} (h : Dec w dm dt dp) :
    ∀ pos, 0 < w.getD pos 0 → (∀ j, j < pos → w.getD j 0 = 0) →
    ∃ b u dm' dt' dp', blkOk b ∧ blkBase b = pos ∧ w = vadd u (blkVec b) ∧
      Dec u dm' dt' dp' ∧ dm = dm' + blkM b ∧ dt = dt' + blkT b ∧ dp = dp' + blkP b := by
  induction h with
  | empty =>
    intro pos hpos _
    rw [getD_replicate_zero] at hpos
    omega
  | step b hb hd ih =>
    rename_i v m t p
    intro pos hpos hzero
    have hvlen : v.length = 9 := dec_length hd
    have hwget : ∀ j, (vadd v (blkVec b)).getD j 0 = v.getD j 0 + (blkVec b).getD j 0 :=
      fun j => getD_vadd v (blkVec b) (by rw [hvlen, length_blkVec]) j
    by_cases hbv : 0 < (blkVec b).getD pos 0
    · have hbase_ge : pos ≤ blkBase b := by
        by_contra hlt
        push_neg at hlt
        have h1 := getD_blkVec_base b hb
        have h2 := hzero (blkBase b) hlt
        rw [hwget] at h2
        omega
      have hbase_le : blkBase b ≤ pos := by
        by_contra hlt
        push_neg at hlt
        rw [getD_blkVec_lt b pos hlt] at hbv
        omega
      exact ⟨b, v, m, t, p, hb, by omega, rfl, hd, rfl, rfl, rfl⟩
    · have hvpos : 0 < v.getD pos 0 := by
        have := hwget pos
        omega
      have hvzero : ∀ j, j < pos → v.getD j 0 = 0 := by
        intro j hj
        have h1 := hwget j
        have h2 := hzero j hj
        omega
      obtain ⟨b', u', dm', dt', dp', hb', hbase', hueq, hdec', he1, he2, he3⟩ :=
        ih pos hvpos hvzero
      refine ⟨b', vadd u' (blkVec b), dm' + blkM b, dt' + blkT b, dp' + blkP b, hb',
        hbase', ?_, Dec.step b hb hdec', by omega, by omega, by omega⟩
      rw [hueq, vadd_right_comm u' (blkVec b') (blkVec b) (dec_length hdec')
        (length_blkVec _) (length_blkVec _)]

/-- Completeness of the enumerator: with enough fuel, every block decomposition
of the vector is emitted (offset by the incoming accumulator values). -/
theorem enum_complete (fuel : Nat) :
    ∀ (v : List Nat) (m t p dm dt dp : Nat) (res : List (Nat × Nat × Nat)),
      v.length = 9 → v.sum < fuel → Dec v dm dt dp →
      (m + dm, t + dt, p + dp) ∈ (enumerate_combinations fuel v m t p res).2 := by
  induction fuel with
  | zero => intro v m t p dm dt dp res hv hs hd; omega
  | succ fuel ih =>
    intro v m t p dm dt dp res hv hs hd
    rw [enumerate_combinations]
    cases hfz : firstNonzero v with
    | none =>
      have hz : ∀ i, i < 9 → v.getD i 0 = 0 := firstNonzero_none_getD v hfz
      have hsum : v.sum = 0 := by
        have hrep : v = List.replicate 9 0 := by
          apply eq_of_getD _ _ (by simp [hv])
          intro n hn
          rw [hz n (by simpa [hv] using hn), getD_replicate_zero]
        rw [hrep]
        simp
      obtain ⟨h1, h2, h3⟩ := dec_sum_zero hd hsum
      subst h1; subst h2; subst h3
      simp
    | some pos =>
      obtain ⟨hpos9, hposv, hzero⟩ := firstNonzero_some_spec v pos hfz
      obtain ⟨b, u, dm', dt', dp', hb, hbase, hweq, hdec, he1, he2, he3⟩ :=
        dec_extract hd pos hposv hzero
      have hulen : u.length = 9 := dec_length hdec
      have husum : u.sum < fuel := by
        have h1 : v.sum = u.sum + (blkVec b).sum := by
          rw [hweq, sum_vadd _ _ (by rw [hulen, length_blkVec])]
        have h2 := sum_blkVec_pos b hb
        omega
      have hgetv : ∀ j, v.getD j 0 = u.getD j 0 + (blkVec b).getD j 0 := by
        intro j
        rw [hweq, getD_vadd _ _ (by rw [hulen, length_blkVec])]
      have hrest : ∀ c' m' t' p' r', (enumerate_combinations fuel c' m' t' p' r').1 = c' :=
        fun c' m' t' p' r' => C9_enumeration_restores_counts fuel c' m' t' p' r'
      have hmono : ∀ c' m' t' p' r', r' ⊆ (enumerate_combinations fuel c' m' t' p' r').2 :=
        fun c' m' t' p' r' => enum_res_mono fuel c' m' t' p' r'
      simp only
      generalize hs1 : branch_triplet (enumerate_combinations fuel) pos m t p (v, res) = s1
      generalize hs2 : branch_run (enumerate_combinations fuel) pos m t p s1 = s2
      generalize hs3 : branch_pair (enumerate_combinations fuel) pos m t p s2 = s3
      generalize hs4 : branch_twosided (enumerate_combinations fuel) pos m t p s3 = s4
      generalize hs5 : branch_gapped (enumerate_combinations fuel) pos m t p s4 = s5
      have h1 : s1.1 = v := by rw [← hs1]; exact branch_triplet_fst _ hrest _ _ _ _ _
      have h2 : s2.1 = v := by rw [← hs2, branch_run_fst _ hrest, h1]
      have h3 : s3.1 = v := by rw [← hs3, branch_pair_fst _ hrest, h2]
      have h4 : s4.1 = v := by rw [← hs4, branch_twosided_fst _ hrest, h3]
      have h5 : s5.1 = v := by rw [← hs5, branch_gapped_fst _ hrest, h4]
      have hm2 : s1.2 ⊆ s2.2 := by rw [← hs2]; exact branch_run_mono _ hmono pos m t p s1
      have hm3 : s2.2 ⊆ s3.2 := by rw [← hs3]; exact branch_pair_mono _ hmono pos m t p s2
      have hm4 : s3.2 ⊆ s4.2 := by
        rw [← hs4]; exact branch_twosided_mono _ hmono pos m t p s3
      have hm5 : s4.2 ⊆ s5.2 := by rw [← hs5]; exact branch_gapped_mono _ hmono pos m t p s4
      have hm6 : s5.2 ⊆ (branch_lone (enumerate_combinations fuel) pos m t p s5).2 :=
        branch_lone_mono _ hmono pos m t p s5
      cases b with
      | lone i =>
        have hip : i = pos := hbase
        subst hip
        simp only [blkM, blkT, blkP] at he1 he2 he3
        have hblk : (blkVec (Blk.lone i)).getD i 0 = 1 := by
          rw [getD_blkVec_eval]
          simp [hpos9]
        have hguard : 1 ≤ v.getD i 0 := by
          have := hgetv i
          omega
        have huv : u = v.set i (v.getD i 0 - 1) := by
          apply vadd_cancel_right _ _ (kunit i 1) (by rw [hulen, length_kunit])
            (by simp [List.length_set, hv, length_kunit])
          rw [vadd_dec1 v i hv hpos9 hguard]
          exact hweq.symm
        rw [branch_lone_snd, h5]
        have hmem := ih u m t p dm' dt' dp' s5.2 hulen husum hdec
        rw [huv] at hmem
        have heq : (m + dm, t + dt, p + dp) = (m + dm', t + dt', p + dp') := by
          rw [Prod.mk.injEq, Prod.mk.injEq]
          refine ⟨by omega, by omega, by omega⟩
        rw [heq]
        exact hmem
      | trip i =>
        have hip : i = pos := hbase
        subst hip
        simp only [blkM, blkT, blkP] at he1 he2 he3
        have hblk : (blkVec (Blk.trip i)).getD i 0 = 3 := by
          rw [getD_blkVec_eval]
          simp [hpos9]
        have hguard : 3 ≤ v.getD i 0 := by
          have := hgetv i
          omega
        have huv : u = v.set i (v.getD i 0 - 3) := by
          apply vadd_cancel_right _ _ (kunit i 3) (by rw [hulen, length_kunit])
            (by simp [List.length_set, hv, length_kunit])
          rw [vadd_dec3 v i hv hpos9 hguard]
          exact hweq.symm
        have hmem1 : (m + 1 + dm', t + dt', p + dp') ∈ s1.2 := by
          rw [← hs1, branch_triplet_pos _ _ _ _ _ _ hguard]
          have hmem := ih u (m + 1) t p dm' dt' dp' res hulen husum hdec
          rw [huv] at hmem
          exact hmem
        have heq : (m + dm, t + dt, p + dp) = (m + 1 + dm', t + dt', p + dp') := by
          rw [Prod.mk.injEq, Prod.mk.injEq]
          refine ⟨by omega, by omega, by omega⟩
        rw [heq]
        exact hm6 (hm5 (hm4 (hm3 (hm2 hmem1))))
      | runb i =>
        have hip : i = pos := hbase
        subst hip
        simp only [blkOk] at hb
        simp only [blkM, blkT, blkP] at he1 he2 he3
        have hblk0 : (blkVec (Blk.runb i)).getD i 0 = 1 := by
          rw [getD_blkVec_eval]
          show (if i = i ∧ i < 9 then 1 else 0) + ((if i = i + 1 ∧ i < 9 then 1 else 0) + (if i = i + 2 ∧ i < 9 then 1 else 0)) = 1
          split_ifs <;> omega
        have hblk1 : (blkVec (Blk.runb i)).getD (i + 1) 0 = 1 := by
          rw [getD_blkVec_eval]
          show (if i + 1 = i ∧ i + 1 < 9 then 1 else 0) + ((if i + 1 = i + 1 ∧ i + 1 < 9 then 1 else 0) + (if i + 1 = i + 2 ∧ i + 1 < 9 then 1 else 0)) = 1
          split_ifs <;> omega
        have hblk2 : (blkVec (Blk.runb i)).getD (i + 2) 0 = 1 := by
          rw [getD_blkVec_eval]
          show (if i + 2 = i ∧ i + 2 < 9 then 1 else 0) + ((if i + 2 = i + 1 ∧ i + 2 < 9 then 1 else 0) + (if i + 2 = i + 2 ∧ i + 2 < 9 then 1 else 0)) = 1
          split_ifs <;> omega
        have hg0 : 0 < v.getD i 0 := by have := hgetv i; omega
        have hg1 : 0 < v.getD (i + 1) 0 := by have := hgetv (i + 1); omega
        have hg2 : 0 < v.getD (i + 2) 0 := by have := hgetv (i + 2); omega
        have huv : u = ((v.set i (v.getD i 0 - 1)).set (i + 1)
            ((v.set i (v.getD i 0 - 1)).getD (i + 1) 0 - 1)).set (i + 2)
            (((v.set i (v.getD i 0 - 1)).set (i + 1)
              ((v.set i (v.getD i 0 - 1)).getD (i + 1) 0 - 1)).getD (i + 2) 0 - 1) := by
          apply vadd_cancel_right _ _ (blkVec (Blk.runb i))
            (by rw [hulen, length_blkVec])
            (by simp [List.length_set, hv, length_blkVec])
          rw [vadd_dec_run v i hv hb hg0 hg1 hg2]
          exact hweq.symm
        have hmem1 : (m + 1 + dm', t + dt', p + dp') ∈ s2.2 := by
          rw [← hs2, branch_run_pos _ _ _ _ _ _ (by rw [h1]; exact ⟨hb, hg0, hg1, hg2⟩)]
          rw [h1]
          have hmem := ih u (m + 1) t p dm' dt' dp' s1.2 hulen husum hdec
          rw [huv] at hmem
          exact hmem
        have heq : (m + dm, t + dt, p + dp) = (m + 1 + dm', t + dt', p + dp') := by
          rw [Prod.mk.injEq, Prod.mk.injEq]
          refine ⟨by omega, by omega, by omega⟩
        rw [heq]
        exact hm6 (hm5 (hm4 (hm3 hmem1)))
      | pairb i =>
        have hip : i = pos := hbase
        subst hip
        simp only [blkM, blkT, blkP] at he1 he2 he3
        have hblk : (blkVec (Blk.pairb i)).getD i 0 = 2 := by
          rw [getD_blkVec_eval]
          simp [hpos9]
        have hguard : 2 ≤ v.getD i 0 := by
          have := hgetv i
          omega
        have huv : u = v.set i (v.getD i 0 - 2) := by
          apply vadd_cancel_right _ _ (kunit i 2) (by rw [hulen, length_kunit])
            (by simp [List.length_set, hv, length_kunit])
          rw [vadd_dec2 v i hv hpos9 hguard]
          exact hweq.symm
        have hmem1 : (m + dm', t + dt', p + 1 + dp') ∈ s3.2 := by
          rw [← hs3, branch_pair_pos _ _ _ _ _ _ (by rw [h2]; exact hguard)]
          rw [h2]
          have hmem := ih u m t (p + 1) dm' dt' dp' s2.2 hulen husum hdec
          rw [huv] at hmem
          exact hmem
        have heq : (m + dm, t + dt, p + dp) = (m + dm', t + dt', p + 1 + dp') := by
          rw [Prod.mk.injEq, Prod.mk.injEq]
          refine ⟨by omega, by omega, by omega⟩
        rw [heq]
        exact hm6 (hm5 (hm4 hmem1))
      | two i =>
        have hip : i = pos := hbase
        subst hip
        simp only [blkOk] at hb
        simp only [blkM, blkT, blkP] at he1 he2 he3
        have hblk0 : (blkVec (Blk.two i)).getD i 0 = 1 := by
          rw [getD_blkVec_eval]
          show (if i = i ∧ i < 9 then 1 else 0) + (if i = i + 1 ∧ i < 9 then 1 else 0) = 1
          split_ifs <;> omega
        have hblk1 : (blkVec (Blk.two i)).getD (i + 1) 0 = 1 := by
          rw [getD_blkVec_eval]
          show (if i + 1 = i ∧ i + 1 < 9 then 1 else 0) + (if i + 1 = i + 1 ∧ i + 1 < 9 then 1 else 0) = 1
          split_ifs <;> omega
        have hg0 : 0 < v.getD i 0 := by have := hgetv i; omega
        have hg1 : 0 < v.getD (i + 1) 0 := by have := hgetv (i + 1); omega
        have huv : u = (v.set i (v.getD i 0 - 1)).set (i + 1)
            ((v.set i (v.getD i 0 - 1)).getD (i + 1) 0 - 1) := by
          apply vadd_cancel_right _ _ (blkVec (Blk.two i))
            (by rw [hulen, length_blkVec])
            (by simp [List.length_set, hv, length_blkVec])
          rw [vadd_dec_two v i hv hb hg0 hg1]
          exact hweq.symm
        have hmem1 : (m + dm', t + 1 + dt', p + dp') ∈ s4.2 := by
          rw [← hs4, branch_twosided_pos _ _ _ _ _ _ (by rw [h3]; exact ⟨hb, hg0, hg1⟩)]
          rw [h3]
          have hmem := ih u m (t + 1) p dm' dt' dp' s3.2 hulen husum hdec
          rw [huv] at hmem
          exact hmem
        have heq : (m + dm, t + dt, p + dp) = (m + dm', t + 1 + dt', p + dp') := by
          rw [Prod.mk.injEq, Prod.mk.injEq]
          refine ⟨by omega, by omega, by omega⟩
        rw [heq]
        exact hm6 (hm5 hmem1)
      | gap i =>
        have hip : i = pos := hbase
        subst hip
        simp only [blkOk] at hb
        simp only [blkM, blkT, blkP] at he1 he2 he3
        have hblk0 : (blkVec (Blk.gap i)).getD i 0 = 1 := by
          rw [getD_blkVec_eval]
          show (if i = i ∧ i < 9 then 1 else 0) + (if i = i + 2 ∧ i < 9 then 1 else 0) = 1
          split_ifs <;> omega
        have hblk2 : (blkVec (Blk.gap i)).getD (i + 2) 0 = 1 := by
          rw [getD_blkVec_eval]
          show (if i + 2 = i ∧ i + 2 < 9 then 1 else 0) + (if i + 2 = i + 2 ∧ i + 2 < 9 then 1 else 0) = 1
          split_ifs <;> omega
        have hg0 : 0 < v.getD i 0 := by have := hgetv i; omega
        have hg2 : 0 < v.getD (i + 2) 0 := by have := hgetv (i + 2); omega
        have huv : u = (v.set i (v.getD i 0 - 1)).set (i + 2)
            ((v.set i (v.getD i 0 - 1)).getD (i + 2) 0 - 1) := by
          apply vadd_cancel_right _ _ (blkVec (Blk.gap i))
            (by rw [hulen, length_blkVec])
            (by simp [List.length_set, hv, length_blkVec])
          rw [vadd_dec_gap v i hv hb hg0 hg2]
          exact hweq.symm
        have hmem1 : (m + dm', t + 1 + dt', p + dp') ∈ s5.2 := by
          rw [← hs5, branch_gapped_pos _ _ _ _ _ _ (by rw [h4]; exact ⟨hb, hg0, hg2⟩)]
          rw [h4]
          have hmem := ih u m (t + 1) p dm' dt' dp' s4.2 hulen husum hdec
          rw [huv] at hmem
          exact hmem
        have heq : (m + dm, t + dt, p + dp) = (m + dm', t + 1 + dt', p + dp') := by
          rw [Prod.mk.injEq, Prod.mk.injEq]
          refine ⟨by omega, by omega, by omega⟩
        rw [heq]
        exact hm6 hmem1

theorem replicate_of_all_zero (v : List Nat) (hv : v.length = 9)
    (hz : v.all (· == 0)) : v = List.replicate 9 0 := by
  apply eq_of_getD _ _ (by simp [hv])
  intro n hn
  rw [getD_replicate_zero]
  simp only [hv] at hn
  have hlt : n < v.length := by omega
  have := (List.all_eq_true.mp hz) (v.get ⟨n, hlt⟩) (v.get_mem _ hlt)
  rw [List.getD_eq_getElem _ _ hlt]
  simpa using this

/-- Every length-9 vector decomposes into lone tiles only. -/
theorem dec_lones : ∀ (n : Nat) (v : List Nat), v.length = 9 → v.sum = n →
    Dec v 0 0 0 := by
  intro n
  induction n using Nat.strong_induction_on with
  | _ n ih =>
    intro v hv hsum
    cases hfz : firstNonzero v with
    | none =>
      have hrep : v = List.replicate 9 0 := by
        apply eq_of_getD _ _ (by simp [hv])
        intro j hj
        rw [firstNonzero_none_getD v hfz j (by simpa [hv] using hj), getD_replicate_zero]
      rw [hrep]
      exact Dec.empty
    | some pos =>
      obtain ⟨hpos9, hposv, _⟩ := firstNonzero_some_spec v pos hfz
      have hsplit := vadd_dec1 v pos hv hpos9 hposv
      have hulen : (v.set pos (v.getD pos 0 - 1)).length = 9 := by
        simp [List.length_set, hv]
      have husum : (v.set pos (v.getD pos 0 - 1)).sum < n := by
        have h1 : (vadd (v.set pos (v.getD pos 0 - 1)) (kunit pos 1)).sum =
            (v.set pos (v.getD pos 0 - 1)).sum + (kunit pos 1).sum :=
          sum_vadd _ _ (by rw [hulen, length_kunit])
        rw [hsplit, sum_kunit _ _ hpos9] at h1
        omega
      have hd := ih _ husum (v.set pos (v.getD pos 0 - 1)) hulen rfl
      have := Dec.step (.lone pos) (show blkOk (.lone pos) from hpos9) hd
      rw [show blkVec (Blk.lone pos) = kunit pos 1 from rfl, hsplit] at this
      simpa [blkM, blkT, blkP] using this

/-- `get_suit_combinations` on a length-9 vector returns exactly the
`Dec`-triples of the vector. -/
theorem mem_suit_combos (v : List Nat) (hv : v.length = 9) (c : Nat × Nat × Nat) :
    c ∈ get_suit_combinations v ↔ Dec v c.1 c.2.1 c.2.2 := by
  unfold get_suit_combinations
  rw [if_neg (by omega)]
  by_cases hz : v.all (· == 0)
  · rw [if_pos hz]
    have hrep : v = List.replicate 9 0 := replicate_of_all_zero v hv hz
    constructor
    · intro hc
      have hc0 : c = (0, 0, 0) := List.mem_singleton.mp hc
      rw [hc0, hrep]
      exact Dec.empty
    · intro hd
      have hsum : v.sum = 0 := by rw [hrep]; simp
      obtain ⟨h1, h2, h3⟩ := dec_sum_zero hd hsum
      have : c = (0, 0, 0) := by
        rw [Prod.ext_iff, Prod.ext_iff]
        exact ⟨h1, h2, h3⟩
      rw [this]
      exact List.mem_singleton.mpr rfl
  · rw [if_neg hz]
    constructor
    · intro hc
      simp only at hc
      split at hc
      next hu =>
        have hc0 : c = (0, 0, 0) := List.mem_singleton.mp hc
        rw [hc0]
        exact dec_lones v.sum v hv rfl
      next hu =>
        have hcr : c ∈ (enumerate_combinations (v.sum + 1) v 0 0 0 []).2 :=
          List.mem_dedup.mp hc
        rcases enum_sound (v.sum + 1) v 0 0 0 [] c hv hcr with h | ⟨dm, dt, dp, hceq, hdec⟩
        · simp at h
        · have h1 : c.1 = dm := by rw [hceq]; simp
          have h2 : c.2.1 = dt := by rw [hceq]; simp
          have h3 : c.2.2 = dp := by rw [hceq]; simp
          rw [h1, h2, h3]
          exact hdec
    · intro hd
      have hmem := enum_complete (v.sum + 1) v 0 0 0 c.1 c.2.1 c.2.2 [] hv
        (by omega) hd
      simp only [Nat.zero_add] at hmem
      have hmem' : c ∈ (enumerate_combinations (v.sum + 1) v 0 0 0 []).2 := by
        have hceq : (c.1, c.2.1, c.2.2) = c := rfl
        rw [hceq] at hmem
        exact hmem
      have hdd : c ∈ (enumerate_combinations (v.sum + 1) v 0 0 0 []).2.dedup :=
        List.mem_dedup.mpr hmem'
      show c ∈ (if (enumerate_combinations (v.sum + 1) v 0 0 0 []).2.dedup = []
        then [(0, 0, 0)] else (enumerate_combinations (v.sum + 1) v 0 0 0 []).2.dedup)
      split
      next hu => rw [hu] at hdd; simp at hdd
      next => exact hdd

/-- `get_suit_combinations` never returns the empty list. -/
theorem get_suit_combinations_ne_nil (v : List Nat) : get_suit_combinations v ≠ [] := by
  unfold get_suit_combinations
  split
  · simp
  · split
    · simp
    · show (if (enumerate_combinations (v.sum + 1) v 0 0 0 []).2.dedup = []
        then [(0, 0, 0)] else (enumerate_combinations (v.sum + 1) v 0 0 0 []).2.dedup) ≠ []
      split
      · simp
      next hu => exact hu

/-! ## C4, step 5: removing one tile from a decomposition -/

theorem vadd_comm (v w : List Nat) : vadd v w = vadd w v :=
  List.zipWith_comm_of_comm _ Nat.add_comm v w

theorem vadd_assoc (a b c : List Nat) (ha : a.length = 9) (hb : b.length = 9)
    (hc : c.length = 9) : vadd (vadd a b) c = vadd a (vadd b c) := by
  apply eq_of_getD _ _ (by simp only [length_vadd, ha, hb, hc]; omega)
  intro n hn
  rw [getD_vadd _ _ (by simp only [length_vadd, ha, hb, hc]; omega),
    getD_vadd _ _ (by omega), getD_vadd _ _ (by simp only [length_vadd, hb, hc]; omega),
    getD_vadd _ _ (by omega)]
  omega

theorem kunit_add (i a b : Nat) : vadd (kunit i a) (kunit i b) = kunit i (a + b) := by
  apply eq_of_getD _ _ (by simp [length_vadd, length_kunit])
  intro n hn
  rw [getD_vadd _ _ (by simp [length_kunit]), getD_kunit, getD_kunit, getD_kunit]
  split_ifs <;> omega

/-- Relation between the block triple obtained after removing one tile and the
original triple: unchanged (lone removed), triplet demoted to a pair, pair
demoted to a lone tile, run demoted to a partial, or partial demoted to a lone
tile. -/
def RelT (a b : Nat × Nat × Nat) : Prop :=
  (a.1 = b.1 ∧ a.2.1 = b.2.1 ∧ a.2.2 = b.2.2) ∨
  (b.1 = a.1 + 1 ∧ a.2.1 = b.2.1 ∧ a.2.2 = b.2.2 + 1) ∨
  (a.1 = b.1 ∧ a.2.1 = b.2.1 ∧ b.2.2 = a.2.2 + 1) ∨
  (b.1 = a.1 + 1 ∧ a.2.1 = b.2.1 + 1 ∧ a.2.2 = b.2.2) ∨
  (a.1 = b.1 ∧ b.2.1 = a.2.1 + 1 ∧ a.2.2 = b.2.2)

theorem relT_add {a1 a2 a3 b1 b2 b3 : Nat} (x y z : Nat)
    (h : RelT (a1, a2, a3) (b1, b2, b3)) :
    RelT (a1 + x, a2 + y, a3 + z) (b1 + x, b2 + y, b3 + z) := by
  unfold RelT at h ⊢
  dsimp only at h ⊢
  rcases h with ⟨h1, h2, h3⟩ | ⟨h1, h2, h3⟩ | ⟨h1, h2, h3⟩ | ⟨h1, h2, h3⟩ | ⟨h1, h2, h3⟩
  · exact Or.inl ⟨by omega, by omega, by omega⟩
  · exact Or.inr (Or.inl ⟨by omega, by omega, by omega⟩)
  · exact Or.inr (Or.inr (Or.inl ⟨by omega, by omega, by omega⟩))
  · exact Or.inr (Or.inr (Or.inr (Or.inl ⟨by omega, by omega, by omega⟩)))
  · exact Or.inr (Or.inr (Or.inr (Or.inr ⟨by omega, by omega, by omega⟩)))

/-- Removing one tile worsens the block-count formula by at most 1. -/
theorem relT_calc_bound {M T P Mp Tp Pp : Nat} (h : RelT (M, T, P) (Mp, Tp, Pp)) :
    calc_shanten_from_groups M T P ≤ calc_shanten_from_groups Mp Tp Pp + 1 := by
  unfold RelT at h
  dsimp only at h
  unfold calc_shanten_from_groups
  dsimp only
  rcases h with ⟨h1, h2, h3⟩ | ⟨h1, h2, h3⟩ | ⟨h1, h2, h3⟩ | ⟨h1, h2, h3⟩ | ⟨h1, h2, h3⟩ <;>
    (subst h1; subst h2; subst h3) <;> split_ifs <;> omega

/-- Removing one tile from a winning combination (4 melds, 1 pair, 0 partials)
yields a combination that is itself winning or whose formula value is at
most 0. -/
theorem relT_complete {M T P Mp Tp Pp : Nat} (h : RelT (M, T, P) (Mp, Tp, Pp))
    (hm : Mp = 4) (hp : Pp = 1) (ht : Tp = 0) :
    (M = 4 ∧ P = 1 ∧ T = 0) ∨ calc_shanten_from_groups M T P ≤ 0 := by
  unfold RelT at h
  dsimp only at h
  rcases h with ⟨h1, h2, h3⟩ | ⟨h1, h2, h3⟩ | ⟨h1, h2, h3⟩ | ⟨h1, h2, h3⟩ | ⟨h1, h2, h3⟩
  · exact Or.inl ⟨by omega, by omega, by omega⟩
  · refine Or.inr ?_
    unfold calc_shanten_from_groups
    dsimp only
    split_ifs <;> omega
  · refine Or.inr ?_
    unfold calc_shanten_from_groups
    dsimp only
    split_ifs <;> omega
  · refine Or.inr ?_
    unfold calc_shanten_from_groups
    dsimp only
    split_ifs <;> omega
  · omega

/-- Removing one tile at index `i` from a decomposed vector leaves a decomposed
vector whose triple is `RelT`-related to the original. -/
theorem dec_remove {w : List Nat} {dm dt dp : Nat} (h : Dec w dm dt dp) :
    ∀ i, 0 < w.getD i 0 →
    ∃ u dm' dt' dp', vadd u (kunit i 1) = w ∧ Dec u dm' dt' dp' ∧
      RelT (dm', dt', dp') (dm, dt, dp) := by
  induction h with
  | empty =>
    intro i hpos
    rw [getD_replicate_zero] at hpos
    omega
  | step b hb hd ih =>
    rename_i v m t p
    intro i hpos
    have hvlen : v.length = 9 := dec_length hd
    have hwget : ∀ j, (vadd v (blkVec b)).getD j 0 = v.getD j 0 + (blkVec b).getD j 0 :=
      fun j => getD_vadd v (blkVec b) (by rw [hvlen, length_blkVec]) j
    by_cases hbv : 0 < (blkVec b).getD i 0
    · cases b with
      | lone j =>
        have hblk : (blkVec (Blk.lone j)).getD i 0 = if i = j ∧ i < 9 then 1 else 0 :=
          getD_blkVec_eval _ i
        rw [hblk] at hbv
        have hij : i = j := by
          by_contra hne
          rw [if_neg (fun hc => hne hc.1)] at hbv
          omega
        subst hij
        refine ⟨v, m, t, p, rfl, hd, Or.inl ⟨?_, ?_, ?_⟩⟩ <;> simp [blkM, blkT, blkP]
      | trip j =>
        have hblk : (blkVec (Blk.trip j)).getD i 0 = if i = j ∧ i < 9 then 3 else 0 :=
          getD_blkVec_eval _ i
        rw [hblk] at hbv
        have hij : i = j := by
          by_contra hne
          rw [if_neg (fun hc => hne hc.1)] at hbv
          omega
        subst hij
        refine ⟨vadd v (blkVec (.pairb i)), m, t, p + 1, ?_,
          Dec.step (.pairb i) (show blkOk (.pairb i) from hb) hd, ?_⟩
        · rw [show blkVec (Blk.pairb i) = kunit i 2 from rfl,
            vadd_assoc v (kunit i 2) (kunit i 1) hvlen (length_kunit i 2) (length_kunit i 1),
            kunit_add]
          rfl
        · exact Or.inr (Or.inl ⟨by simp [blkM], by simp [blkT], by simp [blkP]⟩)
      | pairb j =>
        have hblk : (blkVec (Blk.pairb j)).getD i 0 = if i = j ∧ i < 9 then 2 else 0 :=
          getD_blkVec_eval _ i
        rw [hblk] at hbv
        have hij : i = j := by
          by_contra hne
          rw [if_neg (fun hc => hne hc.1)] at hbv
          omega
        subst hij
        refine ⟨vadd v (blkVec (.lone i)), m, t, p, ?_,
          Dec.step (.lone i) (show blkOk (.lone i) from hb) hd, ?_⟩
        · rw [show blkVec (Blk.lone i) = kunit i 1 from rfl,
            vadd_assoc v (kunit i 1) (kunit i 1) hvlen (length_kunit i 1) (length_kunit i 1),
            kunit_add]
          rfl
        · exact Or.inr (Or.inr (Or.inl ⟨by simp [blkM], by simp [blkT], by simp [blkP]⟩))
      | runb j =>
        simp only [blkOk] at hb
        have hbv' : 0 < (if i = j ∧ i < 9 then 1 else 0) +
            ((if i = j + 1 ∧ i < 9 then 1 else 0) + (if i = j + 2 ∧ i < 9 then 1 else 0)) := by
          rw [show ((if i = j ∧ i < 9 then 1 else 0) +
            ((if i = j + 1 ∧ i < 9 then 1 else 0) + (if i = j + 2 ∧ i < 9 then 1 else 0)) : Nat) =
              (blkVec (Blk.runb j)).getD i 0 from (getD_blkVec_eval (Blk.runb j) i).symm]
          exact hbv
        have hcase : i = j ∨ i = j + 1 ∨ i = j + 2 := by
          by_contra hn
          push_neg at hn
          rw [if_neg (fun hc => hn.1 hc.1), if_neg (fun hc => hn.2.1 hc.1),
            if_neg (fun hc => hn.2.2 hc.1)] at hbv'
          omega
        rcases hcase with hij | hij | hij
        · subst hij
          refine ⟨vadd v (blkVec (.two (i + 1))), m, t + 1, p, ?_,
            Dec.step (.two (i + 1)) (show i + 1 ≤ 7 from by omega) hd, ?_⟩
          · rw [vadd_assoc v (blkVec (.two (i + 1))) (kunit i 1) hvlen
              (length_blkVec _) (length_kunit i 1)]
            rw [show blkVec (Blk.two (i + 1)) =
              vadd (kunit (i + 1) 1) (kunit (i + 2) 1) from rfl]
            rw [vadd_right_comm (kunit (i + 1) 1) (kunit (i + 2) 1) (kunit i 1)
              (length_kunit _ _) (length_kunit _ _) (length_kunit _ _),
              vadd_comm (kunit (i + 1) 1) (kunit i 1)]
            rfl
          · exact Or.inr (Or.inr (Or.inr (Or.inl
              ⟨by simp [blkM], by simp [blkT], by simp [blkP]⟩)))
        · subst hij
          refine ⟨vadd v (blkVec (.gap j)), m, t + 1, p, ?_,
            Dec.step (.gap j) (show j ≤ 6 from by omega) hd, ?_⟩
          · rw [vadd_assoc v (blkVec (.gap j)) (kunit (j + 1) 1) hvlen
              (length_blkVec _) (length_kunit _ _)]
            rw [show blkVec (Blk.gap j) = vadd (kunit j 1) (kunit (j + 2) 1) from rfl]
            rw [vadd_right_comm (kunit j 1) (kunit (j + 2) 1) (kunit (j + 1) 1)
              (length_kunit _ _) (length_kunit _ _) (length_kunit _ _)]
            rfl
          · exact Or.inr (Or.inr (Or.inr (Or.inl
              ⟨by simp [blkM], by simp [blkT], by simp [blkP]⟩)))
        · subst hij
          refine ⟨vadd v (blkVec (.two j)), m, t + 1, p, ?_,
            Dec.step (.two j) (show j ≤ 7 from by omega) hd, ?_⟩
          · rw [vadd_assoc v (blkVec (.two j)) (kunit (j + 2) 1) hvlen
              (length_blkVec _) (length_kunit _ _)]
            rfl
          · exact Or.inr (Or.inr (Or.inr (Or.inl
              ⟨by simp [blkM], by simp [blkT], by simp [blkP]⟩)))
      | two j =>
        simp only [blkOk] at hb
        have hbv' : 0 < (if i = j ∧ i < 9 then 1 else 0) +
            (if i = j + 1 ∧ i < 9 then 1 else 0) := by
          rw [show ((if i = j ∧ i < 9 then 1 else 0) +
            (if i = j + 1 ∧ i < 9 then 1 else 0) : Nat) =
              (blkVec (Blk.two j)).getD i 0 from (getD_blkVec_eval (Blk.two j) i).symm]
          exact hbv
        have hcase : i = j ∨ i = j + 1 := by
          by_contra hn
          push_neg at hn
          rw [if_neg (fun hc => hn.1 hc.1), if_neg (fun hc => hn.2 hc.1)] at hbv'
          omega
        rcases hcase with hij | hij
        · subst hij
          refine ⟨vadd v (blkVec (.lone (i + 1))), m, t, p, ?_,
            Dec.step (.lone (i + 1)) (show i + 1 < 9 from by omega) hd, ?_⟩
          · rw [vadd_assoc v (blkVec (.lone (i + 1))) (kunit i 1) hvlen
              (length_blkVec _) (length_kunit _ _)]
            rw [show blkVec (Blk.lone (i + 1)) = kunit (i + 1) 1 from rfl,
              vadd_comm (kunit (i + 1) 1) (kunit i 1)]
            rfl
          · exact Or.inr (Or.inr (Or.inr (Or.inr
              ⟨by simp [blkM], by simp [blkT], by simp [blkP]⟩)))
        · subst hij
          refine ⟨vadd v (blkVec (.lone j)), m, t, p, ?_,
            Dec.step (.lone j) (show j < 9 from by omega) hd, ?_⟩
          · rw [vadd_assoc v (blkVec (.lone j)) (kunit (j + 1) 1) hvlen
              (length_blkVec _) (length_kunit _ _)]
            rfl
          · exact Or.inr (Or.inr (Or.inr (Or.inr
              ⟨by simp [blkM], by simp [blkT], by simp [blkP]⟩)))
      | gap j =>
        simp only [blkOk] at hb
        have hbv' : 0 < (if i = j ∧ i < 9 then 1 else 0) +
            (if i = j + 2 ∧ i < 9 then 1 else 0) := by
          rw [show ((if i = j ∧ i < 9 then 1 else 0) +
            (if i = j + 2 ∧ i < 9 then 1 else 0) : Nat) =
              (blkVec (Blk.gap j)).getD i 0 from (getD_blkVec_eval (Blk.gap j) i).symm]
          exact hbv
        have hcase : i = j ∨ i = j + 2 := by
          by_contra hn
          push_neg at hn
          rw [if_neg (fun hc => hn.1 hc.1), if_neg (fun hc => hn.2 hc.1)] at hbv'
          omega
        rcases hcase with hij | hij
        · subst hij
          refine ⟨vadd v (blkVec (.lone (i + 2))), m, t, p, ?_,
            Dec.step (.lone (i + 2)) (show i + 2 < 9 from by omega) hd, ?_⟩
          · rw [vadd_assoc v (blkVec (.lone (i + 2))) (kunit i 1) hvlen
              (length_blkVec _) (length_kunit _ _)]
            rw [show blkVec (Blk.lone (i + 2)) = kunit (i + 2) 1 from rfl,
              vadd_comm (kunit (i + 2) 1) (kunit i 1)]
            rfl
          · exact Or.inr (Or.inr (Or.inr (Or.inr
              ⟨by simp [blkM], by simp [blkT], by simp [blkP]⟩)))
        · subst hij
          refine ⟨vadd v (blkVec (.lone j)), m, t, p, ?_,
            Dec.step (.lone j) (show j < 9 from by omega) hd, ?_⟩
          · rw [vadd_assoc v (blkVec (.lone j)) (kunit (j + 2) 1) hvlen
              (length_blkVec _) (length_kunit _ _)]
            rfl
          · exact Or.inr (Or.inr (Or.inr (Or.inr
              ⟨by simp [blkM], by simp [blkT], by simp [blkP]⟩)))
    · have hvpos : 0 < v.getD i 0 := by
        have := hwget i
        omega
      obtain ⟨u', dm', dt', dp', hueq, hdec', hrel⟩ := ih i hvpos
      refine ⟨vadd u' (blkVec b), dm' + blkM b, dt' + blkT b, dp' + blkP b, ?_,
        Dec.step b hb hdec', relT_add (blkM b) (blkT b) (blkP b) hrel⟩
      rw [vadd_right_comm u' (blkVec b) (kunit i 1) (dec_length hdec') (length_blkVec b)
        (length_kunit i 1), hueq]

/-! ## C4, step 6: effect of one added tile on the suit vectors and honor tallies -/

theorem length_suit_vector (tiles : List Tile) (s : TileType) :
    (suit_vector tiles s).length = 9 := by
  simp [suit_vector]

theorem getD_suit_vector (tiles : List Tile) (s : TileType) (j : Nat) (hj : j < 9) :
    (suit_vector tiles s).getD j 0 = tileCounts tiles (s, .num (j + 1)) := by
  rw [suit_vector, List.getD_eq_getElem?_getD, List.getElem?_map, List.getElem?_range hj]
  rfl

theorem suit_vector_append_eq (tiles : List Tile) (t : Tile) (s : TileType)
    (h : ∀ n, n < 9 → tileKey t ≠ (s, .num (n + 1))) :
    suit_vector (tiles ++ [t]) s = suit_vector tiles s := by
  apply eq_of_getD _ _ (by simp [length_suit_vector])
  intro n hn
  simp only [length_suit_vector] at hn
  rw [getD_suit_vector _ _ _ hn, getD_suit_vector _ _ _ hn,
    tileCounts_append_tile, if_neg (h n hn), Nat.add_zero]

theorem suit_vector_append_bump (tiles : List Tile) (t : Tile) (s : TileType) (n : Nat)
    (hk : tileKey t = (s, .num n)) (h1 : 1 ≤ n) (h9 : n ≤ 9) :
    suit_vector (tiles ++ [t]) s = vadd (suit_vector tiles s) (kunit (n - 1) 1) := by
  apply eq_of_getD _ _ (by simp [length_suit_vector, length_vadd, length_kunit])
  intro j hj
  simp only [length_suit_vector] at hj
  rw [getD_suit_vector _ _ _ hj,
    getD_vadd _ _ (by rw [length_suit_vector, length_kunit]),
    getD_suit_vector _ _ _ hj, getD_kunit, tileCounts_append_tile]
  by_cases hjn : j = n - 1
  · have hpos : tileKey t = (s, KeyVal.num (j + 1)) := by
      rw [hk]
      have hne : n = j + 1 := by omega
      rw [hne]
    rw [if_pos hpos, if_pos (show j = n - 1 ∧ j < 9 from ⟨hjn, by omega⟩)]
  · have hneg : ¬ tileKey t = (s, KeyVal.num (j + 1)) := by
      rw [hk]
      intro hc
      have h2 : KeyVal.num n = KeyVal.num (j + 1) := congrArg Prod.snd hc
      have h3 : n = j + 1 := by injection h2
      omega
    rw [if_neg hneg, if_neg (show ¬(j = n - 1 ∧ j < 9) from fun hc => hjn hc.1)]

theorem honor_melds_append_not_mem (tiles : List Tile) (t : Tile)
    (h : tileKey t ∉ feng_jian_keys) :
    honor_melds (tiles ++ [t]) = honor_melds tiles := by
  unfold honor_melds
  have hpt : ∀ k ∈ feng_jian_keys,
      (if 3 ≤ tileCounts (tiles ++ [t]) k then tileCounts (tiles ++ [t]) k / 3 else 0) =
      (if 3 ≤ tileCounts tiles k then tileCounts tiles k / 3 else 0) := by
    intro k hk
    have hne : ¬ tileKey t = k := fun he => h (by rw [he]; exact hk)
    rw [tileCounts_append_tile, if_neg hne]
    simp only [Nat.add_zero]
  rw [List.map_congr_left hpt]

theorem honor_pairs_append_not_mem (tiles : List Tile) (t : Tile)
    (h : tileKey t ∉ feng_jian_keys) :
    honor_pairs (tiles ++ [t]) = honor_pairs tiles := by
  unfold honor_pairs
  have hpt : ∀ k ∈ feng_jian_keys,
      (if honor_rem (tileCounts (tiles ++ [t]) k) = 2 then 1 else 0) =
      (if honor_rem (tileCounts tiles k) = 2 then 1 else 0) := by
    intro k hk
    have hne : ¬ tileKey t = k := fun he => h (by rw [he]; exact hk)
    rw [tileCounts_append_tile, if_neg hne]
    simp only [Nat.add_zero]
  rw [List.map_congr_left hpt]

/-- Exchange lemma for a sum over a duplicate-free key list where two tallies
agree away from one key. -/
theorem map_sum_update (f g : TileKey → Nat) (k0 : TileKey) :
    ∀ (L : List TileKey), L.Nodup → k0 ∈ L → (∀ k, k ≠ k0 → f k = g k) →
    (L.map f).sum + g k0 = (L.map g).sum + f k0 := by
  intro L
  induction L with
  | nil => intro _ h _; simp at h
  | cons x L ih =>
    intro hnd hmem hsame
    obtain ⟨hx, hLnd⟩ := List.nodup_cons.mp hnd
    rcases List.mem_cons.mp hmem with hxk | hmemL
    · subst hxk
      have htail : L.map f = L.map g := by
        apply List.map_congr_left
        intro k hk
        exact hsame k (fun he => hx (he ▸ hk))
      simp only [List.map_cons, List.sum_cons, htail]
      omega
    · have hxne : x ≠ k0 := fun he => hx (he ▸ hmemL)
      have := ih hLnd hmemL hsame
      simp only [List.map_cons, List.sum_cons, hsame x hxne]
      omega

theorem honor_melds_as_div (tiles : List Tile) :
    honor_melds tiles = (feng_jian_keys.map fun k => tileCounts tiles k / 3).sum := by
  unfold honor_melds
  congr 1
  apply List.map_congr_left
  intro k _
  split_ifs with h
  · rfl
  · omega

theorem honor_pairs_as_mod (tiles : List Tile) :
    honor_pairs tiles =
      (feng_jian_keys.map fun k => if tileCounts tiles k % 3 = 2 then 1 else 0).sum := by
  unfold honor_pairs
  congr 1
  apply List.map_congr_left
  intro k _
  have : honor_rem (tileCounts tiles k) = tileCounts tiles k % 3 := by
    unfold honor_rem
    split_ifs with h
    · rfl
    · omega
  rw [this]

theorem feng_jian_keys_nodup : feng_jian_keys.Nodup := by decide

/-- Adding one honor tile moves the honor-meld tally by the `(c+1)/3 − c/3`
increment of its key. -/
theorem honor_melds_append_mem (tiles : List Tile) (t : Tile)
    (h : tileKey t ∈ feng_jian_keys) :
    honor_melds (tiles ++ [t]) + tileCounts tiles (tileKey t) / 3 =
      honor_melds tiles + (tileCounts tiles (tileKey t) + 1) / 3 := by
  rw [honor_melds_as_div, honor_melds_as_div]
  have := map_sum_update (fun k => tileCounts (tiles ++ [t]) k / 3)
    (fun k => tileCounts tiles k / 3) (tileKey t) feng_jian_keys feng_jian_keys_nodup h
    (fun k hk => by
      dsimp only
      have hne : ¬ tileKey t = k := fun he => hk he.symm
      rw [tileCounts_append_tile, if_neg hne, Nat.add_zero])
  have hself : tileCounts (tiles ++ [t]) (tileKey t) = tileCounts tiles (tileKey t) + 1 := by
    rw [tileCounts_append_tile, if_pos rfl]
  dsimp only at this
  rw [hself] at this
  omega

/-- Adding one honor tile moves the honor-pair tally by the change of the
`c % 3 = 2` indicator of its key. -/
theorem honor_pairs_append_mem (tiles : List Tile) (t : Tile)
    (h : tileKey t ∈ feng_jian_keys) :
    honor_pairs (tiles ++ [t]) + (if tileCounts tiles (tileKey t) % 3 = 2 then 1 else 0) =
      honor_pairs tiles +
        (if (tileCounts tiles (tileKey t) + 1) % 3 = 2 then 1 else 0) := by
  rw [honor_pairs_as_mod, honor_pairs_as_mod]
  have := map_sum_update
    (fun k => if tileCounts (tiles ++ [t]) k % 3 = 2 then 1 else 0)
    (fun k => if tileCounts tiles k % 3 = 2 then 1 else 0) (tileKey t) feng_jian_keys
    feng_jian_keys_nodup h
    (fun k hk => by
      dsimp only
      have hne : ¬ tileKey t = k := fun he => hk he.symm
      rw [tileCounts_append_tile, if_neg hne, Nat.add_zero])
  have hself : tileCounts (tiles ++ [t]) (tileKey t) = tileCounts tiles (tileKey t) + 1 := by
    rw [tileCounts_append_tile, if_pos rfl]
  dsimp only at this
  rw [hself] at this
  omega

/-! ## C4, step 7: the standard-shape Lipschitz bound -/

theorem foldl_min_le_acc : ∀ (xs : List Int) (acc : Int), xs.foldl min acc ≤ acc
  | [], _ => le_refl _
  | x :: xs, acc => by
    rw [List.foldl_cons]
    exact le_trans (foldl_min_le_acc xs (min acc x)) (min_le_left _ _)

theorem foldl_min_le_mem : ∀ (xs : List Int) (acc b : Int), b ∈ xs →
    xs.foldl min acc ≤ b := by
  intro xs
  induction xs with
  | nil => intro acc b hb; simp at hb
  | cons x xs ih =>
    intro acc b hb
    rw [List.foldl_cons]
    rcases List.mem_cons.mp hb with hbx | hbm
    · subst hbx
      exact le_trans (foldl_min_le_acc xs (min acc b)) (min_le_right _ _)
    · exact ih _ b hbm

theorem min?_le_mem (l : List Int) (a : Int) (h : l.min? = some a) :
    ∀ b ∈ l, a ≤ b := by
  cases l with
  | nil => cases h
  | cons x xs =>
    intro b hb
    have hfold : (x :: xs).min? = some (xs.foldl min x) := rfl
    rw [hfold] at h
    have ha : a = xs.foldl min x := (Option.some.inj h).symm
    rw [ha]
    rcases List.mem_cons.mp hb with hbx | hbm
    · subst hbx
      exact foldl_min_le_acc xs b
    · exact foldl_min_le_mem xs x b hbm

theorem combo_shanten_eq (hm hp mc : Nat) (w t b : Nat × Nat × Nat) :
    combo_shanten hm hp mc w t b =
      calc_shanten_from_groups (combo_melds hm mc w t b) (combo_tatsu w t b)
        (combo_pairs hp w t b) := rfl

/-- If every cross-suit combination of the second hand is `RelT`-related to some
combination of the first hand, the standard shanten of the first hand exceeds
that of the second by at most 1. -/
theorem standard_lip_of_rel (tiles tiles' : List Tile) (mc : Nat)
    (H : ∀ w' t' b', w' ∈ suit_combos tiles' .wan → t' ∈ suit_combos tiles' .tong →
      b' ∈ suit_combos tiles' .tiao →
      ∃ w t b, w ∈ suit_combos tiles .wan ∧ t ∈ suit_combos tiles .tong ∧
        b ∈ suit_combos tiles .tiao ∧
        RelT (combo_melds (honor_melds tiles) mc w t b, combo_tatsu w t b,
              combo_pairs (honor_pairs tiles) w t b)
             (combo_melds (honor_melds tiles') mc w' t' b', combo_tatsu w' t' b',
              combo_pairs (honor_pairs tiles') w' t' b')) :
    calculate_standard_shanten tiles mc - 1 ≤ calculate_standard_shanten tiles' mc := by
  rw [calculate_standard_shanten_eq_spec, calculate_standard_shanten_eq_spec]
  unfold standard_shanten_spec
  by_cases hC' : ∃ w ∈ suit_combos tiles' .wan, ∃ t ∈ suit_combos tiles' .tong,
      ∃ b ∈ suit_combos tiles' .tiao,
      combo_melds (honor_melds tiles') mc w t b = 4 ∧
      combo_pairs (honor_pairs tiles') w t b = 1 ∧ combo_tatsu w t b = 0
  · rw [if_pos hC']
    obtain ⟨w', hw', t', ht', b', hb', hm4, hp1, ht0⟩ := hC'
    obtain ⟨w, t, b, hw, ht, hb, hrel⟩ := H w' t' b' hw' ht' hb'
    have hcc := relT_complete hrel hm4 hp1 ht0
    by_cases hC : ∃ w ∈ suit_combos tiles .wan, ∃ t ∈ suit_combos tiles .tong,
        ∃ b ∈ suit_combos tiles .tiao,
        combo_melds (honor_melds tiles) mc w t b = 4 ∧
        combo_pairs (honor_pairs tiles) w t b = 1 ∧ combo_tatsu w t b = 0
    · rw [if_pos hC]
      omega
    · rw [if_neg hC]
      rcases hcc with ⟨hM, hP, hT⟩ | hle
      · exact absurd ⟨w, hw, t, ht, b, hb, hM, hP, hT⟩ hC
      · have hqmem : (w, (t, b)) ∈ (suit_combos tiles .wan).product
            ((suit_combos tiles .tong).product (suit_combos tiles .tiao)) :=
          List.pair_mem_product.mpr ⟨hw, List.pair_mem_product.mpr ⟨ht, hb⟩⟩
        have hfmem : combo_shanten (honor_melds tiles) (honor_pairs tiles) mc w t b ∈
            (((suit_combos tiles .wan).product ((suit_combos tiles .tong).product
              (suit_combos tiles .tiao))).map fun q =>
              combo_shanten (honor_melds tiles) (honor_pairs tiles) mc q.1 q.2.1 q.2.2) :=
          List.mem_map.mpr ⟨(w, (t, b)), hqmem, rfl⟩
        cases hmin : (((suit_combos tiles .wan).product ((suit_combos tiles .tong).product
            (suit_combos tiles .tiao))).map fun q =>
            combo_shanten (honor_melds tiles) (honor_pairs tiles) mc q.1 q.2.1 q.2.2).min? with
        | none =>
          rw [List.min?_eq_none_iff] at hmin
          rw [hmin] at hfmem
          simp at hfmem
        | some mv =>
          have hlemem := min?_le_mem _ mv hmin _ hfmem
          rw [combo_shanten_eq] at hlemem
          simp only [Option.getD_some]
          omega
  · rw [if_neg hC']
    by_cases hC : ∃ w ∈ suit_combos tiles .wan, ∃ t ∈ suit_combos tiles .tong,
        ∃ b ∈ suit_combos tiles .tiao,
        combo_melds (honor_melds tiles) mc w t b = 4 ∧
        combo_pairs (honor_pairs tiles) w t b = 1 ∧ combo_tatsu w t b = 0
    · rw [if_pos hC]
      have := le_max_left (0 : Int)
        ((((((suit_combos tiles' .wan).product ((suit_combos tiles' .tong).product
          (suit_combos tiles' .tiao))).map fun q =>
          combo_shanten (honor_melds tiles') (honor_pairs tiles') mc
            q.1 q.2.1 q.2.2)).min?).getD 8)
      omega
    · rw [if_neg hC]
      obtain ⟨w0, hw0⟩ := List.exists_mem_of_ne_nil _
        (show suit_combos tiles' .wan ≠ [] from get_suit_combinations_ne_nil _)
      obtain ⟨t0, ht0'⟩ := List.exists_mem_of_ne_nil _
        (show suit_combos tiles' .tong ≠ [] from get_suit_combinations_ne_nil _)
      obtain ⟨b0, hb0⟩ := List.exists_mem_of_ne_nil _
        (show suit_combos tiles' .tiao ≠ [] from get_suit_combinations_ne_nil _)
      have hq0 : (w0, (t0, b0)) ∈ (suit_combos tiles' .wan).product
          ((suit_combos tiles' .tong).product (suit_combos tiles' .tiao)) :=
        List.pair_mem_product.mpr ⟨hw0, List.pair_mem_product.mpr ⟨ht0', hb0⟩⟩
      have hne' : (((suit_combos tiles' .wan).product ((suit_combos tiles' .tong).product
          (suit_combos tiles' .tiao))).map fun q =>
          combo_shanten (honor_melds tiles') (honor_pairs tiles') mc q.1 q.2.1 q.2.2) ≠ [] := by
        intro hnil
        have : combo_shanten (honor_melds tiles') (honor_pairs tiles') mc w0 t0 b0 ∈
            ([] : List Int) := by
          rw [← hnil]
          exact List.mem_map.mpr ⟨(w0, (t0, b0)), hq0, rfl⟩
        simp at this
      cases hmin' : (((suit_combos tiles' .wan).product ((suit_combos tiles' .tong).product
          (suit_combos tiles' .tiao))).map fun q =>
          combo_shanten (honor_melds tiles') (honor_pairs tiles') mc q.1 q.2.1 q.2.2).min? with
      | none =>
        rw [List.min?_eq_none_iff] at hmin'
        exact absurd hmin' hne'
      | some mv' =>
        have hmv'mem := List.min?_mem min_choice hmin'
        obtain ⟨q', hq'mem, hq'eq⟩ := List.mem_map.mp hmv'mem
        obtain ⟨hw'm, hrest⟩ := List.pair_mem_product.mp
          (show (q'.1, q'.2) ∈ _ from by rwa [Prod.mk.eta])
        obtain ⟨ht'm, hb'm⟩ := List.pair_mem_product.mp
          (show (q'.2.1, q'.2.2) ∈ _ from by rwa [Prod.mk.eta])
        obtain ⟨w, t, b, hw, ht, hb, hrel⟩ := H q'.1 q'.2.1 q'.2.2 hw'm ht'm hb'm
        have hcalc := relT_calc_bound hrel
        have hqmem : (w, (t, b)) ∈ (suit_combos tiles .wan).product
            ((suit_combos tiles .tong).product (suit_combos tiles .tiao)) :=
          List.pair_mem_product.mpr ⟨hw, List.pair_mem_product.mpr ⟨ht, hb⟩⟩
        have hfmem : combo_shanten (honor_melds tiles) (honor_pairs tiles) mc w t b ∈
            (((suit_combos tiles .wan).product ((suit_combos tiles .tong).product
              (suit_combos tiles .tiao))).map fun q =>
              combo_shanten (honor_melds tiles) (honor_pairs tiles) mc q.1 q.2.1 q.2.2) :=
          List.mem_map.mpr ⟨(w, (t, b)), hqmem, rfl⟩
        cases hmin : (((suit_combos tiles .wan).product ((suit_combos tiles .tong).product
            (suit_combos tiles .tiao))).map fun q =>
            combo_shanten (honor_melds tiles) (honor_pairs tiles) mc q.1 q.2.1 q.2.2).min? with
        | none =>
          rw [List.min?_eq_none_iff] at hmin
          rw [hmin] at hfmem
          simp at hfmem
        | some mv =>
          have hlemem := min?_le_mem _ mv hmin _ hfmem
          rw [combo_shanten_eq] at hlemem
          rw [combo_shanten_eq] at hq'eq
          simp only [Option.getD_some]
          omega

/-! ## C4, step 8: the one-added-tile relation between combination sets -/

/-- Every decomposition triple of a bumped suit vector is `RelT`-related to a
triple of the original vector. -/
theorem rel_of_bump (v : List Nat) (c' : Nat × Nat × Nat) (i : Nat) (hi : i < 9)
    (hv : v.length = 9) (hc' : c' ∈ get_suit_combinations (vadd v (kunit i 1))) :
    ∃ c, c ∈ get_suit_combinations v ∧
      RelT (c.1, c.2.1, c.2.2) (c'.1, c'.2.1, c'.2.2) := by
  have hlen' : (vadd v (kunit i 1)).length = 9 := by
    rw [length_vadd, hv, length_kunit]
    simp
  have hdec' := (mem_suit_combos _ hlen' c').mp hc'
  have hku : (kunit i 1).getD i 0 = 1 := by
    rw [getD_kunit, if_pos (show i = i ∧ i < 9 from ⟨rfl, hi⟩)]
  have hpos : 0 < (vadd v (kunit i 1)).getD i 0 := by
    rw [getD_vadd _ _ (by rw [hv, length_kunit]), hku]
    omega
  obtain ⟨u, dm', dt', dp', hueq, hdec, hrel⟩ := dec_remove hdec' i hpos
  have huv : u = v := vadd_cancel_right u v (kunit i 1)
    (by rw [dec_length hdec, length_kunit]) (by rw [hv, length_kunit]) (by rw [hueq])
  rw [huv] at hdec
  exact ⟨(dm', dt', dp'), (mem_suit_combos v hv (dm', dt', dp')).mpr hdec, hrel⟩

/-- Adding a tile whose key matches no suit slot and no honor key leaves every
ingredient of the standard computation unchanged. -/
theorem rel_append_all_eq (tiles : List Tile) (t : Tile) (mc : Nat)
    (hnum : ∀ (s : TileType) (m : Nat), m < 9 → tileKey t ≠ (s, .num (m + 1)))
    (hh : tileKey t ∉ feng_jian_keys) :
    ∀ w' t' b', w' ∈ suit_combos (tiles ++ [t]) .wan →
      t' ∈ suit_combos (tiles ++ [t]) .tong → b' ∈ suit_combos (tiles ++ [t]) .tiao →
      ∃ w tq b, w ∈ suit_combos tiles .wan ∧ tq ∈ suit_combos tiles .tong ∧
        b ∈ suit_combos tiles .tiao ∧
        RelT (combo_melds (honor_melds tiles) mc w tq b, combo_tatsu w tq b,
              combo_pairs (honor_pairs tiles) w tq b)
             (combo_melds (honor_melds (tiles ++ [t])) mc w' t' b', combo_tatsu w' t' b',
              combo_pairs (honor_pairs (tiles ++ [t])) w' t' b') := by
  intro w' t' b' hw' ht' hb'
  have hvw := suit_vector_append_eq tiles t .wan (fun m hm => hnum _ m hm)
  have hvt := suit_vector_append_eq tiles t .tong (fun m hm => hnum _ m hm)
  have hvb := suit_vector_append_eq tiles t .tiao (fun m hm => hnum _ m hm)
  have hhm := honor_melds_append_not_mem tiles t hh
  have hhp := honor_pairs_append_not_mem tiles t hh
  unfold suit_combos at hw' ht' hb' ⊢
  rw [hvw] at hw'
  rw [hvt] at ht'
  rw [hvb] at hb'
  refine ⟨w', t', b', hw', ht', hb', ?_⟩
  rw [hhm, hhp]
  exact Or.inl ⟨rfl, rfl, rfl⟩

/-- Adding one honor tile: the suit combination sets are unchanged and the honor
tallies move by one meld or one pair according to the key's count modulo 3. -/
theorem rel_append_honor (tiles : List Tile) (t : Tile) (mc : Nat)
    (hnum : ∀ (s : TileType) (m : Nat), m < 9 → tileKey t ≠ (s, .num (m + 1)))
    (hh : tileKey t ∈ feng_jian_keys) :
    ∀ w' t' b', w' ∈ suit_combos (tiles ++ [t]) .wan →
      t' ∈ suit_combos (tiles ++ [t]) .tong → b' ∈ suit_combos (tiles ++ [t]) .tiao →
      ∃ w tq b, w ∈ suit_combos tiles .wan ∧ tq ∈ suit_combos tiles .tong ∧
        b ∈ suit_combos tiles .tiao ∧
        RelT (combo_melds (honor_melds tiles) mc w tq b, combo_tatsu w tq b,
              combo_pairs (honor_pairs tiles) w tq b)
             (combo_melds (honor_melds (tiles ++ [t])) mc w' t' b', combo_tatsu w' t' b',
              combo_pairs (honor_pairs (tiles ++ [t])) w' t' b') := by
  intro w' t' b' hw' ht' hb'
  have hvw := suit_vector_append_eq tiles t .wan (fun m hm => hnum _ m hm)
  have hvt := suit_vector_append_eq tiles t .tong (fun m hm => hnum _ m hm)
  have hvb := suit_vector_append_eq tiles t .tiao (fun m hm => hnum _ m hm)
  have hM := honor_melds_append_mem tiles t hh
  have hP := honor_pairs_append_mem tiles t hh
  unfold suit_combos at hw' ht' hb' ⊢
  rw [hvw] at hw'
  rw [hvt] at ht'
  rw [hvb] at hb'
  refine ⟨w', t', b', hw', ht', hb', ?_⟩
  set c := tileCounts tiles (tileKey t) with hc
  have hmod : c % 3 = 0 ∨ c % 3 = 1 ∨ c % 3 = 2 := by omega
  unfold RelT combo_melds combo_tatsu combo_pairs
  dsimp only
  rcases hmod with h3 | h3 | h3
  · rw [if_neg (show ¬(c % 3 = 2) from by omega)] at hP
    rw [if_neg (show ¬((c + 1) % 3 = 2) from by omega)] at hP
    exact Or.inl ⟨by omega, by omega, by omega⟩
  · rw [if_neg (show ¬(c % 3 = 2) from by omega)] at hP
    rw [if_pos (show (c + 1) % 3 = 2 from by omega)] at hP
    exact Or.inr (Or.inr (Or.inl ⟨by omega, by omega, by omega⟩))
  · rw [if_pos (show c % 3 = 2 from by omega)] at hP
    rw [if_neg (show ¬((c + 1) % 3 = 2) from by omega)] at hP
    exact Or.inr (Or.inl ⟨by omega, by omega, by omega⟩)

/-- Adding one 万 tile with value in 1..9. -/
theorem rel_append_suit_wan (tiles : List Tile) (t : Tile) (mc : Nat) (n : Nat)
    (hk : tileKey t = (.wan, .num n)) (h1 : 1 ≤ n) (h9 : n ≤ 9) :
    ∀ w' t' b', w' ∈ suit_combos (tiles ++ [t]) .wan →
      t' ∈ suit_combos (tiles ++ [t]) .tong → b' ∈ suit_combos (tiles ++ [t]) .tiao →
      ∃ w tq b, w ∈ suit_combos tiles .wan ∧ tq ∈ suit_combos tiles .tong ∧
        b ∈ suit_combos tiles .tiao ∧
        RelT (combo_melds (honor_melds tiles) mc w tq b, combo_tatsu w tq b,
              combo_pairs (honor_pairs tiles) w tq b)
             (combo_melds (honor_melds (tiles ++ [t])) mc w' t' b', combo_tatsu w' t' b',
              combo_pairs (honor_pairs (tiles ++ [t])) w' t' b') := by
  intro w' t' b' hw' ht' hb'
  have hvt := suit_vector_append_eq tiles t .tong (fun m _ => by rw [hk]; simp)
  have hvb := suit_vector_append_eq tiles t .tiao (fun m _ => by rw [hk]; simp)
  have hh : tileKey t ∉ feng_jian_keys := by rw [hk]; simp [feng_jian_keys]
  have hhm := honor_melds_append_not_mem tiles t hh
  have hhp := honor_pairs_append_not_mem tiles t hh
  have hvw := suit_vector_append_bump tiles t .wan n hk h1 h9
  unfold suit_combos at hw' ht' hb' ⊢
  rw [hvt] at ht'
  rw [hvb] at hb'
  rw [hvw] at hw'
  obtain ⟨c, hc, hrel⟩ := rel_of_bump (suit_vector tiles .wan) w' (n - 1) (by omega)
    (length_suit_vector tiles .wan) hw'
  refine ⟨c, t', b', hc, ht', hb', ?_⟩
  rw [hhm, hhp]
  unfold RelT at hrel ⊢
  unfold combo_melds combo_tatsu combo_pairs
  dsimp only at hrel ⊢
  rcases hrel with ⟨e1, e2, e3⟩ | ⟨e1, e2, e3⟩ | ⟨e1, e2, e3⟩ | ⟨e1, e2, e3⟩ | ⟨e1, e2, e3⟩
  · exact Or.inl ⟨by omega, by omega, by omega⟩
  · exact Or.inr (Or.inl ⟨by omega, by omega, by omega⟩)
  · exact Or.inr (Or.inr (Or.inl ⟨by omega, by omega, by omega⟩))
  · exact Or.inr (Or.inr (Or.inr (Or.inl ⟨by omega, by omega, by omega⟩)))
  · exact Or.inr (Or.inr (Or.inr (Or.inr ⟨by omega, by omega, by omega⟩)))

/-- Adding one 筒 tile with value in 1..9. -/
theorem rel_append_suit_tong (tiles : List Tile) (t : Tile) (mc : Nat) (n : Nat)
    (hk : tileKey t = (.tong, .num n)) (h1 : 1 ≤ n) (h9 : n ≤ 9) :
    ∀ w' t' b', w' ∈ suit_combos (tiles ++ [t]) .wan →
      t' ∈ suit_combos (tiles ++ [t]) .tong → b' ∈ suit_combos (tiles ++ [t]) .tiao →
      ∃ w tq b, w ∈ suit_combos tiles .wan ∧ tq ∈ suit_combos tiles .tong ∧
        b ∈ suit_combos tiles .tiao ∧
        RelT (combo_melds (honor_melds tiles) mc w tq b, combo_tatsu w tq b,
              combo_pairs (honor_pairs tiles) w tq b)
             (combo_melds (honor_melds (tiles ++ [t])) mc w' t' b', combo_tatsu w' t' b',
              combo_pairs (honor_pairs (tiles ++ [t])) w' t' b') := by
  intro w' t' b' hw' ht' hb'
  have hvw := suit_vector_append_eq tiles t .wan (fun m _ => by rw [hk]; simp)
  have hvb := suit_vector_append_eq tiles t .tiao (fun m _ => by rw [hk]; simp)
  have hh : tileKey t ∉ feng_jian_keys := by rw [hk]; simp [feng_jian_keys]
  have hhm := honor_melds_append_not_mem tiles t hh
  have hhp := honor_pairs_append_not_mem tiles t hh
  have hvt := suit_vector_append_bump tiles t .tong n hk h1 h9
  unfold suit_combos at hw' ht' hb' ⊢
  rw [hvw] at hw'
  rw [hvb] at hb'
  rw [hvt] at ht'
  obtain ⟨c, hc, hrel⟩ := rel_of_bump (suit_vector tiles .tong) t' (n - 1) (by omega)
    (length_suit_vector tiles .tong) ht'
  refine ⟨w', c, b', hw', hc, hb', ?_⟩
  rw [hhm, hhp]
  unfold RelT at hrel ⊢
  unfold combo_melds combo_tatsu combo_pairs
  dsimp only at hrel ⊢
  rcases hrel with ⟨e1, e2, e3⟩ | ⟨e1, e2, e3⟩ | ⟨e1, e2, e3⟩ | ⟨e1, e2, e3⟩ | ⟨e1, e2, e3⟩
  · exact Or.inl ⟨by omega, by omega, by omega⟩
  · exact Or.inr (Or.inl ⟨by omega, by omega, by omega⟩)
  · exact Or.inr (Or.inr (Or.inl ⟨by omega, by omega, by omega⟩))
  · exact Or.inr (Or.inr (Or.inr (Or.inl ⟨by omega, by omega, by omega⟩)))
  · exact Or.inr (Or.inr (Or.inr (Or.inr ⟨by omega, by omega, by omega⟩)))

/-- Adding one 条 tile with value in 1..9. -/
theorem rel_append_suit_tiao (tiles : List Tile) (t : Tile) (mc : Nat) (n : Nat)
    (hk : tileKey t = (.tiao, .num n)) (h1 : 1 ≤ n) (h9 : n ≤ 9) :
    ∀ w' t' b', w' ∈ suit_combos (tiles ++ [t]) .wan →
      t' ∈ suit_combos (tiles ++ [t]) .tong → b' ∈ suit_combos (tiles ++ [t]) .tiao →
      ∃ w tq b, w ∈ suit_combos tiles .wan ∧ tq ∈ suit_combos tiles .tong ∧
        b ∈ suit_combos tiles .tiao ∧
        RelT (combo_melds (honor_melds tiles) mc w tq b, combo_tatsu w tq b,
              combo_pairs (honor_pairs tiles) w tq b)
             (combo_melds (honor_melds (tiles ++ [t])) mc w' t' b', combo_tatsu w' t' b',
              combo_pairs (honor_pairs (tiles ++ [t])) w' t' b') := by
  intro w' t' b' hw' ht' hb'
  have hvw := suit_vector_append_eq tiles t .wan (fun m _ => by rw [hk]; simp)
  have hvt := suit_vector_append_eq tiles t .tong (fun m _ => by rw [hk]; simp)
  have hh : tileKey t ∉ feng_jian_keys := by rw [hk]; simp [feng_jian_keys]
  have hhm := honor_melds_append_not_mem tiles t hh
  have hhp := honor_pairs_append_not_mem tiles t hh
  have hvb := suit_vector_append_bump tiles t .tiao n hk h1 h9
  unfold suit_combos at hw' ht' hb' ⊢
  rw [hvw] at hw'
  rw [hvt] at ht'
  rw [hvb] at hb'
  obtain ⟨c, hc, hrel⟩ := rel_of_bump (suit_vector tiles .tiao) b' (n - 1) (by omega)
    (length_suit_vector tiles .tiao) hb'
  refine ⟨w', t', c, hw', ht', hc, ?_⟩
  rw [hhm, hhp]
  unfold RelT at hrel ⊢
  unfold combo_melds combo_tatsu combo_pairs
  dsimp only at hrel ⊢
  rcases hrel with ⟨e1, e2, e3⟩ | ⟨e1, e2, e3⟩ | ⟨e1, e2, e3⟩ | ⟨e1, e2, e3⟩ | ⟨e1, e2, e3⟩
  · exact Or.inl ⟨by omega, by omega, by omega⟩
  · exact Or.inr (Or.inl ⟨by omega, by omega, by omega⟩)
  · exact Or.inr (Or.inr (Or.inl ⟨by omega, by omega, by omega⟩))
  · exact Or.inr (Or.inr (Or.inr (Or.inl ⟨by omega, by omega, by omega⟩)))
  · exact Or.inr (Or.inr (Or.inr (Or.inr ⟨by omega, by omega, by omega⟩)))

/-- Any single added tile relates the combination sets of the extended hand to
those of the original hand. -/
theorem rel_append (tiles : List Tile) (t : Tile) (mc : Nat) :
    ∀ w' t' b', w' ∈ suit_combos (tiles ++ [t]) .wan →
      t' ∈ suit_combos (tiles ++ [t]) .tong → b' ∈ suit_combos (tiles ++ [t]) .tiao →
      ∃ w tq b, w ∈ suit_combos tiles .wan ∧ tq ∈ suit_combos tiles .tong ∧
        b ∈ suit_combos tiles .tiao ∧
        RelT (combo_melds (honor_melds tiles) mc w tq b, combo_tatsu w tq b,
              combo_pairs (honor_pairs tiles) w tq b)
             (combo_melds (honor_melds (tiles ++ [t])) mc w' t' b', combo_tatsu w' t' b',
              combo_pairs (honor_pairs (tiles ++ [t])) w' t' b') := by
  cases htt : t.tile_type with
  | wan =>
    have hk : tileKey t = (.wan, .num t.value) := by unfold tileKey; rw [htt]
    by_cases hn : 1 ≤ t.value ∧ t.value ≤ 9
    · exact rel_append_suit_wan tiles t mc t.value hk hn.1 hn.2
    · apply rel_append_all_eq tiles t mc
      · intro s m hm
        rw [hk]
        intro hc
        have h2 := congrArg Prod.snd hc
        have h3 : t.value = m + 1 := by injection h2
        exact hn ⟨by omega, by omega⟩
      · rw [hk]
        simp [feng_jian_keys]
  | tong =>
    have hk : tileKey t = (.tong, .num t.value) := by unfold tileKey; rw [htt]
    by_cases hn : 1 ≤ t.value ∧ t.value ≤ 9
    · exact rel_append_suit_tong tiles t mc t.value hk hn.1 hn.2
    · apply rel_append_all_eq tiles t mc
      · intro s m hm
        rw [hk]
        intro hc
        have h2 := congrArg Prod.snd hc
        have h3 : t.value = m + 1 := by injection h2
        exact hn ⟨by omega, by omega⟩
      · rw [hk]
        simp [feng_jian_keys]
  | tiao =>
    have hk : tileKey t = (.tiao, .num t.value) := by unfold tileKey; rw [htt]
    by_cases hn : 1 ≤ t.value ∧ t.value ≤ 9
    · exact rel_append_suit_tiao tiles t mc t.value hk hn.1 hn.2
    · apply rel_append_all_eq tiles t mc
      · intro s m hm
        rw [hk]
        intro hc
        have h2 := congrArg Prod.snd hc
        have h3 : t.value = m + 1 := by injection h2
        exact hn ⟨by omega, by omega⟩
      · rw [hk]
        simp [feng_jian_keys]
  | feng =>
    have hk : tileKey t = (.feng, .fengv t.feng_type) := by unfold tileKey; rw [htt]
    apply rel_append_honor tiles t mc
    · intro s m hm
      rw [hk]
      simp
    · rw [hk]
      unfold feng_jian_keys
      rcases t.feng_type with _ | f
      · simp
      · cases f <;> simp
  | jian =>
    have hk : tileKey t = (.jian, .jianv t.jian_type) := by unfold tileKey; rw [htt]
    apply rel_append_honor tiles t mc
    · intro s m hm
      rw [hk]
      simp
    · rw [hk]
      unfold feng_jian_keys
      rcases t.jian_type with _ | j
      · simp
      · cases j <;> simp

/-- Standard-shape shanten drops by at most one when a tile is added. -/
theorem shanten_general_lipschitz (tiles : List Tile) (t : Tile) (mc : Nat) :
    calculate_standard_shanten tiles mc - 1 ≤
      calculate_standard_shanten (tiles ++ [t]) mc :=
  standard_lip_of_rel tiles (tiles ++ [t]) mc (rel_append tiles t mc)

/-- For every nonempty hand, shape kind and melds count, adding one tile lowers
the shanten by at most one. -/
theorem shanten_lipschitz (tiles : List Tile) (t : Tile) (mc : Nat)
    (st : ShentanType) (h : tiles ≠ []) :
    calculate_shanten tiles mc st - 1 ≤ calculate_shanten (tiles ++ [t]) mc st := by
  have hne : tiles ++ [t] ≠ [] := by simp
  cases st with
  | general =>
    rw [calculate_shanten, if_neg h, calculate_shanten, if_neg hne]
    exact shanten_general_lipschitz tiles t mc
  | pairs =>
    have h0 := shanten_pairs_lipschitz tiles t h
    rw [calculate_shanten, if_neg h, calculate_shanten, if_neg hne] at h0
    rw [calculate_shanten, if_neg h, calculate_shanten, if_neg hne]
    exact h0
  | kokushi =>
    have h0 := shanten_kokushi_lipschitz tiles t h
    rw [calculate_shanten, if_neg h, calculate_shanten, if_neg hne] at h0
    rw [calculate_shanten, if_neg h, calculate_shanten, if_neg hne]
    exact h0

/-- C4, counterexample to the universal quantification over all hands: on the
empty hand every kind is listed (the shanten drops from the short-circuit value
13 to 8), a drop of 5, not 1. -/
theorem C4_counterexample :
    (((.wan : TileType), KeyVal.num 1), (4 : Int)) ∈
        calculate_ukeire [] 0 none [] .general ∧
      calculate_shanten ([] ++ [create_tile_from_key ((.wan : TileType), KeyVal.num 1)])
          0 .general = 8 ∧
      calculate_shanten [] 0 .general = 13 ∧ (8 : Int) ≠ 13 - 1 :=
  ⟨by decide, by decide, rfl, by decide⟩

/-- C4 (amended: for every NONEMPTY hand): every tile kind listed by
`calculate_ukeire` lowers the shanten of the hand by exactly one, for the same
melds count and shape kind. -/
theorem C4_ukeire_drop_exactly_one (tiles : List Tile) (mc : Nat) (ms : Option String)
    (pool : List Tile) (st : ShentanType) (k : TileKey) (v : Int) (h : tiles ≠ [])
    (hmem : (k, v) ∈ calculate_ukeire tiles mc ms pool st) :
    calculate_shanten (tiles ++ [create_tile_from_key k]) mc st =
      calculate_shanten tiles mc st - 1 := by
  have hfold := ukeire_fold_mem tiles mc ms pool st (calculate_shanten tiles mc st)
    k v all_kind_keys [] hmem
  rcases hfold with hmem0 | hprop
  · simp at hmem0
  · have hlt := hprop.2.2.2
    have hge := shanten_lipschitz tiles (create_tile_from_key k) mc st h
    omega

/-- C4 witness: on the hand `[1万]`, drawing `2万` (listed with 4 copies
remaining) moves the standard shanten from 8 to exactly 7. -/
theorem C4_ukeire_drop_exactly_one_witness :
    [wanTile 1] ≠ ([] : List Tile) ∧
      (((.wan : TileType), KeyVal.num 2), (4 : Int)) ∈
        calculate_ukeire [wanTile 1] 0 none [] .general ∧
      calculate_shanten ([wanTile 1] ++
          [create_tile_from_key ((.wan : TileType), KeyVal.num 2)]) 0 .general =
        calculate_shanten [wanTile 1] 0 .general - 1 :=
  ⟨by decide, by decide,
    C4_ukeire_drop_exactly_one [wanTile 1] 0 none [] .general
      ((.wan : TileType), KeyVal.num 2) 4 (by decide) (by decide)⟩

/-! ## C5: `evaluate_tile_danger_level`

The Python function assigns `appears_in_discard` only inside the exact-match
loop, immediately before `return 0.0`.  Every control path that reaches step 6
(`if not appears_in_discard`) therefore reads an unbound local and raises
`UnboundLocalError`; the embedding models that read as the error branch.  The
intermediate score computations of steps 2-5 are kept so the embedding mirrors
the source line by line, even though the error makes them unobservable. -/

/-- `Tile.is_number_tile` from `game/tile.py`. -/
def is_number_tile (t : Tile) : Bool :=
  t.tile_type == .wan || t.tile_type == .tong || t.tile_type == .tiao

/-- The four-field equality test of step 1 of `evaluate_tile_danger_level`. -/
def tiles_exact_match (a b : Tile) : Bool :=
  a.tile_type == b.tile_type && a.value == b.value &&
    a.feng_type == b.feng_type && a.jian_type == b.jian_type

/-- The `suji_pairs` dictionary (with the `.get(..., [])` default). -/
def suji_partners (v : Nat) : List Nat :=
  match v with
  | 1 => [4, 7] | 2 => [5, 8] | 3 => [6, 9]
  | 4 => [1, 7] | 5 => [2, 8] | 6 => [3, 9]
  | 7 => [1, 4] | 8 => [2, 5] | 9 => [3, 6]
  | _ => []

/-- Embedding of `TileEfficiencyAnalyzer.evaluate_tile_danger_level` (defaults
`discard_pool=[]`, `all_visible_tiles=[]`, `round_number=1` supplied by the
caller).  Scores are exact rationals; the unbound-local read of
`appears_in_discard` in step 6 is the error branch. -/
def evaluate_tile_danger_level (tile : Tile) (discard_pool : List (Tile × String))
    (all_visible_tiles : List Tile) (round_number : Nat) : Except Unit ℚ :=
  if discard_pool.any (fun d => tiles_exact_match tile d.1) then .ok 0
  else
    let danger1 : ℚ :=
      if is_number_tile tile then
        if 4 ≤ tile.value ∧ tile.value ≤ 6 then 7 / 10
        else if 3 ≤ tile.value ∧ tile.value ≤ 7 then 5 / 10
        else if tile.value = 2 ∨ tile.value = 8 then 3 / 10
        else 1 / 10
      else if tile.tile_type == .jian then 6 / 10
      else 3 / 10
    let danger2 : ℚ :=
      if is_number_tile tile &&
          (discard_pool.drop (discard_pool.length - 10)).any
            (fun d => is_number_tile d.1 && d.1.tile_type == tile.tile_type &&
              (suji_partners tile.value).contains d.1.value) then
        danger1 * (7 / 10)
      else danger1
    let same_tile_count := (all_visible_tiles.filter (fun vt => is_number_tile vt &&
        vt.tile_type == tile.tile_type && vt.value == tile.value)).length
    let danger3 : ℚ :=
      if is_number_tile tile then
        if 4 ≤ same_tile_count then
          let adjacent_values := (if 1 < tile.value then [tile.value - 1] else []) ++
            (if tile.value < 9 then [tile.value + 1] else [])
          if adjacent_values.contains tile.value then danger2 * (3 / 10) else danger2
        else if 3 ≤ same_tile_count then danger2 * (8 / 10)
        else danger2
      else danger2
    let _danger4 : ℚ :=
      if round_number ≤ 5 &&
          ((discard_pool.take 5).map Prod.fst).any
            (fun early => is_number_tile tile && early.tile_type == tile.tile_type &&
              ((tile.value : Int) - (early.value : Int)).natAbs ≤ 2) then
        danger3 * (6 / 10)
      else danger3
    .error ()

/-- C5: `evaluate_tile_danger_level` does NOT return normally on every input:
it returns (0.0) exactly when the tile matches a discarded tile on all four
fields, and on every other input — in particular any tile evaluated against the
empty discard history — it reads the unbound local `appears_in_discard` in its
step 6 and raises, modelled here as the error branch. -/
theorem C5_danger_level_unbound_local :
    (∀ (tile : Tile) (pool : List (Tile × String)) (vis : List Tile) (rnd : Nat),
      evaluate_tile_danger_level tile pool vis rnd =
        (if pool.any (fun d => tiles_exact_match tile d.1) then .ok 0
         else .error ())) ∧
    evaluate_tile_danger_level (wanTile 1) [] [] 1 = .error () := by
  constructor
  · intro tile pool vis rnd
    rfl
  · rfl

/-! ## C7/C8: `TileEfficiencyAnalyzer.analyze_discard_efficiency`

The scorer is mutually recursive with the peak-theory helpers
(`analyze → _apply_peak_theory → _calculate_peak_theory_bonus →
_analyze_waiting_patterns → _find_optimal_waiting_state → analyze`).  The
embedding passes the recursive call as a function argument (as with the
enumerator) and ties the knot with explicit fuel; Python exceptions
(`ValueError` from `list.remove`, `IndexError` from `sorted_tiles[0]`, the
`UnboundLocalError` of the leaked loop variable `ukeire`) are the error branch
of `Except`.  Python dictionaries keyed by tiles become association lists with
first-match lookup and replace-in-place insertion, which matches insertion-order
dict semantics. -/

/-- `Tile.is_honor_tile` from `game/tile.py`. -/
def is_honor_tile (t : Tile) : Bool := t.tile_type == .feng || t.tile_type == .jian

/-- Embedding of `_is_dangerous_tile`. -/
def is_dangerous_tile (tile : Tile) : Bool :=
  if is_number_tile tile then
    if 4 ≤ tile.value ∧ tile.value ≤ 6 then true
    else if 3 ≤ tile.value ∧ tile.value ≤ 7 then true
    else false
  else if is_honor_tile tile then
    if tile.tile_type == .jian then true else false
  else false

/-- `list.remove`: drops the first equal element, `ValueError` if absent. -/
def removeFirst (l : List Tile) (t : Tile) : Except Unit (List Tile) :=
  if l.contains t then .ok (l.erase t) else .error ()

/-- First-match lookup in an association list (dict access). -/
def dictGet {κ α : Type} [DecidableEq κ] : List (κ × α) → κ → Option α
  | [], _ => none
  | (k', v) :: rest, k => if k' = k then some v else dictGet rest k

/-- Dict assignment: replace in place if present, append otherwise. -/
def dictInsert {κ α : Type} [DecidableEq κ] : List (κ × α) → κ → α → List (κ × α)
  | [], k, v => [(k, v)]
  | (k', v') :: rest, k, v =>
    if k' = k then (k, v) :: rest else (k', v') :: dictInsert rest k v

/-- The `player.game_context` dictionary (the three keys read by the scorer,
with the source's `.get` defaults applied). -/
structure GameContext where
  discard_pool : List (Tile × String)
  all_visible_tiles : List Tile
  round_number : Nat

/-- The fields of `game/player.py`'s `Player` read by the analyzer: the hand,
`len(player.melds)`, the always-present `missing_suit` (default `None`), and the
optional `game_context` attribute (absent unless the game attaches it). -/
structure Player where
  name : String
  hand_tiles : List Tile
  melds_count : Nat
  missing_suit : Option String
  game_context : Option GameContext

/-- The ukeire dictionary and the per-tile score map of the analyzer. -/
abbrev UkMap := List (TileKey × Int)

abbrev ScoreMap := List (Tile × (ℚ × UkMap))

/-- Embedding of `_calculate_efficiency_score`.  The advanced-defence branch
calls `evaluate_tile_danger_level`, whose unbound-local bug makes it fail unless
the tile matches a context discard exactly. -/
def calculate_efficiency_score (tile : Tile) (current_shanten after_shanten : Int)
    (total_ukeire : Int) (player : Player) : Except Unit ℚ :=
  let score1 : ℚ := if after_shanten ≤ current_shanten then 50 else -50
  let score2 : ℚ := score1 + (total_ukeire : ℚ) * 2
  let score3 : ℚ := score2 + (match player.missing_suit with
    | some ms => if is_missing_suit_tile tile.tile_type ms then 100 else 0
    | none => 0)
  match player.game_context with
  | some ctx =>
    match evaluate_tile_danger_level tile ctx.discard_pool ctx.all_visible_tiles
        ctx.round_number with
    | .error e => .error e
    | .ok danger => .ok (score3 - danger * 15)
  | none => .ok (score3 - (if is_dangerous_tile tile then 10 else 0))

/-- Type of the recursive entry point
(player, available_tiles, discard_pool, shentan_type, use_peak_theory). -/
abbrev AnalyzeRec :=
  Player → List Tile → List Tile → ShentanType → Bool → Except Unit ScoreMap

/-- One iteration of the scoring loop of `analyze_discard_efficiency`; the
second state component is the loop variable `ukeire`, which leaks out of the
loop (`none` while still unbound). -/
def efficiency_step (player : Player) (pool : List Tile) (st : ShentanType)
    (cur : Int) (acc : ScoreMap × Option UkMap) (tile : Tile) :
    Except Unit (ScoreMap × Option UkMap) :=
  match removeFirst player.hand_tiles tile with
  | .error e => .error e
  | .ok remaining =>
    let after := calculate_shanten remaining player.melds_count st
    let uk := calculate_ukeire remaining player.melds_count player.missing_suit pool st
    let total := (uk.map Prod.snd).sum
    match calculate_efficiency_score tile cur after total player with
    | .error e => .error e
    | .ok eff => .ok (dictInsert acc.1 tile (eff, uk), some uk)

/-- Stable descending insertion by score (Python's stable
`sorted(..., key=lambda x: x[1][0], reverse=True)`). -/
def insort_desc (x : Tile × ℚ × UkMap) : List (Tile × ℚ × UkMap) →
    List (Tile × ℚ × UkMap)
  | [] => [x]
  | y :: rest => if x.2.1 < y.2.1 then y :: insort_desc x rest else x :: y :: rest

def sortByScoreDesc : ScoreMap → ScoreMap
  | [] => []
  | x :: rest => insort_desc x (sortByScoreDesc rest)

/-- Embedding of `_find_optimal_waiting_state`: a fresh temporary player (which
never carries a `game_context`) inherits the missing suit and melds, the hand is
scored with peak theory disabled, and the top-scoring discard is removed.
`sorted_tiles[0]` on an empty score map is the error branch. -/
def find_optimal_waiting_state (anlz : AnalyzeRec) (tiles : List Tile)
    (player : Player) (st : ShentanType) (pool : List Tile) :
    Except Unit (List Tile × UkMap) :=
  let temp : Player :=
    { name := "temp_" ++ player.name
      hand_tiles := tiles
      melds_count := player.melds_count
      missing_suit := player.missing_suit
      game_context := none }
  match anlz temp tiles pool st false with
  | .error e => .error e
  | .ok scores =>
    match sortByScoreDesc scores with
    | [] => .error ()
    | best :: _ =>
      match removeFirst tiles best.1 with
      | .error e => .error e
      | .ok remaining => .ok (remaining, best.2.2)

/-- `_classify_1shanten_pattern` always returns `all_patterns[0]`. -/
def classify_1shanten_pattern (_tiles : List Tile) (_final_ukeire : UkMap) : String :=
  "余剩牌形"

/-- Embedding of `_is_kokushi_tenpai`. -/
def is_kokushi_tenpai (tiles : List Tile) (_final_ukeire : UkMap) : Bool :=
  let keys := handKeys tiles
  if keys.all (fun k => kokushi_keys.contains k) then
    let unique_types := keys.length
    let pair_count := (keys.filter (fun k => tileCounts tiles k = 2)).length
    unique_types == 13 && pair_count == 0
  else false

/-- Embedding of `_is_jiulian_tenpai`. -/
def is_jiulian_tenpai (tiles : List Tile) (final_ukeire : UkMap) : Bool :=
  let tile_types := ((tiles.filter (fun t => is_number_tile t)).map
    (fun t => t.tile_type)).dedup
  if tile_types.length != 1 then false
  else
    let suit := tile_types.headD .wan
    let suit_distribution := (List.range 9).map (fun i => tileCounts tiles (suit, .num (i + 1)))
    let expected : List Int := [3, 1, 1, 1, 1, 1, 1, 1, 3]
    let differences := ((List.range 9).map (fun i =>
      ((suit_distribution.getD i 0 : Int) - expected.getD i 0).natAbs)).sum
    decide (differences ≤ 2) && decide (8 ≤ final_ukeire.length)

/-- Embedding of `_check_special_tenpai_patterns` (its unused `tile_counts`
binding has no effect and is omitted). -/
def check_special_tenpai_patterns (tiles : List Tile) (final_ukeire : UkMap) :
    Option String :=
  if is_kokushi_tenpai tiles final_ukeire then some "kokushi"
  else if is_jiulian_tenpai tiles final_ukeire then some "jiulian"
  else none

/-- Embedding of `_classify_single_wait`. -/
def classify_single_wait (tiles : List Tile) (final_ukeire : UkMap) : String :=
  match final_ukeire.head? with
  | none => "tanki"
  | some (k, _) =>
    if k.1 == .feng || k.1 == .jian then "tanki"
    else
      match k.2 with
      | .num v =>
        if v = 3 ∨ v = 7 then "penchan"
        else if 2 ≤ v ∧ v ≤ 8 then
          if 0 < tileCounts tiles (k.1, .num (v - 1)) ∧
              0 < tileCounts tiles (k.1, .num (v + 1)) then "kanchan"
          else "tanki"
        else "tanki"
      | _ => "tanki"

/-- Embedding of `_classify_double_wait`. -/
def classify_double_wait (tiles : List Tile) (final_ukeire : UkMap) : String :=
  let waiting_keys := final_ukeire.map Prod.fst
  if waiting_keys.any (fun k => k.1 == .feng || k.1 == .jian) then "shanpon"
  else
    if ((waiting_keys.map Prod.fst).dedup.length == 1 &&
        (match waiting_keys.head? with
         | some k => k.1 == .wan || k.1 == .tong || k.1 == .tiao
         | none => false)) then
      match waiting_keys.head? with
      | none => "ryanmen"
      | some k0 =>
        let values := (waiting_keys.map (fun k =>
          match k.2 with | .num v => v | _ => 0)).mergeSort (· ≤ ·)
        if values.length == 2 then
          let v0 := values.getD 0 0
          let v1 := values.getD 1 0
          if v1 - v0 = 3 then
            if 1 ≤ tileCounts tiles (k0.1, .num v0) ∧
                1 ≤ tileCounts tiles (k0.1, .num v1) then "shuangtiao"
            else "ryanmen"
          else
            if 2 ≤ tileCounts tiles (k0.1, .num v0) ∧
                2 ≤ tileCounts tiles (k0.1, .num v1) then "shanpon"
            else "ryanmen"
        else "ryanmen"
    else "ryanmen"

/-- Embedding of `_classify_tenpai_pattern` (its unused `total_waiting_tiles`
binding has no effect and is omitted). -/
def classify_tenpai_pattern (tiles : List Tile) (final_ukeire : UkMap) : String :=
  let waiting_count := final_ukeire.length
  match check_special_tenpai_patterns tiles final_ukeire with
  | some special => special
  | none =>
    if waiting_count = 1 then classify_single_wait tiles final_ukeire
    else if waiting_count = 2 then classify_double_wait tiles final_ukeire
    else if waiting_count = 3 then "sanmen"
    else if 4 ≤ waiting_count then "duomin"
    else "unknown"

/-- The statistics dictionary of `_analyze_waiting_patterns` (the
`one_shanten_types` key reads as `[]` while never assigned, matching
`.get('one_shanten_types', {})`). -/
structure WaitingPatterns where
  ryanmen_wait_count : Int
  single_wait_count : Int
  total_patterns : Nat
  pattern_diversity : Nat
  avg_final_ukeire : ℚ
  one_shanten_types : List (TileKey × String)

/-- One iteration of the ukeire loop of `_analyze_waiting_patterns`; the extra
state components are the running `total_final_ukeire` and the `tenpai_types`
set (a duplicate-free list). -/
def waiting_step (anlz : AnalyzeRec) (remaining : List Tile) (player : Player)
    (st : ShentanType) (pool : List Tile)
    (state : WaitingPatterns × Int × List String) (item : TileKey × Int) :
    Except Unit (WaitingPatterns × Int × List String) :=
  let patterns := state.1
  let total_final := state.2.1
  let ttypes := state.2.2
  let test_tile := create_tile_from_key item.1
  let test_tiles := remaining ++ [test_tile]
  let test_shanten := calculate_shanten test_tiles player.melds_count st
  if test_shanten ≤ 1 then
    match find_optimal_waiting_state anlz test_tiles player st pool with
    | .error e => .error e
    | .ok fos =>
      if test_shanten = 1 then
        let pat := classify_1shanten_pattern fos.1 fos.2
        .ok ({ patterns with
          one_shanten_types := dictInsert patterns.one_shanten_types item.1 pat },
          total_final, ttypes)
      else if test_shanten = 0 then
        let final_count := (fos.2.map Prod.snd).sum
        let tenpai_type := classify_tenpai_pattern fos.1 fos.2
        let ttypes' := if ttypes.contains tenpai_type then ttypes
          else ttypes ++ [tenpai_type]
        let total' := total_final + final_count * item.2
        let patterns' :=
          if (1 : Int) < final_count then
            { patterns with ryanmen_wait_count := patterns.ryanmen_wait_count + item.2 }
          else
            { patterns with single_wait_count := patterns.single_wait_count + item.2 }
        .ok ({ patterns' with
          total_patterns := ttypes'.length,
          avg_final_ukeire := (total' : ℚ) / (ttypes'.length : ℚ),
          pattern_diversity := ttypes'.length }, total', ttypes')
      else .ok (patterns, total_final, ttypes)
  else .ok (patterns, total_final, ttypes)

/-- Embedding of `_analyze_waiting_patterns`. -/
def analyze_waiting_patterns (anlz : AnalyzeRec) (remaining : List Tile)
    (player : Player) (st : ShentanType) (pool : List Tile) (uk : UkMap) :
    Except Unit WaitingPatterns :=
  let init : WaitingPatterns :=
    { ryanmen_wait_count := 0, single_wait_count := 0, total_patterns := 0,
      pattern_diversity := 0, avg_final_ukeire := 0, one_shanten_types := [] }
  if uk = [] then .ok init
  else
    match uk.foldlM (waiting_step anlz remaining player st pool) (init, 0, []) with
    | .error e => .error e
    | .ok res => .ok res.1

/-- Embedding of `_calculate_peak_theory_bonus`. -/
def calculate_peak_theory_bonus (anlz : AnalyzeRec) (discard_tile : Tile)
    (player : Player) (pool : List Tile) (current_shanten : Int)
    (st : ShentanType) (ukeire_arg : Option UkMap) : Except Unit ℚ :=
  if 2 < current_shanten then .ok 0
  else
    match removeFirst player.hand_tiles discard_tile with
    | .error e => .error e
    | .ok remaining =>
      let after := calculate_shanten remaining player.melds_count st
      if current_shanten < after then .ok 0
      else
        let uk := match ukeire_arg with
          | some u => u
          | none => calculate_ukeire remaining player.melds_count player.missing_suit
              pool st
        if uk = [] then .ok 0
        else
          match analyze_waiting_patterns anlz remaining player st pool uk with
          | .error e => .error e
          | .ok wp =>
            let peak_bonus : ℚ :=
              if wp.one_shanten_types ≠ [] then
                (wp.one_shanten_types.map (fun kv =>
                  if kv.2 = "余剩牌形" then (10 : ℚ)
                  else if kv.2 = "完全一向听" then 20
                  else if kv.2 = "无雀头一向听" then 30
                  else if kv.2 = "双靠张一向听" then 40
                  else if kv.2 = "七对子一向听" then 10
                  else if kv.2 = "七对子与面子手复合一向听" then 20
                  else if kv.2 = "国士一向听" then 10
                  else 0)).sum
              else
                let b1 := (wp.ryanmen_wait_count : ℚ) * 8
                let b2 := b1 + wp.avg_final_ukeire * (3 / 2)
                let b3 := b2 + (wp.pattern_diversity : ℚ) * 5
                if 0 < wp.total_patterns then
                  b3 - ((wp.single_wait_count : ℚ) / (wp.total_patterns : ℚ)) * 5
                else b3
            .ok (max 0 peak_bonus)

/-- Embedding of `_apply_peak_theory`. -/
def apply_peak_theory (anlz : AnalyzeRec) (ukeire : UkMap)
    (efficiency_scores : ScoreMap) (player : Player) (pool : List Tile)
    (st : ShentanType) : Except Unit ScoreMap :=
  if efficiency_scores = [] then .ok efficiency_scores
  else
    let current_shanten := calculate_shanten player.hand_tiles player.melds_count st
    if 2 < current_shanten then .ok efficiency_scores
    else
      let top3_tiles := (sortByScoreDesc efficiency_scores).take 3
      if top3_tiles.length ≤ 1 then .ok efficiency_scores
      else
        match top3_tiles.head? with
        | none => .ok efficiency_scores
        | some top =>
          let tied_top_tiles := top3_tiles.filter (fun e => |e.2.1 - top.2.1| < 1 / 10)
          if tied_top_tiles.length ≤ 1 then .ok efficiency_scores
          else
            top3_tiles.foldlM (fun enhanced e =>
              match calculate_peak_theory_bonus anlz e.1 player pool current_shanten
                  st (some ukeire) with
              | .error err => .error err
              | .ok peak_bonus =>
                .ok (dictInsert enhanced e.1 (e.2.1 + peak_bonus, e.2.2)))
              efficiency_scores

/-- Embedding of `analyze_discard_efficiency` (with `discard_pool=[]` supplied
by the caller where Python defaults it).  The loop variable `ukeire` leaks into
the peak-theory call; when the loop never ran it is unbound
(`UnboundLocalError`, the error branch). -/
def analyze_discard_efficiency_core (anlz : AnalyzeRec) (player : Player)
    (available_tiles : List Tile) (pool : List Tile) (st : ShentanType)
    (use_peak_theory : Bool) : Except Unit ScoreMap :=
  let current_shanten := calculate_shanten player.hand_tiles player.melds_count st
  match available_tiles.foldlM (efficiency_step player pool st current_shanten)
      ([], none) with
  | .error e => .error e
  | .ok res =>
    if current_shanten ≤ 2 ∧ use_peak_theory = true then
      match res.2 with
      | none => .error ()
      | some uk => apply_peak_theory anlz uk res.1 player pool st
    else .ok res.1

/-- The analyzer with explicit recursion depth; fuel 0 is the (never reached)
marker of a deeper nested call. -/
def analyzeFuel : Nat → AnalyzeRec
  | 0 => fun _ _ _ _ _ => .error ()
  | fuel + 1 => analyze_discard_efficiency_core (analyzeFuel fuel)

/-- The scorer itself: depth 2 suffices (proved below: the nested call runs with
peak theory disabled and needs no recursion of its own). -/
def analyze_discard_efficiency : AnalyzeRec := analyzeFuel 2

/-! ## C8: the peak-theory lookahead is bounded at one ply -/

/-- With peak theory disabled the scorer never calls its recursive argument. -/
theorem core_false_indep (f g : AnalyzeRec) (p : Player) (a pool : List Tile)
    (st : ShentanType) :
    analyze_discard_efficiency_core f p a pool st false =
      analyze_discard_efficiency_core g p a pool st false := by
  unfold analyze_discard_efficiency_core
  dsimp only
  cases hF : a.foldlM
      (efficiency_step p pool st (calculate_shanten p.hand_tiles p.melds_count st))
      ([], none) with
  | error e => rfl
  | ok res => simp

theorem find_optimal_waiting_state_congr (f g : AnalyzeRec)
    (hfg : ∀ p a pool st, f p a pool st false = g p a pool st false)
    (tiles : List Tile) (player : Player) (st : ShentanType) (pool : List Tile) :
    find_optimal_waiting_state f tiles player st pool =
      find_optimal_waiting_state g tiles player st pool := by
  unfold find_optimal_waiting_state
  simp only [hfg]

theorem waiting_step_congr (f g : AnalyzeRec)
    (hfg : ∀ p a pool st, f p a pool st false = g p a pool st false)
    (remaining : List Tile) (player : Player) (st : ShentanType) (pool : List Tile) :
    waiting_step f remaining player st pool = waiting_step g remaining player st pool := by
  funext state item
  unfold waiting_step
  simp only [find_optimal_waiting_state_congr f g hfg]

theorem analyze_waiting_patterns_congr (f g : AnalyzeRec)
    (hfg : ∀ p a pool st, f p a pool st false = g p a pool st false)
    (remaining : List Tile) (player : Player) (st : ShentanType) (pool : List Tile)
    (uk : UkMap) :
    analyze_waiting_patterns f remaining player st pool uk =
      analyze_waiting_patterns g remaining player st pool uk := by
  unfold analyze_waiting_patterns
  simp only [waiting_step_congr f g hfg]

theorem calculate_peak_theory_bonus_congr (f g : AnalyzeRec)
    (hfg : ∀ p a pool st, f p a pool st false = g p a pool st false)
    (tile : Tile) (player : Player) (pool : List Tile) (cur : Int)
    (st : ShentanType) (uka : Option UkMap) :
    calculate_peak_theory_bonus f tile player pool cur st uka =
      calculate_peak_theory_bonus g tile player pool cur st uka := by
  unfold calculate_peak_theory_bonus
  simp only [analyze_waiting_patterns_congr f g hfg]

theorem apply_peak_theory_congr (f g : AnalyzeRec)
    (hfg : ∀ p a pool st, f p a pool st false = g p a pool st false)
    (uk : UkMap) (scores : ScoreMap) (player : Player) (pool : List Tile)
    (st : ShentanType) :
    apply_peak_theory f uk scores player pool st =
      apply_peak_theory g uk scores player pool st := by
  unfold apply_peak_theory
  simp only [calculate_peak_theory_bonus_congr f g hfg]

theorem core_congr (f g : AnalyzeRec)
    (hfg : ∀ p a pool st, f p a pool st false = g p a pool st false)
    (p : Player) (a pool : List Tile) (st : ShentanType) (b : Bool) :
    analyze_discard_efficiency_core f p a pool st b =
      analyze_discard_efficiency_core g p a pool st b := by
  unfold analyze_discard_efficiency_core
  simp only [apply_peak_theory_congr f g hfg]

/-- C8: the peak-theory lookahead is bounded at exactly one ply.  The nested
scorer invocation made by the optimal-waiting-state search always runs with
peak theory disabled and therefore needs no recursion of its own: with peak
theory disabled any positive recursion depth gives the same result as depth 1,
and with peak theory enabled any depth ≥ 2 gives the same result as depth 2 —
the mutual recursion never reaches depth two. -/
theorem C8_peak_lookahead_one_ply :
    (∀ (n : Nat) (player : Player) (avail pool : List Tile) (st : ShentanType),
      analyzeFuel (n + 1) player avail pool st false =
        analyzeFuel 1 player avail pool st false) ∧
    (∀ (n : Nat) (player : Player) (avail pool : List Tile) (st : ShentanType),
      analyzeFuel (n + 2) player avail pool st true =
        analyze_discard_efficiency player avail pool st true) := by
  have hfalse : ∀ (n : Nat) (player : Player) (avail pool : List Tile)
      (st : ShentanType),
      analyzeFuel (n + 1) player avail pool st false =
        analyzeFuel 1 player avail pool st false := by
    intro n p a pool st
    show analyze_discard_efficiency_core (analyzeFuel n) p a pool st false =
      analyze_discard_efficiency_core (analyzeFuel 0) p a pool st false
    exact core_false_indep _ _ p a pool st
  refine ⟨hfalse, ?_⟩
  intro n p a pool st
  show analyze_discard_efficiency_core (analyzeFuel (n + 1)) p a pool st true =
    analyze_discard_efficiency_core (analyzeFuel 1) p a pool st true
  exact core_congr _ _ (fun p' a' pool' st' => hfalse n p' a' pool' st') p a pool st true

/-! ## C7: the peak-theory refinement never lowers a score -/

theorem dictGet_dictInsert {κ α : Type} [DecidableEq κ] (k k' : κ) (v : α) :
    ∀ (l : List (κ × α)),
      dictGet (dictInsert l k v) k' = if k = k' then some v else dictGet l k' := by
  intro l
  induction l with
  | nil =>
    show dictGet [(k, v)] k' = _
    unfold dictGet
    rfl
  | cons hd rest ih =>
    obtain ⟨k0, v0⟩ := hd
    show dictGet (if k0 = k then (k, v) :: rest else (k0, v0) :: dictInsert rest k v) k' = _
    by_cases h0 : k0 = k
    · rw [if_pos h0]
      subst h0
      show (if k0 = k' then some v else dictGet rest k') = _
      by_cases h : k0 = k'
      · rw [if_pos h, if_pos h]
      · rw [if_neg h, if_neg h,
          show dictGet ((k0, v0) :: rest) k' =
            if k0 = k' then some v0 else dictGet rest k' from rfl, if_neg h]
    · rw [if_neg h0]
      show (if k0 = k' then some v0 else dictGet (dictInsert rest k v) k') = _
      by_cases h1 : k0 = k'
      · have hkk' : ¬ k = k' := fun he => h0 (h1.trans he.symm)
        rw [if_pos h1, if_neg hkk',
          show dictGet ((k0, v0) :: rest) k' =
            if k0 = k' then some v0 else dictGet rest k' from rfl, if_pos h1]
      · rw [if_neg h1, ih]
        by_cases h : k = k'
        · rw [if_pos h, if_pos h]
        · rw [if_neg h, if_neg h,
            show dictGet ((k0, v0) :: rest) k' =
              if k0 = k' then some v0 else dictGet rest k' from rfl, if_neg h1]

theorem dictInsert_keys {κ α : Type} [DecidableEq κ] (k : κ) (v : α) :
    ∀ (l : List (κ × α)), (dictInsert l k v).map Prod.fst =
      if k ∈ l.map Prod.fst then l.map Prod.fst else l.map Prod.fst ++ [k] := by
  intro l
  induction l with
  | nil => simp [dictInsert]
  | cons hd rest ih =>
    obtain ⟨k0, v0⟩ := hd
    show (if k0 = k then (k, v) :: rest else (k0, v0) :: dictInsert rest k v).map
      Prod.fst = _
    by_cases h0 : k0 = k
    · subst h0
      rw [if_pos rfl]
      simp
    · rw [if_neg h0]
      simp only [List.map_cons, ih]
      by_cases hm : k ∈ rest.map Prod.fst
      · rw [if_pos hm, if_pos (List.mem_cons.mpr (Or.inr hm))]
      · rw [if_neg hm, if_neg (fun hc =>
          (List.mem_cons.mp hc).elim (fun he => h0 he.symm) hm)]
        rfl

theorem dictInsert_keys_nodup {κ α : Type} [DecidableEq κ] (k : κ) (v : α)
    (l : List (κ × α)) (hnd : (l.map Prod.fst).Nodup) :
    ((dictInsert l k v).map Prod.fst).Nodup := by
  rw [dictInsert_keys]
  split_ifs with hm
  · exact hnd
  · simp [List.nodup_append, hnd, hm]

theorem dictGet_of_mem_nodup {κ α : Type} [DecidableEq κ] :
    ∀ (l : List (κ × α)), (l.map Prod.fst).Nodup → ∀ e ∈ l, dictGet l e.1 = some e.2 := by
  intro l
  induction l with
  | nil => intro _ e he; simp at he
  | cons hd rest ih =>
    intro hnd e he
    obtain ⟨k0, v0⟩ := hd
    have hnd' : (k0 :: rest.map Prod.fst).Nodup := by simpa using hnd
    obtain ⟨hk0, hrest⟩ := List.nodup_cons.mp hnd'
    rcases List.mem_cons.mp he with he0 | hem
    · rw [he0]
      show (if k0 = k0 then some v0 else dictGet rest k0) = some v0
      rw [if_pos rfl]
    · have hne : ¬ k0 = e.1 := fun he' =>
        hk0 (he' ▸ List.mem_map_of_mem Prod.fst hem)
      rw [show dictGet ((k0, v0) :: rest) e.1 =
        if k0 = e.1 then some v0 else dictGet rest e.1 from rfl, if_neg hne]
      exact ih hrest e hem

theorem mem_insort_desc (x y : Tile × ℚ × UkMap) :
    ∀ (l : List (Tile × ℚ × UkMap)), y ∈ insort_desc x l → y = x ∨ y ∈ l := by
  intro l
  induction l with
  | nil =>
    intro h
    rw [show insort_desc x [] = [x] from rfl] at h
    exact Or.inl (List.mem_singleton.mp h)
  | cons z rest ih =>
    intro h
    rw [show insort_desc x (z :: rest) =
      if x.2.1 < z.2.1 then z :: insort_desc x rest else x :: z :: rest from rfl] at h
    split at h
    · rcases List.mem_cons.mp h with hz | hm
      · exact Or.inr (List.mem_cons.mpr (Or.inl hz))
      · rcases ih hm with h1 | h2
        · exact Or.inl h1
        · exact Or.inr (List.mem_cons.mpr (Or.inr h2))
    · rcases List.mem_cons.mp h with hx | h'
      · exact Or.inl hx
      · exact Or.inr h'

theorem mem_sortByScoreDesc (y : Tile × ℚ × UkMap) :
    ∀ (l : ScoreMap), y ∈ sortByScoreDesc l → y ∈ l := by
  intro l
  induction l with
  | nil => intro h; rw [show sortByScoreDesc [] = [] from rfl] at h; simp at h
  | cons x rest ih =>
    intro h
    rw [show sortByScoreDesc (x :: rest) = insort_desc x (sortByScoreDesc rest)
      from rfl] at h
    rcases mem_insort_desc x y _ h with h1 | h2
    · exact List.mem_cons.mpr (Or.inl h1)
    · exact List.mem_cons.mpr (Or.inr (ih h2))

set_option maxHeartbeats 1000000 in
/-- The peak-theory bonus of one candidate is never negative. -/
theorem peak_bonus_nonneg (anlz : AnalyzeRec) (tile : Tile) (player : Player)
    (pool : List Tile) (cur : Int) (st : ShentanType) (uka : Option UkMap) (r : ℚ)
    (h : calculate_peak_theory_bonus anlz tile player pool cur st uka = .ok r) :
    0 ≤ r := by
  unfold calculate_peak_theory_bonus at h
  split at h
  · rw [← Except.ok.inj h]
  · split at h
    · exact Except.noConfusion h
    · dsimp only at h
      split at h
      · rw [← Except.ok.inj h]
      · split at h
        · rw [← Except.ok.inj h]
        · split at h
          · exact Except.noConfusion h
          · rw [← Except.ok.inj h]
            exact le_max_left 0 _

/-- The scoring loop keeps the keys of the score map duplicate-free. -/
theorem efficiency_fold_nodup (player : Player) (pool : List Tile)
    (st : ShentanType) (cur : Int) :
    ∀ (L : List Tile) (acc res : ScoreMap × Option UkMap),
      (acc.1.map Prod.fst).Nodup →
      L.foldlM (efficiency_step player pool st cur) acc = .ok res →
      (res.1.map Prod.fst).Nodup := by
  intro L
  induction L with
  | nil =>
    intro acc res hnd h
    rw [List.foldlM_nil] at h
    rw [← Except.ok.inj h]
    exact hnd
  | cons t L ih =>
    intro acc res hnd h
    rw [List.foldlM_cons] at h
    cases hstep : efficiency_step player pool st cur acc t with
    | error e =>
      rw [hstep] at h
      exact Except.noConfusion h
    | ok acc' =>
      rw [hstep] at h
      have h' : L.foldlM (efficiency_step player pool st cur) acc' = .ok res := h
      have hnd' : (acc'.1.map Prod.fst).Nodup := by
        unfold efficiency_step at hstep
        split at hstep
        · exact Except.noConfusion hstep
        · dsimp only at hstep
          split at hstep
          · exact Except.noConfusion hstep
          · rw [← Except.ok.inj hstep]
            exact dictInsert_keys_nodup _ _ _ hnd
      exact ih acc' res hnd' h'

/-- The tie test of `_apply_peak_theory`, as an expression over the score map:
the number of top-3 candidates within 0.1 of the leading score. -/
def topTiedCount (scores : ScoreMap) : Nat :=
  match ((sortByScoreDesc scores).take 3).head? with
  | none => 0
  | some top => (((sortByScoreDesc scores).take 3).filter
      (fun e => |e.2.1 - top.2.1| < 1 / 10)).length

theorem enhance_fold_props (anlz : AnalyzeRec) (player : Player) (pool : List Tile)
    (cur : Int) (st : ShentanType) (uk : UkMap) (scores : ScoreMap) :
    ∀ (L : List (Tile × ℚ × UkMap)) (acc res : ScoreMap),
      (∀ e ∈ L, dictGet scores e.1 = some e.2) →
      (∀ tile, (dictGet acc tile).isSome = (dictGet scores tile).isSome) →
      (∀ tile sc ukr, dictGet scores tile = some (sc, ukr) →
        ∃ sc', dictGet acc tile = some (sc', ukr) ∧ sc ≤ sc') →
      L.foldlM (fun enhanced e =>
          match calculate_peak_theory_bonus anlz e.1 player pool cur st (some uk) with
          | Except.error err => Except.error err
          | Except.ok peak_bonus =>
            Except.ok (dictInsert enhanced e.1 (e.2.1 + peak_bonus, e.2.2))) acc =
        Except.ok res →
      (∀ tile, (dictGet res tile).isSome = (dictGet scores tile).isSome) ∧
      (∀ tile sc ukr, dictGet scores tile = some (sc, ukr) →
        ∃ sc', dictGet res tile = some (sc', ukr) ∧ sc ≤ sc') := by
  intro L
  induction L with
  | nil =>
    intro acc res _ hi1 hi2 h
    rw [List.foldlM_nil] at h
    rw [← Except.ok.inj h]
    exact ⟨hi1, hi2⟩
  | cons e L ih =>
    intro acc res hcoh hi1 hi2 h
    rw [List.foldlM_cons] at h
    cases hb : calculate_peak_theory_bonus anlz e.1 player pool cur st (some uk) with
    | error err =>
      rw [hb] at h
      exact Except.noConfusion h
    | ok pb =>
      rw [hb] at h
      have hb0 : 0 ≤ pb := peak_bonus_nonneg _ _ _ _ _ _ _ _ hb
      have h' : L.foldlM (fun enhanced e =>
          match calculate_peak_theory_bonus anlz e.1 player pool cur st (some uk) with
          | Except.error err => Except.error err
          | Except.ok peak_bonus =>
            Except.ok (dictInsert enhanced e.1 (e.2.1 + peak_bonus, e.2.2)))
          (dictInsert acc e.1 (e.2.1 + pb, e.2.2)) = Except.ok res := h
      have hcoh0 := hcoh e (List.mem_cons.mpr (Or.inl rfl))
      refine ih (dictInsert acc e.1 (e.2.1 + pb, e.2.2)) res
        (fun e' he' => hcoh e' (List.mem_cons.mpr (Or.inr he'))) ?_ ?_ h'
      · intro tile
        rw [dictGet_dictInsert]
        by_cases ht : e.1 = tile
        · rw [if_pos ht, ← ht, hcoh0]
          rfl
        · rw [if_neg ht]
          exact hi1 tile
      · intro tile sc ukr hget
        rw [dictGet_dictInsert]
        by_cases ht : e.1 = tile
        · rw [if_pos ht]
          rw [ht, hget] at hcoh0
          have he2 : (sc, ukr) = e.2 := Option.some.inj hcoh0
          refine ⟨e.2.1 + pb, ?_, ?_⟩
          · rw [← he2]
          · rw [← he2]
            exact le_add_of_nonneg_right hb0
        · rw [if_neg ht]
          exact hi2 tile sc ukr hget

set_option maxHeartbeats 1000000 in
/-- `_apply_peak_theory` keeps the key set of the score map, never lowers any
candidate's score (the per-candidate bonus is non-negative), and returns the
scores untouched when the leader is not tied within the 0.1 tolerance. -/
theorem apply_peak_props (anlz : AnalyzeRec) (uk : UkMap) (scores : ScoreMap)
    (player : Player) (pool : List Tile) (st : ShentanType) (res : ScoreMap)
    (hnd : (scores.map Prod.fst).Nodup)
    (h : apply_peak_theory anlz uk scores player pool st = .ok res) :
    (∀ tile, (dictGet res tile).isSome = (dictGet scores tile).isSome) ∧
    (∀ tile sc ukr, dictGet scores tile = some (sc, ukr) →
      ∃ sc', dictGet res tile = some (sc', ukr) ∧ sc ≤ sc') ∧
    (topTiedCount scores ≤ 1 → res = scores) := by
  have htriv : res = scores →
      (∀ tile, (dictGet res tile).isSome = (dictGet scores tile).isSome) ∧
      (∀ tile sc ukr, dictGet scores tile = some (sc, ukr) →
        ∃ sc', dictGet res tile = some (sc', ukr) ∧ sc ≤ sc') ∧
      (topTiedCount scores ≤ 1 → res = scores) := by
    intro he
    subst he
    exact ⟨fun _ => rfl, fun tile sc ukr hg => ⟨sc, hg, le_refl _⟩, fun _ => rfl⟩
  unfold apply_peak_theory at h
  split at h
  · exact htriv (Except.ok.inj h).symm
  · dsimp only at h
    split at h
    · exact htriv (Except.ok.inj h).symm
    · split at h
      · exact htriv (Except.ok.inj h).symm
      · split at h
        case _ hhead => exact htriv (Except.ok.inj h).symm
        case _ top hhead =>
          split at h
          · exact htriv (Except.ok.inj h).symm
          case _ htied =>
            have hcoh : ∀ e ∈ (sortByScoreDesc scores).take 3,
                dictGet scores e.1 = some e.2 := by
              intro e he
              exact dictGet_of_mem_nodup scores hnd e
                (mem_sortByScoreDesc e scores (List.take_subset _ _ he))
            obtain ⟨p1, p2⟩ := enhance_fold_props anlz player pool
              (calculate_shanten player.hand_tiles player.melds_count st) st uk scores
              ((sortByScoreDesc scores).take 3) scores res hcoh (fun _ => rfl)
              (fun tile sc ukr hg => ⟨sc, hg, le_refl _⟩) h
            refine ⟨p1, p2, ?_⟩
            intro htie
            exfalso
            apply htied
            unfold topTiedCount at htie
            rw [hhead] at htie
            exact htie

/-- C7: the peak-theory refinement never lowers any candidate's score — with
peak theory enabled each candidate keeps its tile key and ukeire map and its
final score is at least its base score (the per-candidate bonus is
non-negative) — and when the top-scoring candidate is not tied within the 0.1
tolerance, enabling peak theory returns the very same score map, so the
top-ranked discard is unchanged. -/
theorem C7_peak_refinement_monotone (player : Player) (avail pool : List Tile)
    (st : ShentanType) (S Sp : ScoreMap)
    (hS : analyzeFuel 1 player avail pool st false = .ok S)
    (hSp : analyzeFuel 2 player avail pool st true = .ok Sp) :
    (∀ tile, (dictGet Sp tile).isSome = (dictGet S tile).isSome) ∧
    (∀ tile sc ukr, dictGet S tile = some (sc, ukr) →
      ∃ sc', dictGet Sp tile = some (sc', ukr) ∧ sc ≤ sc') ∧
    (topTiedCount S ≤ 1 → Sp = S) := by
  have htriv : Sp = S →
      (∀ tile, (dictGet Sp tile).isSome = (dictGet S tile).isSome) ∧
      (∀ tile sc ukr, dictGet S tile = some (sc, ukr) →
        ∃ sc', dictGet Sp tile = some (sc', ukr) ∧ sc ≤ sc') ∧
      (topTiedCount S ≤ 1 → Sp = S) := by
    intro he
    subst he
    exact ⟨fun _ => rfl, fun tile sc ukr hg => ⟨sc, hg, le_refl _⟩, fun _ => rfl⟩
  have hS2 : analyze_discard_efficiency_core (analyzeFuel 0) player avail pool st
      false = .ok S := hS
  have hSp2 : analyze_discard_efficiency_core (analyzeFuel 1) player avail pool st
      true = .ok Sp := hSp
  unfold analyze_discard_efficiency_core at hS2 hSp2
  dsimp only at hS2 hSp2
  cases hF : avail.foldlM (efficiency_step player pool st
      (calculate_shanten player.hand_tiles player.melds_count st)) ([], none) with
  | error e =>
    rw [hF] at hS2
    exact Except.noConfusion hS2
  | ok resf =>
    rw [hF] at hS2 hSp2
    dsimp only at hS2 hSp2
    rw [if_neg (by simp)] at hS2
    have hSf : resf.1 = S := Except.ok.inj hS2
    by_cases hcur : calculate_shanten player.hand_tiles player.melds_count st ≤ 2
    · rw [if_pos ⟨hcur, rfl⟩] at hSp2
      cases hres2 : resf.2 with
      | none =>
        rw [hres2] at hSp2
        exact Except.noConfusion hSp2
      | some uk =>
        rw [hres2] at hSp2
        have hnd : (S.map Prod.fst).Nodup := by
          have hnd0 := efficiency_fold_nodup player pool st
            (calculate_shanten player.hand_tiles player.melds_count st) avail
            ([], none) resf (by simp) hF
          rw [hSf] at hnd0
          exact hnd0
        rw [hSf] at hSp2
        exact apply_peak_props _ uk S player pool st Sp hnd hSp2
    · rw [if_neg (fun hc => hcur hc.1)] at hSp2
      exact htriv ((Except.ok.inj hSp2).symm.trans hSf)

/-- C7 witness: on a degenerate input with no discard candidates both runs
return the empty score map, on which the theorem's conclusions evaluate. -/
theorem C7_peak_refinement_monotone_witness :
    analyzeFuel 1 ⟨"p", [wanTile 1], 0, none, none⟩ [] [] .general false =
      .ok [] ∧
    analyzeFuel 2 ⟨"p", [wanTile 1], 0, none, none⟩ [] [] .general true =
      .ok [] ∧
    (topTiedCount [] ≤ 1 → ([] : ScoreMap) = []) := by
  refine ⟨by rfl, by rfl, ?_⟩
  exact (C7_peak_refinement_monotone ⟨"p", [wanTile 1], 0, none, none⟩
    [] [] .general [] [] (by rfl) (by rfl)).2.2

end Mahjong
